import Mathlib

/-!
# OpenMRNLite bridges

A shallow embedding of `src/OpenMRNLite.h`: the two transport bridges
(`SerialBridge`, `CanBridge`), the `WritePort` state flows they own, the hub
they talk to, and the loop of the `OpenMRN` object; further the tick
conversion macro of `freertos_includes.h` and the numeric entries of
`Esp32WiFiConfiguration.hxx`.

* Pointers that may be null are `Option`s; the address of a `WritePort`
  object is a `PortId`.
* `size_t` values are naturals reduced modulo `SIZE_MOD`; `int` values are
  integers.
* The bridges never inspect the bytes or frames they move, so the byte type
  `β` and the frame type `F` are parameters.
* Calls into the hardware port are recorded in the port model (`txLog`);
  calls of `notify()` and of `release_and_exit()` are counted in the flow
  model and calls of `alloc()` in the pool model, the way an instrumented test
  harness would.
* A `SerialBridge` owns its text hub, on which only its write port and the
  GridConnect adapter are registered; the CAN bridges share the CAN hub of the
  stack with any other ports.
* The state flow base class, the executor, the buffer pool and the hub are
  used by `OpenMRNLite.h` but defined elsewhere; their definitions here follow
  the specification and say so in their doc comments.
-/

namespace OpenMRNLite

/-- Identity of a hub port: the address of the port object (`&writePort_`). -/
abbrev PortId := Nat

/-- Number of values of `size_t` (32-bit targets). -/
def SIZE_MOD : Nat := 2 ^ 32

/-- Conversion of an `int` to `size_t`, as in `size_t len = port_->availableForWrite()`. -/
def toSizeT (i : Int) : Nat := (i % (SIZE_MOD : Int)).toNat

/-- Subtraction of two `size_t` values (wraps around). -/
def subSizeT (a b : Nat) : Nat := toSizeT ((a : Int) - (b : Int))

/-- Addition of two `size_t` values (wraps around). -/
def addSizeT (a b : Nat) : Nat := (a + b) % SIZE_MOD

/-- Payload of a hub buffer, `HubContainer<T>`: the data and the origin tag
`skipMember_` (`none` is the null pointer). -/
structure HubContainer (T : Type) where
  value : T
  skipMember_ : Option PortId
deriving DecidableEq, Repr

/-- Payload of the textual hub: a string of bytes plus the origin tag. -/
abbrev HubData (β : Type) := HubContainer (List β)

/-- Payload of the CAN hub: a frame plus the origin tag. -/
abbrev CanHubData (F : Type) := HubContainer F

/-- Modelled from the spec: the pool that the buffers of a hub are allocated
from (the buffer and pool classes are not in src). `allocCalls` is
instrumentation: the number of buffers allocated so far. -/
structure Pool where
  allocCalls : Nat
deriving DecidableEq, Repr

/-- Modelled from the spec: the pool allocation `alloc()` of a hub (the buffer
and pool classes are not in src). It takes one buffer from the pool; a new
buffer holds a default payload and a null origin tag. -/
def alloc {T : Type} [Inhabited T] (pool : Pool) : HubContainer T × Pool :=
  ({ value := default, skipMember_ := none }, { pool with allocCalls := pool.allocCalls + 1 })

/-- The named states of a `WritePort` flow. -/
inductive StateName where
  | entry
  | write_done
deriving DecidableEq, Repr

/-- What a state function returns to the executor. -/
inductive Action where
  | wait_and_call (next : StateName)
  | release_and_exit
deriving DecidableEq, Repr

/-- Modelled from the spec: the scheduling state of a flow (the state flow base
class is not in src): idle, runnable at a state, or suspended until `notify()`
with the state to resume at. -/
inductive RunState where
  | idle
  | runnable (st : StateName)
  | suspended (resume : StateName)
deriving DecidableEq, Repr

/-- Modelled from the spec: a hub port flow with its input queue (`HubPort`,
`CanHubPort` are not in src). `notifyCalls` and `released` are instrumentation:
the number of `notify()` calls and the buffers released so far. -/
structure HubPort (M : Type) where
  addr : PortId
  queue : List M
  message : Option M
  runState : RunState
  notifyCalls : Nat
  released : List M
deriving DecidableEq, Repr

namespace HubPort

variable {M : Type}

/-- Modelled from the spec: a newly constructed flow is idle with an empty queue. -/
def init (addr : PortId) : HubPort M :=
  { addr := addr, queue := [], message := none, runState := .idle,
    notifyCalls := 0, released := [] }

/-- Modelled from the spec: `send(buffer)` enqueues; an idle flow becomes
runnable at its initial state. -/
def send (m : M) (p : HubPort M) : HubPort M :=
  { p with
    queue := p.queue ++ [m]
    runState := match p.runState with
      | .idle => .runnable .entry
      | r => r }

/-- Modelled from the spec: `notify()` wakes a suspended flow, which resumes at
the state recorded when it suspended. -/
def notify (p : HubPort M) : HubPort M :=
  { p with
    notifyCalls := p.notifyCalls + 1
    runState := match p.runState with
      | .suspended s => .runnable s
      | r => r }

/-- Modelled from the spec: the initial state fires when a new buffer is taken
from the queue; the buffer becomes `message()`. -/
def takeNext (p : HubPort M) : HubPort M :=
  match p.queue with
  | [] => { p with runState := .idle }
  | m :: q => { p with message := some m, queue := q }

/-- Modelled from the spec: the executor applies the action a state returned.
Suspend-until-notified records the state to resume at; release-and-idle
releases the current buffer and begins the next one if the queue has more. -/
def apply (a : Action) (p : HubPort M) : HubPort M :=
  match a with
  | .wait_and_call s => { p with runState := .suspended s }
  | .release_and_exit =>
    { p with
      released := p.released ++ p.message.toList
      message := none
      runState := match p.queue with
        | [] => .idle
        | _ :: _ => .runnable .entry }

end HubPort

/-! ## SerialBridge -/

/-- An Arduino style serial port: the bytes received and not yet read, and the
record of the byte ranges passed to `write`, oldest first. -/
structure SerialPort (β : Type) where
  rxFifo : List β
  txLog : List (List β)
deriving DecidableEq, Repr

namespace SerialPort

variable {β : Type}

/-- Number of bytes that can be read, an `int`. -/
def available (p : SerialPort β) : Int := p.rxFifo.length

/-- Reads up to `n` bytes: the bytes read and the port afterwards. -/
def readBytes (p : SerialPort β) (n : Nat) : List β × SerialPort β :=
  (p.rxFifo.take n, { p with rxFifo := p.rxFifo.drop n })

/-- Writes a byte range to the port. -/
def write (p : SerialPort β) (bytes : List β) : SerialPort β :=
  { p with txLog := p.txLog ++ [bytes] }

end SerialPort

/-- The members of `SerialBridge` that change at run time, and the pool that
`txtHub_.alloc()` takes its buffers from. -/
structure SerialBridge (β : Type) where
  writePort_ : HubPort (HubData β)
  port_ : SerialPort β
  writeBuffer_ : Option (HubData β)
  writeOfs_ : Nat
  pool : Pool
deriving DecidableEq, Repr

/-- Resizing a string: truncates, or pads with default bytes. -/
def resize {β : Type} [Inhabited β] (s : List β) (n : Nat) : List β :=
  s.take n ++ List.replicate (n - s.length) default

namespace SerialBridge

variable {β : Type}

/-- The constructor: no pending buffer, an idle write port. `writeOfs_` has no
initialiser in the source, so its first value is arbitrary (`ofs0`). -/
def init (addr : PortId) (ofs0 : Nat) : SerialBridge β :=
  { writePort_ := HubPort.init addr
    port_ := { rxFifo := [], txLog := [] }
    writeBuffer_ := none
    writeOfs_ := ofs0 % SIZE_MOD
    pool := { allocCalls := 0 } }

/-- Handles data going out towards the serial port; `avail` is what
`port_->availableForWrite()` returns in this poll. -/
def loop_for_write (avail : Int) (b : SerialBridge β) : SerialBridge β :=
  match b.writeBuffer_ with
  | none => b
  | some wb =>
    let len := toSizeT avail
    if len = 0 then b
    else
      let to_write := subSizeT wb.value.length b.writeOfs_
      let len := if len > to_write then to_write else len
      let b1 := { b with port_ := b.port_.write ((wb.value.drop b.writeOfs_).take len) }
      let b2 := { b1 with writeOfs_ := addSizeT b1.writeOfs_ len }
      if b2.writeOfs_ ≥ wb.value.length then
        { b2 with writeBuffer_ := none, writePort_ := b2.writePort_.notify }
      else b2

/-- Handles data coming in from the serial port: the bridge afterwards and
the buffers sent to `txtHub_`. -/
def loop_for_read [Inhabited β] (b : SerialBridge β) : SerialBridge β × List (HubData β) :=
  let av : Int := b.port_.available
  if av ≤ 0 then (b, [])
  else
    let a : HubData β × Pool := alloc b.pool
    let buf0 : HubData β := a.1
    let buf1 : HubData β := { buf0 with skipMember_ := some b.writePort_.addr }
    let buf2 : HubData β := { buf1 with value := resize buf1.value av.toNat }
    let r := b.port_.readBytes buf2.value.length
    let buf3 : HubData β := { buf2 with value := r.1 ++ buf2.value.drop r.1.length }
    ({ b with port_ := r.2, pool := a.2 }, [buf3])

/-- Called by the loop: the bridge afterwards and the buffers sent to `txtHub_`. -/
def run [Inhabited β] (avail : Int) (b : SerialBridge β) : SerialBridge β × List (HubData β) :=
  loop_for_read (loop_for_write avail b)

/-- State `entry` of the write port: a new buffer of data to be sent shows up. -/
def WritePort.entry (b : SerialBridge β) : SerialBridge β × Action :=
  ({ b with writeBuffer_ := b.writePort_.message, writeOfs_ := 0 }, .wait_and_call .write_done)

/-- State `write_done` of the write port. -/
def WritePort.write_done (b : SerialBridge β) : SerialBridge β × Action :=
  (b, .release_and_exit)

/-- Modelled from the spec: one executor step on the write port flow (the
executor is not in src): a runnable flow runs its current state function once
and the returned action is applied; an idle or suspended flow does not run. -/
def executorStep (b : SerialBridge β) : SerialBridge β :=
  match b.writePort_.runState with
  | .runnable .entry =>
    match b.writePort_.queue with
    | [] => { b with writePort_ := b.writePort_.takeNext }
    | _ :: _ =>
      let r := WritePort.entry { b with writePort_ := b.writePort_.takeNext }
      { r.1 with writePort_ := r.1.writePort_.apply r.2 }
  | .runnable .write_done =>
    let r := WritePort.write_done b
    { r.1 with writePort_ := r.1.writePort_.apply r.2 }
  | _ => b

end SerialBridge

/-! ## CanBridge -/

/-- A CAN controller driver: the frames received and not yet read, the frames
passed to `write`, oldest first, and whether the controller is enabled. -/
structure Can (F : Type) where
  rxFifo : List F
  txLog : List F
  enabled : Bool
deriving DecidableEq, Repr

namespace Can

variable {F : Type}

/-- Number of frames that can be read. -/
def available (c : Can F) : Int := c.rxFifo.length

/-- Reads one frame into `frame`; with nothing to read the frame is untouched. -/
def read (c : Can F) (frame : F) : F × Can F :=
  match c.rxFifo with
  | [] => (frame, c)
  | f :: rest => (f, { c with rxFifo := rest })

/-- Writes one frame to the controller. -/
def write (c : Can F) (frame : F) : Can F :=
  { c with txLog := c.txLog ++ [frame] }

/-- Enables the controller. -/
def enable (c : Can F) : Can F := { c with enabled := true }

/-- Disables the controller. -/
def disable (c : Can F) : Can F := { c with enabled := false }

end Can

/-- The members of `CanBridge` that change at run time, and the pool that
`canHub_->alloc()` takes its buffers from. -/
structure CanBridge (F : Type) where
  port_ : Can F
  writeBuffer_ : Option (CanHubData F)
  writePort_ : HubPort (CanHubData F)
  pool : Pool
deriving DecidableEq, Repr

namespace CanBridge

variable {F : Type}

/-- The constructor: enables the port; no pending buffer, an idle write port. -/
def init (addr : PortId) (port : Can F) : CanBridge F :=
  { port_ := port.enable
    writeBuffer_ := none
    writePort_ := HubPort.init addr
    pool := { allocCalls := 0 } }

/-- The destructor body. -/
def destroy (b : CanBridge F) : CanBridge F :=
  { b with port_ := b.port_.disable }

/-- Handles data going out towards the CAN port; `avail` is what
`port_->availableForWrite()` returns in this poll. -/
def loop_for_write (avail : Int) (b : CanBridge F) : CanBridge F :=
  match b.writeBuffer_ with
  | none => b
  | some wb =>
    if avail ≤ 0 then b
    else
      let b1 := { b with port_ := b.port_.write wb.value }
      let b2 := { b1 with writeBuffer_ := none }
      { b2 with writePort_ := b2.writePort_.notify }

/-- The `while (port_->available())` loop of `loop_for_read`, with a bound on
the number of iterations: the bridge afterwards and the buffers sent to
`canHub_`, oldest first. -/
def readLoop [Inhabited F] : Nat → CanBridge F → CanBridge F × List (CanHubData F)
  | 0, b => (b, [])
  | fuel + 1, b =>
    if b.port_.available ≠ 0 then
      let a : CanHubData F × Pool := alloc b.pool
      let buf0 : CanHubData F := a.1
      let r := b.port_.read buf0.value
      let buf1 : CanHubData F := { buf0 with value := r.1 }
      let buf2 : CanHubData F := { buf1 with skipMember_ := some b.writePort_.addr }
      let rest := readLoop fuel { b with port_ := r.2, pool := a.2 }
      (rest.1, buf2 :: rest.2)
    else (b, [])

/-- Handles data coming from the CAN port. Each `read` removes one frame, so
the loop runs at most once per frame in the FIFO. -/
def loop_for_read [Inhabited F] (b : CanBridge F) : CanBridge F × List (CanHubData F) :=
  readLoop b.port_.rxFifo.length b

/-- Called by the loop: the bridge afterwards and the buffers sent to `canHub_`. -/
def run [Inhabited F] (avail : Int) (b : CanBridge F) : CanBridge F × List (CanHubData F) :=
  loop_for_read (loop_for_write avail b)

/-- State `entry` of the write port. -/
def WritePort.entry (b : CanBridge F) : CanBridge F × Action :=
  ({ b with writeBuffer_ := b.writePort_.message }, .wait_and_call .write_done)

/-- State `write_done` of the write port. -/
def WritePort.write_done (b : CanBridge F) : CanBridge F × Action :=
  (b, .release_and_exit)

/-- Modelled from the spec: one executor step on the write port flow (the
executor is not in src), as for `SerialBridge.executorStep`. -/
def executorStep (b : CanBridge F) : CanBridge F :=
  match b.writePort_.runState with
  | .runnable .entry =>
    match b.writePort_.queue with
    | [] => { b with writePort_ := b.writePort_.takeNext }
    | _ :: _ =>
      let r := WritePort.entry { b with writePort_ := b.writePort_.takeNext }
      { r.1 with writePort_ := r.1.writePort_.apply r.2 }
  | .runnable .write_done =>
    let r := WritePort.write_done b
    { r.1 with writePort_ := r.1.writePort_.apply r.2 }
  | _ => b

end CanBridge

/-! ## A bridge and its environment -/

/-- What can happen to a bridge: the hub hands a buffer to its write port
(`deliver`), the executor runs the write port flow once (`exec`), the hardware
receives data (`hwReceive`), or the loop calls `run()` while the port reports
`avail` as its write capacity (`run`). -/
inductive Event (M D : Type) where
  | deliver (m : M)
  | exec
  | hwReceive (d : D)
  | run (avail : Int)
deriving DecidableEq, Repr

/-- The buffer an event hands to the write port, if any. -/
def Event.delivery {M D : Type} : Event M D → Option M
  | .deliver m => some m
  | _ => none

/-- The buffers handed to the write port in a sequence of events, oldest
first. -/
def Event.delivered {M D : Type} (evs : List (Event M D)) : List M :=
  evs.filterMap Event.delivery

/-- The size of a delivered string fits `size_t`. -/
def Event.sizeOk {β D : Type} : Event (HubData β) D → Prop
  | .deliver m => m.value.length < SIZE_MOD
  | _ => True

namespace SerialBridge

variable {β : Type}

/-- A sequence of `loop_for_write` polls, one per reported capacity. -/
def polls (caps : List Int) (b : SerialBridge β) : SerialBridge β :=
  caps.foldl (fun s a => loop_for_write a s) b

/-- One event: the bridge afterwards and the buffers it sent to `txtHub_`. -/
def step [Inhabited β] (e : Event (HubData β) (List β)) (b : SerialBridge β) :
    SerialBridge β × List (HubData β) :=
  match e with
  | .deliver m => ({ b with writePort_ := b.writePort_.send m }, [])
  | .exec => (b.executorStep, [])
  | .hwReceive d => ({ b with port_ := { b.port_ with rxFifo := b.port_.rxFifo ++ d } }, [])
  | .run avail => b.run avail

/-- The bridge after a sequence of events. -/
def after [Inhabited β] (evs : List (Event (HubData β) (List β))) (b : SerialBridge β) :
    SerialBridge β :=
  evs.foldl (fun s e => (step e s).1) b

end SerialBridge

namespace CanBridge

variable {F : Type}

/-- One event: the bridge afterwards and the buffers it sent to `canHub_`. -/
def step [Inhabited F] (e : Event (CanHubData F) (List F)) (b : CanBridge F) :
    CanBridge F × List (CanHubData F) :=
  match e with
  | .deliver m => ({ b with writePort_ := b.writePort_.send m }, [])
  | .exec => (b.executorStep, [])
  | .hwReceive d => ({ b with port_ := { b.port_ with rxFifo := b.port_.rxFifo ++ d } }, [])
  | .run avail => b.run avail

/-- The bridge after a sequence of events. -/
def after [Inhabited F] (evs : List (Event (CanHubData F) (List F))) (b : CanBridge F) :
    CanBridge F :=
  evs.foldl (fun s e => (step e s).1) b

end CanBridge

/-! ## Invariants of a bridge and its write port -/

/-- The write port flow and the pending buffer of its bridge agree: the flow
is suspended in `write_done` exactly while a buffer is pending, and that buffer
is the flow's current message. -/
def FlowInv {M : Type} (p : HubPort M) (wbuf : Option M) : Prop :=
  match p.runState with
  | .idle => p.queue = [] ∧ p.message = none ∧ wbuf = none
  | .runnable .entry => p.queue ≠ [] ∧ p.message = none ∧ wbuf = none
  | .suspended .write_done => wbuf ≠ none ∧ wbuf = p.message
  | .runnable .write_done => wbuf = none ∧ p.message ≠ none
  | .suspended .entry => False

/-- The bytes of the current message that the hardware has taken so far. -/
def SerialBridge.inFlight {β : Type} (b : SerialBridge β) : List β :=
  match b.writePort_.message with
  | some m => m.value.take b.writeOfs_
  | none => []

/-- The frame of the current message, once the hardware has taken it. -/
def CanBridge.inFlight {F : Type} (b : CanBridge F) : List F :=
  match b.writePort_.runState with
  | .runnable .write_done => b.writePort_.message.toList.map HubContainer.value
  | _ => []

/-- The write offset and the transmit record of a serial bridge agree with its
write port flow: sizes fit `size_t`, the offset stays within the current
message and has reached its end when `write_done` is due, and the bytes
written so far are the released payloads followed by the part of the current
message before the offset. -/
def SerialBridge.TxInv {β : Type} (b : SerialBridge β) : Prop :=
  (∀ m ∈ b.writePort_.queue, m.value.length < SIZE_MOD) ∧
  (∀ m, b.writePort_.message = some m →
    m.value.length < SIZE_MOD ∧ b.writeOfs_ ≤ m.value.length) ∧
  (b.writePort_.runState = .runnable .write_done →
    ∀ m, b.writePort_.message = some m → b.writeOfs_ = m.value.length) ∧
  b.port_.txLog.flatten =
    (b.writePort_.released.map HubContainer.value).flatten ++ b.inFlight

/-- The transmit record of a CAN bridge agrees with its write port flow: the
frames written since construction (`base` was written before) are the released
frames followed by the current one once it is written. -/
def CanBridge.TxInv {F : Type} (base : List F) (b : CanBridge F) : Prop :=
  b.port_.txLog = base ++ b.writePort_.released.map HubContainer.value ++ b.inFlight

/-! ## Hub -/

/-- Modelled from the spec: the hub (the hub flow classes are not in src). It
owns the set of registered ports and a queue of inbound messages awaiting
distribution; `port p` is the state of the port with identity `p`. -/
structure Hub (M Q : Type) where
  ports : List PortId
  inbound : List M
  port : PortId → Q

namespace Hub

variable {T Q : Type}

/-- Modelled from the spec: `register_port` adds a port to the set. -/
def register_port (p : PortId) (h : Hub (HubContainer T) Q) : Hub (HubContainer T) Q :=
  if p ∈ h.ports then h else { h with ports := h.ports ++ [p] }

/-- Modelled from the spec: `send(buffer)` enqueues the buffer for distribution. -/
def send (m : HubContainer T) (h : Hub (HubContainer T) Q) : Hub (HubContainer T) Q :=
  { h with inbound := h.inbound ++ [m] }

/-- Modelled from the spec: the distribution algorithm. For each registered
port other than the buffer's tagged origin, deliver a reference to that port. -/
def distribute (deliver : HubContainer T → Q → Q) (m : HubContainer T)
    (ports : List PortId) (st : PortId → Q) : PortId → Q :=
  ports.foldl
    (fun s p => if some p = m.skipMember_ then s else Function.update s p (deliver m (s p))) st

/-- Modelled from the spec: the hub flow takes the oldest inbound message and
distributes it. -/
def step (deliver : HubContainer T → Q → Q) (h : Hub (HubContainer T) Q) :
    Hub (HubContainer T) Q :=
  match h.inbound with
  | [] => h
  | m :: rest => { h with inbound := rest, port := distribute deliver m h.ports h.port }

/-- The hub flow runs until its inbound queue is empty. -/
def runAll (deliver : HubContainer T → Q → Q) (h : Hub (HubContainer T) Q) :
    Hub (HubContainer T) Q :=
  (step deliver)^[h.inbound.length] h

end Hub

/-- What happens at a hub whose ports only queue what they receive: a port
sends a message to the hub, or the hub flow distributes one message. -/
inductive HubEvent (M : Type) where
  | send (m : M)
  | step
deriving DecidableEq, Repr

/-- The messages sent in a sequence of hub events, oldest first. -/
def HubEvent.sent {M : Type} : List (HubEvent M) → List M
  | [] => []
  | .send m :: rest => m :: HubEvent.sent rest
  | .step :: rest => HubEvent.sent rest

/-- A hub with queueing ports after a sequence of events. -/
def Hub.after {T : Type} (evs : List (HubEvent (HubContainer T)))
    (h : Hub (HubContainer T) (HubPort (HubContainer T))) :
    Hub (HubContainer T) (HubPort (HubContainer T)) :=
  evs.foldl
    (fun s e => match e with
      | .send m => s.send m
      | .step => s.step HubPort.send) h

/-! ## A hub with bridges as ports -/

/-- The bytes on the write path of a serial bridge: queued at its write port,
in its current message, pending in `writeBuffer_`, or written to the port. -/
def SerialBridge.held {β : Type} (b : SerialBridge β) : List β :=
  (b.writePort_.queue.map HubContainer.value).flatten ++
    (b.writePort_.message.toList.map HubContainer.value).flatten ++
    (b.writeBuffer_.toList.map HubContainer.value).flatten ++ b.port_.txLog.flatten

/-- The frames on the write path of a CAN bridge: queued at its write port, in
its current message, pending in `writeBuffer_`, or written to the port. -/
def CanBridge.held {F : Type} (b : CanBridge F) : List F :=
  b.writePort_.queue.map HubContainer.value ++
    b.writePort_.message.toList.map HubContainer.value ++
    b.writeBuffer_.toList.map HubContainer.value ++ b.port_.txLog

/-- A kind of bridge as the hub sees it: how a bridge reacts to an event, the
items (bytes or frames) of a payload, the items on the write path of a bridge
and in its receive FIFO, and the identity of its write port. -/
structure BridgeKind (B T X : Type) where
  step : Event (HubContainer T) (List X) → B → B × List (HubContainer T)
  items : T → List X
  held : B → List X
  rx : B → List X
  addr : B → PortId

/-- A serial bridge on its textual hub. -/
def serialKind {β : Type} [Inhabited β] : BridgeKind (SerialBridge β) (List β) β :=
  { step := SerialBridge.step
    items := fun s => s
    held := SerialBridge.held
    rx := fun b => b.port_.rxFifo
    addr := fun b => b.writePort_.addr }

/-- The CAN bridges on a CAN hub. -/
def canKind {F : Type} [Inhabited F] : BridgeKind (CanBridge F) F F :=
  { step := CanBridge.step
    items := fun f => [f]
    held := CanBridge.held
    rx := fun b => b.port_.rxFifo
    addr := fun b => b.writePort_.addr }

/-- What a bridge kind must satisfy for loop avoidance: a step keeps the port
identity, puts on the write path only what was there or was delivered, adds to
the receive FIFO only what the hardware received, and sends to the hub only
buffers tagged with the own port identity and read from the receive FIFO. -/
structure BridgeKind.Lawful {B T X : Type} (K : BridgeKind B T X) : Prop where
  addr_step : ∀ e b, K.addr (K.step e b).1 = K.addr b
  held_step : ∀ e b x, x ∈ K.held (K.step e b).1 →
    x ∈ K.held b ∨ ∃ m, e = .deliver m ∧ x ∈ K.items m.value
  rx_step : ∀ e b x, x ∈ K.rx (K.step e b).1 →
    x ∈ K.rx b ∨ ∃ d, e = .hwReceive d ∧ x ∈ d
  out_step : ∀ e b m, m ∈ (K.step e b).2 →
    m.skipMember_ = some (K.addr b) ∧ ∀ x ∈ K.items m.value, x ∈ K.rx b

/-- A port registered at a hub: a bridge, or another port (on the `txtHub_` of
a `SerialBridge` the GridConnect adapter; on the CAN hub the adapters and the
flows of the stack), of which only the identity and the buffers the hub
delivered to it are kept. What another port sends to the hub is an event of
the hub. -/
inductive Port (B M : Type) where
  | bridge (b : B)
  | other (addr : PortId) (received : List M)
deriving DecidableEq, Repr

/-- The bridge behind a port, if the port is one. -/
def Port.asBridge {B M : Type} : Port B M → Option B
  | .bridge b => some b
  | .other _ _ => none

/-- The ports of a hub on which bridges of the kind `K` and other ports are
registered: a bridge reacts as its kind says; another port keeps the buffers
delivered to it, and nothing else happens to it. -/
def BridgeKind.withOthers {B T X : Type} (K : BridgeKind B T X) :
    BridgeKind (Port B (HubContainer T)) T X :=
  { step := fun e p =>
      match p with
      | .bridge b => (.bridge (K.step e b).1, (K.step e b).2)
      | .other a r =>
        match e with
        | .deliver m => (.other a (r ++ [m]), [])
        | _ => (.other a r, [])
    items := K.items
    held := fun p =>
      match p with
      | .bridge b => K.held b
      | .other _ _ => []
    rx := fun p =>
      match p with
      | .bridge b => K.rx b
      | .other _ _ => []
    addr := fun p =>
      match p with
      | .bridge b => K.addr b
      | .other a _ => a }

/-- What happens in a hub with bridges: something happens to bridge `i` (an
executor step, hardware input, a `run()` poll), the hub flow distributes one
message, or a port that is not a bridge sends a message to the hub. -/
inductive SysEvent (T X : Type) where
  | bridge (i : PortId) (e : Event (HubContainer T) (List X))
  | hubStep
  | inject (m : HubContainer T)

namespace System

variable {B T X : Type}

/-- The hub and its bridges after one event. What a bridge sends goes to the
hub's inbound queue; the hub delivers by `send` to the write port. -/
def step (K : BridgeKind B T X) (e : SysEvent T X) (h : Hub (HubContainer T) B) :
    Hub (HubContainer T) B :=
  match e with
  | .bridge i ev =>
    let r := K.step ev (h.port i)
    { h with port := Function.update h.port i r.1, inbound := h.inbound ++ r.2 }
  | .hubStep => h.step (fun m b => (K.step (.deliver m) b).1)
  | .inject m => h.send m

/-- The hub and its bridges after a sequence of events. -/
def after (K : BridgeKind B T X) (evs : List (SysEvent T X)) (h : Hub (HubContainer T) B) :
    Hub (HubContainer T) B :=
  evs.foldl (fun s e => step K e s) h

/-- The environment of the bridge at `i0`, `lab x` being the hardware port at
which the item `x` entered: what the hardware of bridge `i` receives entered at
`i`, a bridge gets buffers from the hub only, and what the other ports send to
the hub holds nothing that entered at `i0`. -/
def ok (K : BridgeKind B T X) (lab : X → Option PortId) (i0 : PortId) : SysEvent T X → Prop
  | .bridge i (.hwReceive d) => ∀ x ∈ d, lab x = some i
  | .bridge _ (.deliver _) => False
  | .bridge _ _ => True
  | .hubStep => True
  | .inject m => ∀ x ∈ K.items m.value, lab x ≠ some i0

/-- Loop avoidance for the bridge at `i0` as an invariant: a buffer in the
hub's queue that holds an item which entered at `i0` is tagged with `i0`; the
port at `i` has the identity `i` and its receive FIFO holds only what entered
at `i`; nothing on the write path of the bridge at `i0` entered at `i0`. -/
def Inv (K : BridgeKind B T X) (lab : X → Option PortId) (i0 : PortId)
    (h : Hub (HubContainer T) B) : Prop :=
  (∀ m ∈ h.inbound, ∀ x ∈ K.items m.value, lab x = some i0 → m.skipMember_ = some i0) ∧
  (∀ i, K.addr (h.port i) = i ∧ ∀ x ∈ K.rx (h.port i), lab x = some i) ∧
  ∀ x ∈ K.held (h.port i0), lab x ≠ some i0

end System

/-- The private text hub `txtHub_` of a new `SerialBridge`, as its constructor
leaves it: `CreateGridConnectAdapter` has registered the adapter (`g`), then
the write port of the bridge (`w`) is registered. -/
def serialSystem {β : Type} (w g : PortId) (ofs0 : Nat) :
    Hub (HubData β) (Port (SerialBridge β) (HubData β)) :=
  Hub.register_port w (Hub.register_port g
    { ports := [], inbound := []
      port := fun i => if i = w then .bridge (SerialBridge.init w ofs0) else .other i [] })

/-- The CAN hub of the stack with a new CAN bridge registered at each of the
ports `bridges` (one `add_can_port` call each) and other ports registered at
`others`. -/
def canSystem {F : Type} (bridges others : List PortId) :
    Hub (CanHubData F) (Port (CanBridge F) (CanHubData F)) :=
  { ports := bridges ++ others, inbound := []
    port := fun i =>
      if i ∈ bridges then
        .bridge (CanBridge.init i { rxFifo := [], txLog := [], enabled := false })
      else .other i [] }

/-! ## Concrete states -/

/-- A buffer of ten bytes with no origin tag. -/
def tenBytes : HubData Nat :=
  { value := [0, 1, 2, 3, 4, 5, 6, 7, 8, 9], skipMember_ := none }

/-- A CAN frame: identifier and data bytes. -/
structure Frame where
  can_id : Nat
  data : List Nat
deriving DecidableEq, Repr, Inhabited

/-- A CAN buffer with no origin tag. -/
def oneFrame : CanHubData Frame :=
  { value := { can_id := 0x195b4123, data := [1, 2] }, skipMember_ := none }

/-- A CAN driver that has done nothing yet. -/
def canIdlePort : Can Frame := { rxFifo := [], txLog := [], enabled := false }

/-- A newly constructed serial bridge. -/
def serialFresh : SerialBridge Nat := SerialBridge.init 1 0

/-- A newly constructed CAN bridge. -/
def canFresh : CanBridge Frame := CanBridge.init 2 canIdlePort

/-- A serial bridge whose write port has just taken `tenBytes` from its queue. -/
def serialTaken : SerialBridge Nat :=
  { serialFresh with writePort_ := (serialFresh.writePort_.send tenBytes).takeNext }

/-- Ten bytes are delivered and four of them written. -/
def serialBusy : List (Event (HubData Nat) (List Nat)) :=
  [.deliver tenBytes, .exec, .run 4]

/-- One frame is delivered and the controller has no room for it. -/
def canBusy : List (Event (CanHubData Frame) (List Frame)) :=
  [.deliver oneFrame, .exec, .run 0]

/-- A serial bridge with `tenBytes` pending for write, four bytes already out. -/
def serialPending : SerialBridge Nat := SerialBridge.after serialBusy serialFresh

/-- A CAN bridge with `oneFrame` pending for write. -/
def canPending : CanBridge Frame := CanBridge.after canBusy canFresh

/-- Ten bytes are delivered and written in three polls; `write_done` is due. -/
def serialWritten : List (Event (HubData Nat) (List Nat)) :=
  [.deliver tenBytes, .exec, .run 4, .run 4, .run 4]

/-- One frame is delivered and written; `write_done` is due. -/
def canWritten : List (Event (CanHubData Frame) (List Frame)) :=
  [.deliver oneFrame, .exec, .run 1]

/-- A message with origin tag 0 (port A). -/
def fromA : HubContainer Nat := { value := 42, skipMember_ := some 0 }

/-- A hub with the ports A = 0, B = 1, C = 2 registered, nothing queued. -/
def hubABC : Hub (HubContainer Nat) (HubPort (HubContainer Nat)) :=
  Hub.register_port 2 (Hub.register_port 1 (Hub.register_port 0
    { ports := [], inbound := [], port := fun p => HubPort.init p }))

/-- Two bytes enter at the hardware of the serial bridge 0, which sends them
to its text hub; the hub hands them to the adapter 1. The adapter sends two
bytes that come from elsewhere, which the bridge writes to its port. Each byte
carries the port at which it entered. -/
def serialTraffic : List (SysEvent (List (Nat × Option PortId)) (Nat × Option PortId)) :=
  [.bridge 0 (.hwReceive [(58, some 0), (88, some 0)]), .bridge 0 (.run 0), .hubStep,
    .inject { value := [(59, none), (78, none)], skipMember_ := some 1 }, .hubStep,
    .bridge 0 .exec, .bridge 0 (.run 8)]

/-- A frame enters at the hardware of bridge 0; both bridges poll, the hub
distributes, and the executor runs both write ports. Then the other port 5
sends a frame of its own. -/
def canTraffic : List (SysEvent (Nat × Option PortId) (Nat × Option PortId)) :=
  [.bridge 0 (.hwReceive [(7, some 0)]), .bridge 0 (.run 0), .hubStep,
    .bridge 1 .exec, .bridge 1 (.run 1), .bridge 0 .exec, .bridge 0 (.run 1),
    .inject { value := (9, none), skipMember_ := some 5 }, .hubStep,
    .bridge 0 .exec, .bridge 0 (.run 1)]

/-- A frame enters at the hardware of bridge 0 and the hub hands it to the
other port 5. That port sends the frame to the hub again, as a buffer of its
own; the hub delivers it to bridge 0, which writes it to its hardware. -/
def canEcho : List (SysEvent (Nat × Option PortId) (Nat × Option PortId)) :=
  [.bridge 0 (.hwReceive [(7, some 0)]), .bridge 0 (.run 0), .hubStep,
    .inject { value := (7, some 0), skipMember_ := some 5 }, .hubStep,
    .bridge 0 .exec, .bridge 0 (.run 1)]

/-- A new serial bridge whose port has received three bytes. -/
def serialReceived : SerialBridge Nat :=
  SerialBridge.after [.hwReceive [65, 66, 67]] serialFresh

/-- A second CAN frame. -/
def otherFrame : Frame := { can_id := 0x195b4456, data := [] }

/-- A new CAN bridge whose controller has received two frames. -/
def canReceived : CanBridge Frame :=
  CanBridge.after [.hwReceive [oneFrame.value, otherFrame]] canFresh

/-! ## Tick conversion (`freertos_includes.h`) -/

/-- Reduction of an integer to the range of `long long` (64 bit, two's
complement). -/
def wrapLL (x : Int) : Int :=
  (x + 9223372036854775808) % 18446744073709551616 - 9223372036854775808

/-- The macro `NSEC_TO_TICK(ns)` on ESP32. `ns` is the value of
`(long long)(ns)`; `hz` is `configTICK_RATE_HZ`, which the FreeRTOS
configuration defines. Division is that of C (truncation toward zero); the
product and the sum are `long long`. -/
def NSEC_TO_TICK (hz ns : Int) : Int :=
  Int.tdiv (wrapLL (wrapLL (Int.tdiv ns 1000 * hz) + 999999)) 1000000

/-! ## WiFi configuration (`Esp32WiFiConfiguration.hxx`) -/

/-- A `<map>` of a configuration entry: the `<relation>`s of the string, in
order, each a `<property>` (key) and a `<value>` (label). -/
abbrev ValueMap := List (Int × String)

/-- Keys and labels for the on/off fields. -/
def BOOLEAN_MAP : ValueMap := [(0, "Disabled"), (1, "Enabled")]

/-- Keys and labels for the transmit power field. -/
def WIFI_TX_POWER_MAP : ValueMap :=
  [(8, "2 dBm"), (20, "5 dBm"), (28, "7 dBm"), (34, "8 dBm"), (44, "11 dBm"),
    (52, "13 dBm"), (56, "14 dBm"), (60, "15 dBm"), (66, "16 dBm"), (72, "18 dBm"),
    (78, "20 dBm")]

/-- Keys and labels for the `wifi_mode` field. -/
def WIFI_MODES_MAP : ValueMap :=
  [(0, "Off"), (1, "Station Only"), (2, "SoftAP Only"), (3, "SoftAP and Station")]

/-- Keys and labels for the SoftAP authentication field. -/
def SOFTAP_AUTH_MAP : ValueMap :=
  [(0, "Open"), (1, "WEP"), (2, "WPA"), (3, "WPA2"), (4, "WPA/WPA2"), (6, "WPA3"),
    (7, "WPA2/WPA3")]

/-- The integer types of the numeric configuration entries. -/
inductive EntryType where
  | Uint8
  | Uint16
  | Int8
deriving DecidableEq, Repr

/-- The least value of an entry type. -/
def EntryType.lo : EntryType → Int
  | .Uint8 => 0
  | .Uint16 => 0
  | .Int8 => -128

/-- The greatest value of an entry type. -/
def EntryType.hi : EntryType → Int
  | .Uint8 => 255
  | .Uint16 => 65535
  | .Int8 => 127

/-- A numeric `CDI_GROUP_ENTRY` whose default is a literal: its group, name
and type, the arguments of `Min`, `Max` and `Default`, the inline comment
after `Default(...)` and the `MapValues` argument, where present. -/
structure NumericEntry where
  group : String
  name : String
  type : EntryType
  min : Int
  max : Int
  default : Int
  comment : Option String
  map : Option ValueMap
deriving DecidableEq, Repr

/-- The label the map of an entry gives to its default. -/
def NumericEntry.label (e : NumericEntry) : Option String :=
  e.map.bind (fun m => m.lookup e.default)

/-- `HubConfiguration::enable`. -/
def hub_enable : NumericEntry :=
  { group := "HubConfiguration", name := "enable", type := .Uint8
    min := 0, max := 1, default := 0, comment := some "Disabled", map := some BOOLEAN_MAP }

/-- `UplinkConfiguration::enable`. -/
def uplink_enable : NumericEntry :=
  { group := "UplinkConfiguration", name := "enable", type := .Uint8
    min := 0, max := 1, default := 1, comment := some "Enabled", map := some BOOLEAN_MAP }

/-- `AdvancedConfiguration::sleep`. -/
def advanced_sleep : NumericEntry :=
  { group := "AdvancedConfiguration", name := "sleep", type := .Uint8
    min := 0, max := 1, default := 0, comment := some "Disabled", map := some BOOLEAN_MAP }

/-- `AdvancedConfiguration::tx_power`. -/
def advanced_tx_power : NumericEntry :=
  { group := "AdvancedConfiguration", name := "tx_power", type := .Int8
    min := 8, max := 78, default := 78, comment := some "Max power"
    map := some WIFI_TX_POWER_MAP }

/-- `WiFiStationConfig::reboot_on_failure`. -/
def station_reboot_on_failure : NumericEntry :=
  { group := "WiFiStationConfig", name := "reboot_on_failure", type := .Uint8
    min := 0, max := 1, default := 1, comment := some "Enabled", map := some BOOLEAN_MAP }

/-- `WiFiSoftAPConfig::auth`. -/
def softap_auth : NumericEntry :=
  { group := "WiFiSoftAPConfig", name := "auth", type := .Uint8
    min := 0, max := 7, default := 3, comment := some "WPA2", map := some SOFTAP_AUTH_MAP }

/-- `WiFiSoftAPConfig::channel`. -/
def softap_channel : NumericEntry :=
  { group := "WiFiSoftAPConfig", name := "channel", type := .Uint8
    min := 1, max := 14, default := 1, comment := none, map := none }

/-- `WiFiConfiguration::wifi_mode`. -/
def wifi_mode : NumericEntry :=
  { group := "WiFiConfiguration", name := "wifi_mode", type := .Uint8
    min := 0, max := 3, default := 2, comment := some "SoftAP", map := some WIFI_MODES_MAP }

/-- The numeric entries of the file whose default is a literal, in source
order. (`HubConfiguration::port` takes its default from another file.) -/
def literalDefaultEntries : List NumericEntry :=
  [hub_enable, uplink_enable, advanced_sleep, advanced_tx_power, station_reboot_on_failure,
    softap_auth, softap_channel, wifi_mode]

/-! ## OpenMRN -/

/-- An entry of `loopMembers_`: the `OpenMRN` object itself (`this`) or a
bridge created by one of the `add_..._port` calls. The list holds the bridge
objects the pointers refer to. -/
inductive Member (β F : Type) where
  | self
  | serial (b : SerialBridge β)
  | can (b : CanBridge F)

/-- Which object an entry of `loopMembers_` is: the `OpenMRN` object, or a
bridge identified by its kind and the identity of its write port. -/
inductive MemberId where
  | self
  | serial (addr : PortId)
  | can (addr : PortId)
deriving DecidableEq, Repr

/-- The identity of a loop member. -/
def Member.id {β F : Type} : Member β F → MemberId
  | .self => .self
  | .serial b => .serial b.writePort_.addr
  | .can b => .can b.writePort_.addr

/-- Modelled from the spec: what `loop_some()` does to a flow (the executor is
not in src). Running pending work drains the currently runnable work: a
runnable write port flow runs until it is suspended or idle, which takes at
most two steps (`write_done`, then `entry` for the next queued buffer). -/
def Member.drain {β F : Type} : Member β F → Member β F
  | .self => .self
  | .serial b => .serial b.executorStep.executorStep
  | .can b => .can b.executorStep.executorStep

/-- The members of `OpenMRN` that change at run time, for a platform with a
dedicated executor thread (`haveExecutorThread_` exists). -/
structure OpenMRN (β F : Type) where
  loopMembers_ : List (Member β F)
  haveExecutorThread_ : Bool

/-- What one call of `loop()` did: the members whose `run()` was invoked, in
order, the number of `loop_some()` calls, and the buffers the bridges sent to
`txtHub_` and `canHub_`. -/
structure LoopTrace (β F : Type) where
  runCalls : List MemberId
  loopSomeCalls : Nat
  txtSent : List (HubData β)
  canSent : List (CanHubData F)

/-- Nothing has happened yet. -/
def LoopTrace.empty {β F : Type} : LoopTrace β F :=
  { runCalls := [], loopSomeCalls := 0, txtSent := [], canSent := [] }

/-- One record after the other. -/
def LoopTrace.append {β F : Type} (s t : LoopTrace β F) : LoopTrace β F :=
  { runCalls := s.runCalls ++ t.runCalls
    loopSomeCalls := s.loopSomeCalls + t.loopSomeCalls
    txtSent := s.txtSent ++ t.txtSent
    canSent := s.canSent ++ t.canSent }

namespace OpenMRN

variable {β F : Type}

/-- The constructor: `loopMembers_{{this}}`, `haveExecutorThread_{false}`. -/
def init : OpenMRN β F :=
  { loopMembers_ := [.self], haveExecutorThread_ := false }

/-- Modelled from the spec: `stack_->executor()->loop_some()` (the executor is
not in src) runs the flows of the stack's executor, here the write port flows
of the bridges, until none is runnable. -/
def loop_some (o : OpenMRN β F) : OpenMRN β F :=
  { o with loopMembers_ := o.loopMembers_.map Member.drain }

/-- The private `run()`: returns early when there is an executor thread, else
calls `loop_some()`. The second component counts the `loop_some()` calls. -/
def run (o : OpenMRN β F) : OpenMRN β F × Nat :=
  if o.haveExecutorThread_ then (o, 0)
  else (o.loop_some, 1)

/-- The call `e->run()` on the member at position `i`, whose port reports
`avail` as its write capacity. -/
def runMember [Inhabited β] [Inhabited F] (avail : Int) (i : Nat) (o : OpenMRN β F) :
    OpenMRN β F × LoopTrace β F :=
  match o.loopMembers_[i]? with
  | none => (o, LoopTrace.empty)
  | some .self =>
    let r := o.run
    (r.1, { runCalls := [.self], loopSomeCalls := r.2, txtSent := [], canSent := [] })
  | some (.serial b) =>
    let r := b.run avail
    ({ o with loopMembers_ := o.loopMembers_.set i (.serial r.1) },
      { runCalls := [.serial b.writePort_.addr], loopSomeCalls := 0, txtSent := r.2,
        canSent := [] })
  | some (.can b) =>
    let r := b.run avail
    ({ o with loopMembers_ := o.loopMembers_.set i (.can r.1) },
      { runCalls := [.can b.writePort_.addr], loopSomeCalls := 0, txtSent := [],
        canSent := r.2 })

/-- The body of `loop()` for the members at the positions `is`, in order. -/
def loopOver [Inhabited β] [Inhabited F] (avail : Nat → Int) (is : List Nat)
    (acc : OpenMRN β F × LoopTrace β F) : OpenMRN β F × LoopTrace β F :=
  is.foldl
    (fun s i =>
      let r := s.1.runMember (avail i) i
      (r.1, s.2.append r.2)) acc

/-- The function `loop()`: `for (auto *e : loopMembers_) e->run();`. The port
of the member at position `i` reports `avail i` as its write capacity. -/
def loop [Inhabited β] [Inhabited F] (avail : Nat → Int) (o : OpenMRN β F) :
    OpenMRN β F × LoopTrace β F :=
  loopOver avail (List.range o.loopMembers_.length) (o, LoopTrace.empty)

/-- `add_gridconnect_port`: appends a new `SerialBridge` on `port`. -/
def add_gridconnect_port (addr : PortId) (ofs0 : Nat) (port : SerialPort β)
    (o : OpenMRN β F) : OpenMRN β F :=
  { o with
    loopMembers_ := o.loopMembers_ ++ [.serial { SerialBridge.init addr ofs0 with port_ := port }] }

/-- `add_can_port`: appends a new `CanBridge` on `port`. -/
def add_can_port (addr : PortId) (port : Can F) (o : OpenMRN β F) : OpenMRN β F :=
  { o with loopMembers_ := o.loopMembers_ ++ [.can (CanBridge.init addr port)] }

/-- `start_executor_thread`: sets `haveExecutorThread_`; the thread it starts
runs beside this model. -/
def start_executor_thread (o : OpenMRN β F) : OpenMRN β F :=
  { o with haveExecutorThread_ := true }

/-- `loop_executor`: sets `haveExecutorThread_` before it donates the calling
thread to the executor. -/
def loop_executor (o : OpenMRN β F) : OpenMRN β F :=
  { o with haveExecutorThread_ := true }

end OpenMRN

/-- A call of a public function of `OpenMRN`. -/
inductive Call (β F : Type) where
  | add_gridconnect_port (addr : PortId) (ofs0 : Nat) (port : SerialPort β)
  | add_can_port (addr : PortId) (port : Can F)
  | start_executor_thread
  | loop_executor
  | loop (avail : Nat → Int)

namespace Call

variable {β F : Type}

/-- The bridge an `add_..._port` call registers. -/
def added : Call β F → Option MemberId
  | .add_gridconnect_port addr _ _ => some (.serial addr)
  | .add_can_port addr _ => some (.can addr)
  | _ => none

/-- Whether the call creates or becomes the executor thread. -/
def startsThread : Call β F → Bool
  | .start_executor_thread => true
  | .loop_executor => true
  | _ => false

/-- The object after the call. -/
def apply [Inhabited β] [Inhabited F] (c : Call β F) (o : OpenMRN β F) : OpenMRN β F :=
  match c with
  | .add_gridconnect_port addr ofs0 port => o.add_gridconnect_port addr ofs0 port
  | .add_can_port addr port => o.add_can_port addr port
  | .start_executor_thread => o.start_executor_thread
  | .loop_executor => o.loop_executor
  | .loop avail => (o.loop avail).1

end Call

/-- The object after a sequence of calls. -/
def OpenMRN.after {β F : Type} [Inhabited β] [Inhabited F] (calls : List (Call β F))
    (o : OpenMRN β F) : OpenMRN β F :=
  calls.foldl (fun s c => c.apply s) o

/-- No work for `run()` on this member: no runnable flow, no pending write
buffer and no readable data at the hardware port. -/
def Member.quiet {β F : Type} : Member β F → Prop
  | .self => True
  | .serial b =>
    (∀ s, b.writePort_.runState ≠ .runnable s) ∧ b.writeBuffer_ = none ∧
      b.port_.available ≤ 0
  | .can b =>
    (∀ s, b.writePort_.runState ≠ .runnable s) ∧ b.writeBuffer_ = none ∧
      b.port_.available = 0

/-- The number of buffers a loop member has allocated so far. -/
def Member.allocCalls {β F : Type} : Member β F → Nat
  | .self => 0
  | .serial b => b.pool.allocCalls
  | .can b => b.pool.allocCalls

/-- The number of `notify()` calls made so far on the write port of a loop
member. -/
def Member.notifyCalls {β F : Type} : Member β F → Nat
  | .self => 0
  | .serial b => b.writePort_.notifyCalls
  | .can b => b.writePort_.notifyCalls

/-- An `OpenMRN` object with a serial bridge and a CAN bridge added and an
executor thread started. -/
def threadedCalls : List (Call Nat Frame) :=
  [.add_gridconnect_port 1 0 { rxFifo := [], txLog := [] }, .add_can_port 2 canIdlePort,
    .start_executor_thread, .loop (fun _ => 8)]

/-- An `OpenMRN` object with a serial bridge and a CAN bridge added, driven
from `loop()` only. -/
def polledCalls : List (Call Nat Frame) :=
  [.add_gridconnect_port 1 0 { rxFifo := [], txLog := [] }, .add_can_port 2 canIdlePort,
    .loop (fun _ => 8)]

/-- An `OpenMRN` object with two new bridges: nothing to do. -/
def quietNode : OpenMRN Nat Frame :=
  (OpenMRN.init.add_gridconnect_port 1 0 { rxFifo := [], txLog := [] }).add_can_port 2
    canIdlePort

/-! ## Broadcast time (`openlcb/BroadcastTime.cpp`) -/

/-- Reduction of an integer to the range of `int` (32 bit, two's
complement). -/
def wrapInt (x : Int) : Int :=
  (x + 2147483648) % 4294967296 - 2147483648

/-- The fields of `struct tm` that `set_date_year_str` reads; each is an
`int`. -/
structure Tm where
  tm_mday : Int
  tm_mon : Int
  tm_year : Int
deriving DecidableEq, Repr

/-- A call of one of the two setters, with its arguments. -/
inductive ClockCall where
  | set_date (month day : Int)
  | set_year (year : Int)
deriving DecidableEq, Repr

/-- The two setters that `set_date_year_str` calls on its own object, whose
state is an `S`. `openlcb/BroadcastTime.hxx` declares them; their bodies are
not part of the function, so they are taken as they come. -/
structure BroadcastTime (S : Type) where
  set_date : Int → Int → S → S
  set_year : Int → S → S

/-- `BroadcastTime::set_date_year_str(date_year)`. `strptime` is the function
of the C library: given the string and the format it returns `none` for a
null pointer, and otherwise the `struct tm` it has filled in. The result is
the state of the object after the call together with the calls of the setters
that were made, in order. `tm_mon + 1` and `tm_year + 1900` are sums of
`int`. -/
def BroadcastTime.set_date_year_str {S : Type} (clock : BroadcastTime S)
    (strptime : String → String → Option Tm) (date_year : String) (s : S) :
    S × List ClockCall :=
  match strptime date_year "%b %e, %Y" with
  | some tm =>
    if tm.tm_year ≥ (0 - 1900) ∧ tm.tm_year ≤ (4095 - 1900) then
      -- date valid
      let s1 := clock.set_date (wrapInt (tm.tm_mon + 1)) tm.tm_mday s
      let s2 := clock.set_year (wrapInt (tm.tm_year + 1900)) s1
      (s2, [ClockCall.set_date (wrapInt (tm.tm_mon + 1)) tm.tm_mday,
        ClockCall.set_year (wrapInt (tm.tm_year + 1900))])
    else (s, [])
  | none => (s, [])

/-- A date and a year, as a clock may keep them. -/
structure DateYear where
  month : Int
  day : Int
  year : Int
deriving DecidableEq, Repr

/-- A clock whose setters store what they are given. -/
def storingClock : BroadcastTime DateYear where
  set_date := fun month day s => { s with month := month, day := day }
  set_year := fun year s => { s with year := year }

/-- The results of `strptime` with the format `"%b %e, %Y"` on three strings:
two that it parses and one that it rejects. -/
def strptimeTable (s fmt : String) : Option Tm :=
  if fmt = "%b %e, %Y" then
    if s = "Jan 5, 2023" then some { tm_mday := 5, tm_mon := 0, tm_year := 123 }
    else if s = "Mar 1, 5000" then some { tm_mday := 1, tm_mon := 2, tm_year := 3100 }
    else none
  else none

/-- The clock state of the examples: 31 December 1999. -/
def newYearsEve : DateYear := { month := 12, day := 31, year := 1999 }

/-! ## Theorems -/

theorem toSizeT_natCast {n : Nat} (h : n < SIZE_MOD) : toSizeT (n : Int) = n := by
  unfold toSizeT
  rw [Int.emod_eq_of_lt (by omega) (by exact_mod_cast h)]
  simp

theorem subSizeT_of_le {a b : Nat} (hab : b ≤ a) (ha : a < SIZE_MOD) : subSizeT a b = a - b := by
  unfold subSizeT
  have : ((a : Int) - (b : Int)) = ((a - b : Nat) : Int) := by omega
  rw [this, toSizeT_natCast (by omega)]

theorem addSizeT_of_lt {a b : Nat} (h : a + b < SIZE_MOD) : addSizeT a b = a + b := by
  unfold addSizeT
  exact Nat.mod_eq_of_lt h

namespace SerialBridge
variable {β : Type}

/-- A poll with no pending buffer does nothing. -/
theorem loop_for_write_none (avail : Int) (b : SerialBridge β) (h : b.writeBuffer_ = none) :
    loop_for_write avail b = b := by
  unfold loop_for_write
  rw [h]

/-- A poll with no capacity does nothing. -/
theorem loop_for_write_zero (avail : Int) (b : SerialBridge β) (h : toSizeT avail = 0) :
    loop_for_write avail b = b := by
  unfold loop_for_write
  cases hb : b.writeBuffer_ with
  | none => rfl
  | some wb => simp [h]

/-- A poll that cannot finish the pending buffer writes `len` bytes. -/
theorem loop_for_write_short (avail : Int) (b : SerialBridge β) (wb : HubData β)
    (hb : b.writeBuffer_ = some wb) (hsz : wb.value.length < SIZE_MOD)
    (h0 : toSizeT avail ≠ 0) (hlt : b.writeOfs_ + toSizeT avail < wb.value.length) :
    loop_for_write avail b =
      { b with
        port_ := b.port_.write ((wb.value.drop b.writeOfs_).take (toSizeT avail))
        writeOfs_ := b.writeOfs_ + toSizeT avail } := by
  unfold loop_for_write
  rw [hb]
  have hsub : subSizeT wb.value.length b.writeOfs_ = wb.value.length - b.writeOfs_ :=
    subSizeT_of_le (by omega) hsz
  have hlen : ¬ (toSizeT avail > wb.value.length - b.writeOfs_) := by omega
  have hadd : addSizeT b.writeOfs_ (toSizeT avail) = b.writeOfs_ + toSizeT avail :=
    addSizeT_of_lt (by omega)
  simp only [h0, hsub, hlen, hadd, if_false]
  rw [if_neg (by simp; omega)]

/-- A poll that can finish the pending buffer writes the rest and notifies. -/
theorem loop_for_write_final (avail : Int) (b : SerialBridge β) (wb : HubData β)
    (hb : b.writeBuffer_ = some wb) (hsz : wb.value.length < SIZE_MOD)
    (h0 : toSizeT avail ≠ 0) (hofs : b.writeOfs_ ≤ wb.value.length)
    (hge : wb.value.length ≤ b.writeOfs_ + toSizeT avail) :
    loop_for_write avail b =
      { b with
        port_ := b.port_.write (wb.value.drop b.writeOfs_)
        writeOfs_ := wb.value.length
        writeBuffer_ := none
        writePort_ := b.writePort_.notify } := by
  unfold loop_for_write
  rw [hb]
  have hsub : subSizeT wb.value.length b.writeOfs_ = wb.value.length - b.writeOfs_ :=
    subSizeT_of_le hofs hsz
  simp only [h0, hsub, if_false]
  by_cases hgt : toSizeT avail > wb.value.length - b.writeOfs_
  · have hadd : addSizeT b.writeOfs_ (wb.value.length - b.writeOfs_) = wb.value.length := by
      rw [addSizeT_of_lt (by omega)]; omega
    simp only [hgt, if_true, hadd, ge_iff_le, le_refl]
    congr 2
    rw [List.take_of_length_le (by simp)]
  · have heq : toSizeT avail = wb.value.length - b.writeOfs_ := by omega
    have hadd : addSizeT b.writeOfs_ (toSizeT avail) = wb.value.length := by
      rw [addSizeT_of_lt (by omega)]; omega
    simp only [hgt, if_false, hadd, ge_iff_le, le_refl, if_true]
    congr 2
    rw [heq, List.take_of_length_le (by simp)]

end SerialBridge

/-- The read loop tags every buffer it sends with the own write port. -/
theorem CanBridge.readLoop_tagged {F : Type} [Inhabited F] (fuel : Nat) (b : CanBridge F) :
    ∀ m ∈ (CanBridge.readLoop fuel b).2, m.skipMember_ = some b.writePort_.addr := by
  induction fuel generalizing b with
  | zero => intro m hm; simp [CanBridge.readLoop] at hm
  | succ n ih =>
    intro m hm
    unfold CanBridge.readLoop at hm
    split at hm
    · simp only [List.mem_cons] at hm
      rcases hm with rfl | hm
      · rfl
      · have h := ih _ m hm
        exact h
    · simp at hm

/-- C1: every buffer that `SerialBridge::loop_for_read` sends to `txtHub_`, and
every buffer that `CanBridge::loop_for_read` sends to `canHub_`, carries the
address of that bridge's own `writePort_` as `skipMember_`. -/
theorem C1_sent_buffers_tagged_with_own_port {β F : Type} [Inhabited β] [Inhabited F]
    (sb : SerialBridge β) (cb : CanBridge F) :
    (∀ m ∈ (SerialBridge.loop_for_read sb).2, m.skipMember_ = some sb.writePort_.addr) ∧
    (∀ m ∈ (CanBridge.loop_for_read cb).2, m.skipMember_ = some cb.writePort_.addr) := by
  refine ⟨?_, ?_⟩
  · intro m hm
    unfold SerialBridge.loop_for_read at hm
    simp only at hm
    split at hm
    · simp at hm
    · simp only [List.mem_singleton] at hm
      subst hm
      rfl
  · exact CanBridge.readLoop_tagged _ cb

namespace SerialBridge
variable {β : Type}

theorem polls_nil (b : SerialBridge β) : polls [] b = b := rfl

theorem polls_snoc (caps : List Int) (a : Int) (b : SerialBridge β) :
    polls (caps ++ [a]) b = loop_for_write a (polls caps b) := by
  simp [polls, List.foldl_append]

/-- One poll on a pending buffer: `k` more bytes go out, in at most one write. -/
theorem loop_for_write_pending (avail : Int) (b : SerialBridge β) (wb : HubData β)
    (hb : b.writeBuffer_ = some wb) (hsz : wb.value.length < SIZE_MOD)
    (hofs : b.writeOfs_ ≤ wb.value.length) :
    ∃ (k : Nat) (chunks : List (List β)),
      k ≤ toSizeT avail ∧
      (loop_for_write avail b).writeOfs_ = b.writeOfs_ + k ∧
      b.writeOfs_ + k ≤ wb.value.length ∧
      (loop_for_write avail b).port_.txLog = b.port_.txLog ++ chunks ∧
      chunks.flatten = (wb.value.drop b.writeOfs_).take k ∧
      (loop_for_write avail b).port_.rxFifo = b.port_.rxFifo ∧
      (((loop_for_write avail b).writeBuffer_ = some wb ∧
          (loop_for_write avail b).writePort_ = b.writePort_) ∨
        ((loop_for_write avail b).writeBuffer_ = none ∧
          b.writeOfs_ + k = wb.value.length ∧
          (loop_for_write avail b).writePort_ = b.writePort_.notify)) := by
  by_cases h0 : toSizeT avail = 0
  · rw [loop_for_write_zero avail b h0]
    exact ⟨0, [], by omega, rfl, hofs, by simp, by simp, rfl, Or.inl ⟨hb, rfl⟩⟩
  · by_cases hlt : b.writeOfs_ + toSizeT avail < wb.value.length
    · rw [loop_for_write_short avail b wb hb hsz h0 hlt]
      refine ⟨toSizeT avail, [(wb.value.drop b.writeOfs_).take (toSizeT avail)], le_refl _, rfl,
        le_of_lt hlt, rfl, by simp, rfl, Or.inl ⟨hb, rfl⟩⟩
    · rw [loop_for_write_final avail b wb hb hsz h0 hofs (by omega)]
      refine ⟨wb.value.length - b.writeOfs_, [wb.value.drop b.writeOfs_], by omega, ?_, by omega,
        rfl, ?_, rfl, Or.inr ⟨rfl, by omega, rfl⟩⟩
      · simp only; omega
      · simp [List.take_of_length_le]

/-- Any number of polls after `entry`: what went out is the part of the
payload before `writeOfs_`. -/
theorem polls_from_entry (caps : List Int) (b : SerialBridge β) (wb : HubData β)
    (hb : b.writeBuffer_ = some wb) (hsz : wb.value.length < SIZE_MOD)
    (hofs : b.writeOfs_ = 0) :
    (polls caps b).writeOfs_ ≤ wb.value.length ∧
    (polls caps b).port_.rxFifo = b.port_.rxFifo ∧
    (∃ chunks : List (List β),
      (polls caps b).port_.txLog = b.port_.txLog ++ chunks ∧
      chunks.flatten = wb.value.take (polls caps b).writeOfs_) ∧
    (((polls caps b).writeBuffer_ = some wb ∧ (polls caps b).writePort_ = b.writePort_) ∨
      ((polls caps b).writeBuffer_ = none ∧ (polls caps b).writeOfs_ = wb.value.length ∧
        (polls caps b).writePort_ = b.writePort_.notify)) := by
  induction caps using List.reverseRecOn with
  | nil =>
    rw [polls_nil]
    exact ⟨by omega, rfl, ⟨[], by simp, by simp [hofs]⟩, Or.inl ⟨hb, rfl⟩⟩
  | append_singleton caps a ih =>
    rw [polls_snoc]
    obtain ⟨hle, hrx, ⟨chunks, hlog, hflat⟩, hst⟩ := ih
    rcases hst with ⟨hpend, hport⟩ | ⟨hdone, hfull, hport⟩
    · obtain ⟨k, cs, _, hk, hkle, hlog2, hflat2, hrx2, hst2⟩ :=
        loop_for_write_pending a (polls caps b) wb hpend hsz hle
      refine ⟨by omega, by rw [hrx2, hrx], ⟨chunks ++ cs, ?_, ?_⟩, ?_⟩
      · rw [hlog2, hlog, List.append_assoc]
      · rw [List.flatten_append, hflat, hflat2, hk, List.take_add]
      · rcases hst2 with ⟨h1, h2⟩ | ⟨h1, h2, h3⟩
        · exact Or.inl ⟨h1, by rw [h2, hport]⟩
        · exact Or.inr ⟨h1, by omega, by rw [h3, hport]⟩
    · rw [loop_for_write_none a _ hdone]
      exact ⟨hle, hrx, ⟨chunks, hlog, hflat⟩, Or.inr ⟨hdone, hfull, hport⟩⟩

end SerialBridge

namespace SerialBridge
variable {β : Type}

/-- With a constant capacity `c`, the first `j` polls write `c` bytes each as
long as `j * c` bytes do not exhaust the payload. -/
theorem iterate_short (c : Nat) (hc1 : 1 ≤ c) (hc : c < SIZE_MOD) (b : SerialBridge β)
    (wb : HubData β) (hb : b.writeBuffer_ = some wb) (hsz : wb.value.length < SIZE_MOD)
    (hofs : b.writeOfs_ = 0) (j : Nat) (hj : j * c < wb.value.length) :
    (loop_for_write (c : Int))^[j] b =
      { b with
        port_ := { b.port_ with
          txLog := b.port_.txLog ++ (List.range j).map (fun i => (wb.value.drop (i * c)).take c) }
        writeOfs_ := j * c } := by
  induction j with
  | zero =>
    obtain ⟨wp, port, wbuf, ofs⟩ := b
    simp only at hofs
    subst hofs
    simp
  | succ j ih =>
    have hlt : j * c < wb.value.length := by
      have : j * c ≤ (j + 1) * c := Nat.mul_le_mul_right c (Nat.le_succ j)
      omega
    rw [Function.iterate_succ_apply', ih hlt]
    have hcs : toSizeT (c : Int) = c := toSizeT_natCast hc
    have hstep : (j + 1) * c = j * c + c := by ring
    refine Eq.trans (loop_for_write_short (c : Int) _ wb ?_ hsz ?_ ?_) ?_
    · exact hb
    · rw [hcs]; omega
    · rw [hcs]; simp only; omega
    · simp only [hcs, SerialPort.write, List.range_succ, List.map_append, List.map_singleton,
        List.append_assoc, hstep]

end SerialBridge

/-- The chunks written with a constant capacity concatenate to the payload. -/
theorem chunks_flatten {β : Type} (l : List β) (c : Nat) (j : Nat) :
    ((List.range j).map (fun i => (l.drop (i * c)).take c)).flatten = l.take (j * c) := by
  induction j with
  | zero => simp
  | succ j ih =>
    rw [List.range_succ, List.map_append, List.flatten_append, ih]
    have hstep : (j + 1) * c = j * c + c := by ring
    simp [hstep, List.take_add]

/-- C4: a pending buffer of `n ≥ 1` bytes and a port that reports the constant
write capacity `c ≥ 1` at every poll: `loop_for_write` is still busy after
fewer than `ceil (n / c)` polls, completes (clears `writeBuffer_` and notifies
once) at poll `ceil (n / c)`, and writes `c` bytes in each poll but the last and
`n - c * (ceil (n / c) - 1)` bytes in the last. -/
theorem C4_partial_write_poll_count {β : Type} (b0 : SerialBridge β) (wb : HubData β) (c : Nat)
    (hmsg : b0.writePort_.message = some wb)
    (hn : 1 ≤ wb.value.length) (hsz : wb.value.length < SIZE_MOD)
    (hc1 : 1 ≤ c) (hc : c < SIZE_MOD) :
    let b := (SerialBridge.WritePort.entry b0).1
    let n := wb.value.length
    let k := (n + c - 1) / c
    let poll := SerialBridge.loop_for_write (c : Int)
    (∀ j, j < k → (poll^[j] b).writeBuffer_ = some wb ∧
      (poll^[j] b).writePort_.notifyCalls = b0.writePort_.notifyCalls) ∧
    (poll^[k] b).writeBuffer_ = none ∧
    (poll^[k] b).writePort_.notifyCalls = b0.writePort_.notifyCalls + 1 ∧
    ∃ chunks : List (List β),
      (poll^[k] b).port_.txLog = b0.port_.txLog ++ chunks ∧
      chunks.map List.length = List.replicate (k - 1) c ++ [n - c * (k - 1)] ∧
      chunks.flatten = wb.value := by
  intro b n k poll
  have hb : b.writeBuffer_ = some wb := hmsg
  have hofs : b.writeOfs_ = 0 := rfl
  have hcs : toSizeT (c : Int) = c := toSizeT_natCast hc
  -- arithmetic of the ceiling
  have hdm : c * k + (n + c - 1) % c = n + c - 1 := Nat.div_add_mod (n + c - 1) c
  have hml : (n + c - 1) % c < c := Nat.mod_lt _ (by omega)
  have hk1 : 1 ≤ k := by
    rcases Nat.eq_zero_or_pos k with h | h
    · rw [h] at hdm; simp at hdm; omega
    · exact h
  have hmul : c * k = c * (k - 1) + c := by
    have : k = (k - 1) + 1 := by omega
    conv_lhs => rw [this]
    ring
  have hcomm : (k - 1) * c = c * (k - 1) := Nat.mul_comm _ _
  have hlast : (k - 1) * c < n := by omega
  have hpart := fun j hj => SerialBridge.iterate_short c hc1 hc b wb hb hsz hofs j hj
  refine ⟨?_, ?_⟩
  · intro j hj
    have hjc : j * c < n := by
      have : j * c ≤ (k - 1) * c := Nat.mul_le_mul_right c (by omega)
      omega
    show ((SerialBridge.loop_for_write (c : Int))^[j] b).writeBuffer_ = some wb ∧ _
    rw [hpart j hjc]
    exact ⟨hb, rfl⟩
  · have hk : k = (k - 1) + 1 := by omega
    have hfin : poll^[k] b =
        { (poll^[k - 1] b) with
          port_ := (poll^[k - 1] b).port_.write (wb.value.drop (poll^[k - 1] b).writeOfs_)
          writeOfs_ := wb.value.length
          writeBuffer_ := none
          writePort_ := (poll^[k - 1] b).writePort_.notify } := by
      conv_lhs => rw [hk, Function.iterate_succ_apply']
      show SerialBridge.loop_for_write (c : Int) ((SerialBridge.loop_for_write (c : Int))^[k - 1] b) = _
      rw [hpart (k - 1) hlast]
      refine SerialBridge.loop_for_write_final (c : Int) _ wb ?_ hsz ?_ ?_ ?_
      · exact hb
      · rw [hcs]; omega
      · simp only; omega
      · rw [hcs]; simp only; omega
    have hprev : poll^[k - 1] b = _ := hpart (k - 1) hlast
    rw [hfin, hprev]
    refine ⟨rfl, rfl, ?_⟩
    refine ⟨(List.range (k - 1)).map (fun i => (wb.value.drop (i * c)).take c) ++
      [wb.value.drop ((k - 1) * c)], ?_, ?_, ?_⟩
    · simp [SerialPort.write, List.append_assoc]
      rfl
    · rw [List.map_append, List.map_map]
      congr 1
      · apply List.ext_getElem
        · simp
        · intro i h1 h2
          simp only [List.length_map, List.length_range] at h1
          have hic : i * c + c ≤ n := by
            have : (i + 1) * c ≤ (k - 1) * c := Nat.mul_le_mul_right c (by omega)
            have h3 : (i + 1) * c = i * c + c := by ring
            omega
          simp only [List.getElem_map, List.getElem_range, Function.comp_apply, List.length_take,
            List.length_drop, List.getElem_replicate]
          omega
      · simp only [List.map_singleton, List.length_drop, hcomm]
    · rw [List.flatten_append, chunks_flatten]
      simp

/-- C4 at the capacity 4 and the ten byte buffer: three polls, writing 4, 4
and 2 bytes. -/
theorem C4_partial_write_poll_count_witness :
    ((SerialBridge.loop_for_write 4)^[2] (SerialBridge.WritePort.entry serialTaken).1).writeBuffer_
      = some tenBytes ∧
    ((SerialBridge.loop_for_write 4)^[3] (SerialBridge.WritePort.entry serialTaken).1).writeBuffer_
      = none ∧
    ∃ chunks : List (List Nat),
      ((SerialBridge.loop_for_write 4)^[3] (SerialBridge.WritePort.entry serialTaken).1).port_.txLog
        = [] ++ chunks ∧
      chunks.map List.length = [4, 4, 2] ∧ chunks.flatten = tenBytes.value := by
  have h := C4_partial_write_poll_count serialTaken tenBytes 4 rfl (by decide)
    (by unfold SIZE_MOD; decide) (by decide) (by unfold SIZE_MOD; decide)
  exact ⟨(h.1 2 (by decide)).1, h.2.1, h.2.2.2⟩

/-- C8: between `entry` and the completion notification, whatever capacities
the port reports, the byte ranges `loop_for_write` passes to `port_->write`
concatenate, in poll order, to the part of the payload before `writeOfs_`;
once `writeBuffer_` is cleared and `notify()` called they concatenate to the
whole payload, and `notify()` is not called earlier. -/
theorem C8_serial_write_byte_fidelity {β : Type} (b0 : SerialBridge β) (wb : HubData β)
    (caps : List Int) (hmsg : b0.writePort_.message = some wb)
    (hsz : wb.value.length < SIZE_MOD) :
    let b := SerialBridge.polls caps (SerialBridge.WritePort.entry b0).1
    ∃ chunks : List (List β),
      b.port_.txLog = b0.port_.txLog ++ chunks ∧
      chunks.flatten = wb.value.take b.writeOfs_ ∧
      ((b.writeBuffer_ = some wb ∧ b.writePort_.notifyCalls = b0.writePort_.notifyCalls) ∨
        (b.writeBuffer_ = none ∧ b.writePort_.notifyCalls = b0.writePort_.notifyCalls + 1 ∧
          chunks.flatten = wb.value)) := by
  intro b
  obtain ⟨_, _, ⟨chunks, hlog, hflat⟩, hst⟩ :=
    SerialBridge.polls_from_entry caps (SerialBridge.WritePort.entry b0).1 wb hmsg hsz rfl
  refine ⟨chunks, hlog, hflat, ?_⟩
  rcases hst with ⟨h1, h2⟩ | ⟨h1, h2, h3⟩
  · exact Or.inl ⟨h1, by show (SerialBridge.polls _ _).writePort_.notifyCalls = _; rw [h2]; rfl⟩
  · refine Or.inr ⟨h1, ?_, ?_⟩
    · show (SerialBridge.polls _ _).writePort_.notifyCalls = _
      rw [h3]; rfl
    · rw [hflat]
      show List.take (SerialBridge.polls _ _).writeOfs_ _ = _
      rw [h2, List.take_of_length_le (le_refl _)]

/-- C8 at the ten byte buffer and the capacities 3, 0, 5, 1, 100. -/
theorem C8_serial_write_byte_fidelity_witness :
    ∃ chunks : List (List Nat),
      (SerialBridge.polls [3, 0, 5, 1, 100] (SerialBridge.WritePort.entry serialTaken).1).port_.txLog
        = [] ++ chunks ∧
      chunks.flatten = tenBytes.value.take
        (SerialBridge.polls [3, 0, 5, 1, 100] (SerialBridge.WritePort.entry serialTaken).1).writeOfs_ ∧
      (((SerialBridge.polls [3, 0, 5, 1, 100] (SerialBridge.WritePort.entry serialTaken).1).writeBuffer_
          = some tenBytes ∧
        (SerialBridge.polls [3, 0, 5, 1, 100]
          (SerialBridge.WritePort.entry serialTaken).1).writePort_.notifyCalls = 0) ∨
       ((SerialBridge.polls [3, 0, 5, 1, 100] (SerialBridge.WritePort.entry serialTaken).1).writeBuffer_
          = none ∧
        (SerialBridge.polls [3, 0, 5, 1, 100]
          (SerialBridge.WritePort.entry serialTaken).1).writePort_.notifyCalls = 0 + 1 ∧
        chunks.flatten = tenBytes.value)) :=
  C8_serial_write_byte_fidelity serialTaken tenBytes [3, 0, 5, 1, 100] rfl
    (by unfold SIZE_MOD; decide)

/-- C9: a `loop_for_write` poll in which the hardware reports no write capacity
(0 for `SerialBridge`, at most 0 for `CanBridge`) leaves the whole bridge as it
was: nothing is written to the port, `writeBuffer_` and `writeOfs_` keep their
values and `notify()` is not called, so the next poll retries the same buffer
at the same offset. -/
theorem C9_no_capacity_defers {β F : Type} (sb : SerialBridge β) (cb : CanBridge F)
    (avail next : Int) (h : avail ≤ 0) :
    SerialBridge.loop_for_write 0 sb = sb ∧
    CanBridge.loop_for_write avail cb = cb ∧
    SerialBridge.loop_for_write next (SerialBridge.loop_for_write 0 sb) =
      SerialBridge.loop_for_write next sb ∧
    CanBridge.loop_for_write next (CanBridge.loop_for_write avail cb) =
      CanBridge.loop_for_write next cb := by
  have hs : SerialBridge.loop_for_write 0 sb = sb :=
    SerialBridge.loop_for_write_zero 0 sb (by decide)
  have hc : CanBridge.loop_for_write avail cb = cb := by
    unfold CanBridge.loop_for_write
    cases cb.writeBuffer_ with
    | none => rfl
    | some wb => simp [h]
  exact ⟨hs, hc, by rw [hs], by rw [hc]⟩

/-- C9 on bridges that hold a pending buffer. -/
theorem C9_no_capacity_defers_witness :
    serialPending.writeBuffer_ = some tenBytes ∧ serialPending.writeOfs_ = 4 ∧
    canPending.writeBuffer_ = some oneFrame ∧
    SerialBridge.loop_for_write 0 serialPending = serialPending ∧
    CanBridge.loop_for_write (-3) canPending = canPending :=
  ⟨by decide, by decide, by decide,
    (C9_no_capacity_defers serialPending canPending (-3) 1 (by decide)).1,
    (C9_no_capacity_defers serialPending canPending (-3) 1 (by decide)).2.1⟩

/-! ### The write port flow -/

theorem FlowInv_send {M : Type} (p : HubPort M) (wbuf : Option M) (m : M)
    (h : FlowInv p wbuf) : FlowInv (p.send m) wbuf := by
  unfold FlowInv at h ⊢
  unfold HubPort.send
  cases hr : p.runState with
  | idle =>
    rw [hr] at h
    simp [h.2.1, h.2.2]
  | runnable st =>
    cases st with
    | entry => rw [hr] at h; simp [h.2.1, h.2.2]
    | write_done => rw [hr] at h; simpa using h
  | suspended st =>
    cases st with
    | entry => rw [hr] at h; exact h.elim
    | write_done => rw [hr] at h; simpa using h

/-- When the pending buffer is written in full, `notify()` makes the flow
runnable at `write_done`. -/
theorem FlowInv_notify {M : Type} (p : HubPort M) (wbuf : Option M)
    (h : FlowInv p wbuf) (hw : wbuf ≠ none) : FlowInv p.notify none := by
  unfold FlowInv at h ⊢
  unfold HubPort.notify
  cases hr : p.runState with
  | idle => rw [hr] at h; exact absurd h.2.2 hw
  | runnable st =>
    cases st with
    | entry => rw [hr] at h; exact absurd h.2.2 hw
    | write_done => rw [hr] at h; exact absurd h.1 hw
  | suspended st =>
    cases st with
    | entry => rw [hr] at h; exact h.elim
    | write_done =>
      rw [hr] at h
      simp only [true_and]
      rw [← h.2]; exact hw

/-- A pending buffer means the flow is suspended in `write_done`. -/
theorem FlowInv_pending {M : Type} (p : HubPort M) (wbuf : Option M)
    (h : FlowInv p wbuf) (hw : wbuf ≠ none) :
    p.runState = .suspended .write_done ∧ wbuf = p.message := by
  unfold FlowInv at h
  cases hr : p.runState with
  | idle => rw [hr] at h; exact absurd h.2.2 hw
  | runnable st =>
    cases st with
    | entry => rw [hr] at h; exact absurd h.2.2 hw
    | write_done => rw [hr] at h; exact absurd h.1 hw
  | suspended st =>
    cases st with
    | entry => rw [hr] at h; exact h.elim
    | write_done => rw [hr] at h; exact ⟨rfl, h.2⟩

/-- The flow after `release_and_exit`. -/
theorem FlowInv_release {M : Type} (p : HubPort M) :
    FlowInv (p.apply .release_and_exit) none := by
  unfold FlowInv HubPort.apply
  cases hq : p.queue with
  | nil => simp [hq]
  | cons m q => simp [hq]

namespace SerialBridge
variable {β : Type}

/-- Reading touches nothing but the receive FIFO. -/
theorem loop_for_read_frame [Inhabited β] (b : SerialBridge β) :
    (loop_for_read b).1.writePort_ = b.writePort_ ∧
    (loop_for_read b).1.writeBuffer_ = b.writeBuffer_ ∧
    (loop_for_read b).1.writeOfs_ = b.writeOfs_ ∧
    (loop_for_read b).1.port_.txLog = b.port_.txLog := by
  unfold loop_for_read
  simp only
  split
  · exact ⟨rfl, rfl, rfl, rfl⟩
  · exact ⟨rfl, rfl, rfl, rfl⟩

/-- A poll either leaves the pending buffer and the flow alone, or clears the
pending buffer and notifies. -/
theorem loop_for_write_cases (avail : Int) (b : SerialBridge β) :
    ((loop_for_write avail b).writeBuffer_ = b.writeBuffer_ ∧
      (loop_for_write avail b).writePort_ = b.writePort_) ∨
    (b.writeBuffer_ ≠ none ∧ (loop_for_write avail b).writeBuffer_ = none ∧
      (loop_for_write avail b).writePort_ = b.writePort_.notify) := by
  by_cases hb : b.writeBuffer_ = none
  · rw [loop_for_write_none avail b hb]
    exact Or.inl ⟨rfl, rfl⟩
  · obtain ⟨wb, hwb⟩ := Option.ne_none_iff_exists'.mp hb
    unfold loop_for_write
    rw [hwb]
    simp only
    split
    · exact Or.inl ⟨hwb, rfl⟩
    · repeat' split
      all_goals first
        | exact Or.inr ⟨by simp, rfl, rfl⟩
        | exact Or.inl ⟨rfl, rfl⟩

theorem executorStep_flowInv (b : SerialBridge β) (h : FlowInv b.writePort_ b.writeBuffer_) :
    FlowInv b.executorStep.writePort_ b.executorStep.writeBuffer_ := by
  unfold executorStep
  cases hr : b.writePort_.runState with
  | idle => simpa using h
  | suspended st => simpa using h
  | runnable st =>
    cases st with
    | entry =>
      simp only
      cases hq : b.writePort_.queue with
      | nil =>
        unfold FlowInv at h
        rw [hr] at h
        exact absurd hq h.1
      | cons m q =>
        simp only [WritePort.entry, HubPort.takeNext, hq, HubPort.apply]
        simp [FlowInv]
    | write_done =>
      simp only [WritePort.write_done]
      unfold FlowInv at h
      rw [hr] at h
      have := FlowInv_release b.writePort_
      rw [h.1]
      exact this

theorem step_flowInv [Inhabited β] (e : Event (HubData β) (List β)) (b : SerialBridge β)
    (h : FlowInv b.writePort_ b.writeBuffer_) :
    FlowInv (step e b).1.writePort_ (step e b).1.writeBuffer_ := by
  cases e with
  | deliver m => exact FlowInv_send _ _ m h
  | exec => exact executorStep_flowInv b h
  | hwReceive d => exact h
  | run avail =>
    show FlowInv (loop_for_read (loop_for_write avail b)).1.writePort_
      (loop_for_read (loop_for_write avail b)).1.writeBuffer_
    obtain ⟨h1, h2, _, _⟩ := loop_for_read_frame (loop_for_write avail b)
    rw [h1, h2]
    rcases loop_for_write_cases avail b with ⟨h3, h4⟩ | ⟨h3, h4, h5⟩
    · rw [h3, h4]; exact h
    · rw [h4, h5]; exact FlowInv_notify _ _ h h3

theorem after_snoc [Inhabited β] (evs : List (Event (HubData β) (List β)))
    (e : Event (HubData β) (List β)) (b : SerialBridge β) :
    after (evs ++ [e]) b = (step e (after evs b)).1 := by
  simp [after, List.foldl_append]

theorem after_flowInv [Inhabited β] (evs : List (Event (HubData β) (List β)))
    (b : SerialBridge β) (h : FlowInv b.writePort_ b.writeBuffer_) :
    FlowInv (after evs b).writePort_ (after evs b).writeBuffer_ := by
  induction evs using List.reverseRecOn with
  | nil => exact h
  | append_singleton evs e ih =>
    rw [after_snoc]
    exact step_flowInv e _ ih

theorem init_flowInv (addr : PortId) (ofs0 : Nat) :
    FlowInv (init addr ofs0 : SerialBridge β).writePort_
      (init addr ofs0 : SerialBridge β).writeBuffer_ := by
  simp [FlowInv, init, HubPort.init]

end SerialBridge

namespace CanBridge
variable {F : Type}

/-- Reading touches nothing but the receive FIFO. -/
theorem can_readLoop_frame [Inhabited F] (fuel : Nat) (b : CanBridge F) :
    (readLoop fuel b).1.writePort_ = b.writePort_ ∧
    (readLoop fuel b).1.writeBuffer_ = b.writeBuffer_ ∧
    (readLoop fuel b).1.port_.txLog = b.port_.txLog ∧
    (readLoop fuel b).1.port_.enabled = b.port_.enabled := by
  induction fuel generalizing b with
  | zero => exact ⟨rfl, rfl, rfl, rfl⟩
  | succ n ih =>
    unfold readLoop
    split
    · simp only
      obtain ⟨h1, h2, h3, h4⟩ := ih { b with
        port_ := (b.port_.read (alloc b.pool : CanHubData F × Pool).1.value).2
        pool := (alloc b.pool : CanHubData F × Pool).2 }
      refine ⟨h1, h2, ?_, ?_⟩
      · rw [h3]
        unfold Can.read
        cases b.port_.rxFifo <;> rfl
      · rw [h4]
        unfold Can.read
        cases b.port_.rxFifo <;> rfl
    · exact ⟨rfl, rfl, rfl, rfl⟩

/-- A poll either leaves the bridge alone, or writes the pending frame, clears
the pending buffer and notifies. -/
theorem can_loop_for_write_cases (avail : Int) (b : CanBridge F) :
    loop_for_write avail b = b ∨
    (∃ wb, b.writeBuffer_ = some wb ∧ 0 < avail ∧
      loop_for_write avail b =
        { b with
          port_ := b.port_.write wb.value
          writeBuffer_ := none
          writePort_ := b.writePort_.notify }) := by
  by_cases hb : b.writeBuffer_ = none
  · left
    unfold loop_for_write
    rw [hb]
  · obtain ⟨wb, hwb⟩ := Option.ne_none_iff_exists'.mp hb
    by_cases ha : avail ≤ 0
    · left
      unfold loop_for_write
      rw [hwb]
      simp [ha]
    · right
      refine ⟨wb, hwb, by omega, ?_⟩
      unfold loop_for_write
      rw [hwb]
      simp [ha]

theorem can_executorStep_flowInv (b : CanBridge F) (h : FlowInv b.writePort_ b.writeBuffer_) :
    FlowInv b.executorStep.writePort_ b.executorStep.writeBuffer_ := by
  unfold executorStep
  cases hr : b.writePort_.runState with
  | idle => simpa using h
  | suspended st => simpa using h
  | runnable st =>
    cases st with
    | entry =>
      simp only
      cases hq : b.writePort_.queue with
      | nil =>
        unfold FlowInv at h
        rw [hr] at h
        exact absurd hq h.1
      | cons m q =>
        simp only [WritePort.entry, HubPort.takeNext, hq, HubPort.apply]
        simp [FlowInv]
    | write_done =>
      simp only [WritePort.write_done]
      unfold FlowInv at h
      rw [hr] at h
      have := FlowInv_release b.writePort_
      rw [h.1]
      exact this

theorem can_step_flowInv [Inhabited F] (e : Event (CanHubData F) (List F)) (b : CanBridge F)
    (h : FlowInv b.writePort_ b.writeBuffer_) :
    FlowInv (step e b).1.writePort_ (step e b).1.writeBuffer_ := by
  cases e with
  | deliver m => exact FlowInv_send _ _ m h
  | exec => exact can_executorStep_flowInv b h
  | hwReceive d => exact h
  | run avail =>
    show FlowInv (readLoop _ (loop_for_write avail b)).1.writePort_
      (readLoop _ (loop_for_write avail b)).1.writeBuffer_
    obtain ⟨h1, h2, _, _⟩ := can_readLoop_frame (loop_for_write avail b).port_.rxFifo.length
      (loop_for_write avail b)
    rw [h1, h2]
    rcases can_loop_for_write_cases avail b with h3 | ⟨wb, h3, _, h4⟩
    · rw [h3]; exact h
    · rw [h4]
      exact FlowInv_notify _ _ h (by rw [h3]; simp)

theorem can_after_snoc [Inhabited F] (evs : List (Event (CanHubData F) (List F)))
    (e : Event (CanHubData F) (List F)) (b : CanBridge F) :
    after (evs ++ [e]) b = (step e (after evs b)).1 := by
  simp [after, List.foldl_append]

theorem can_after_flowInv [Inhabited F] (evs : List (Event (CanHubData F) (List F)))
    (b : CanBridge F) (h : FlowInv b.writePort_ b.writeBuffer_) :
    FlowInv (after evs b).writePort_ (after evs b).writeBuffer_ := by
  induction evs using List.reverseRecOn with
  | nil => exact h
  | append_singleton evs e ih =>
    rw [can_after_snoc]
    exact can_step_flowInv e _ ih

theorem can_init_flowInv (addr : PortId) (port : Can F) :
    FlowInv (init addr port).writePort_ (init addr port).writeBuffer_ := by
  simp [FlowInv, init, HubPort.init]

end CanBridge

/-- While a buffer is pending the flow does not run, and a buffer sent to the
port is appended to its queue. -/
theorem FlowInv_waits {M : Type} (p : HubPort M) (wbuf : Option M) (m : M)
    (h : FlowInv p wbuf) (hw : wbuf ≠ none) :
    p.runState = .suspended .write_done ∧
    (p.send m).runState = .suspended .write_done ∧
    (p.send m).queue = p.queue ++ [m] ∧ (p.send m).message = p.message := by
  obtain ⟨hr, _⟩ := FlowInv_pending p wbuf h hw
  refine ⟨hr, ?_, rfl, rfl⟩
  simp [HubPort.send, hr]

/-- The flow is about to run `entry` only while no buffer is pending. -/
theorem FlowInv_entry {M : Type} (p : HubPort M) (wbuf : Option M)
    (h : FlowInv p wbuf) (hr : p.runState = .runnable .entry) : wbuf = none := by
  unfold FlowInv at h
  rw [hr] at h
  exact h.2.2

/-- C7: in every state a bridge and its write port flow can reach from
construction (buffers delivered by the hub, executor steps, hardware input
and `run()` polls in any order), the flow is about to run `entry` only while
`writeBuffer_` is null; while a buffer is pending the flow is suspended in
`write_done`, an executor step changes nothing, and a further buffer sent to
the port is appended to its queue and leaves the pending buffer in place. -/
theorem C7_one_buffer_in_flight {β F : Type} [Inhabited β] [Inhabited F]
    (addr : PortId) (ofs0 : Nat) (port : Can F)
    (sevs : List (Event (HubData β) (List β))) (cevs : List (Event (CanHubData F) (List F))) :
    let sb := SerialBridge.after sevs (SerialBridge.init addr ofs0)
    let cb := CanBridge.after cevs (CanBridge.init addr port)
    (sb.writePort_.runState = .runnable .entry → sb.writeBuffer_ = none) ∧
    (cb.writePort_.runState = .runnable .entry → cb.writeBuffer_ = none) ∧
    (∀ wb, sb.writeBuffer_ = some wb →
      sb.writePort_.runState = .suspended .write_done ∧ sb.executorStep = sb ∧
      ∀ m, (SerialBridge.step (.deliver m) sb).1.writeBuffer_ = some wb ∧
        (SerialBridge.step (.deliver m) sb).1.writePort_.queue = sb.writePort_.queue ++ [m] ∧
        (SerialBridge.step (.deliver m) sb).1.executorStep = (SerialBridge.step (.deliver m) sb).1) ∧
    (∀ wb, cb.writeBuffer_ = some wb →
      cb.writePort_.runState = .suspended .write_done ∧ cb.executorStep = cb ∧
      ∀ m, (CanBridge.step (.deliver m) cb).1.writeBuffer_ = some wb ∧
        (CanBridge.step (.deliver m) cb).1.writePort_.queue = cb.writePort_.queue ++ [m] ∧
        (CanBridge.step (.deliver m) cb).1.executorStep = (CanBridge.step (.deliver m) cb).1) := by
  intro sb cb
  have hs : FlowInv sb.writePort_ sb.writeBuffer_ :=
    SerialBridge.after_flowInv sevs _ (SerialBridge.init_flowInv addr ofs0)
  have hc : FlowInv cb.writePort_ cb.writeBuffer_ :=
    CanBridge.can_after_flowInv cevs _ (CanBridge.can_init_flowInv addr port)
  refine ⟨FlowInv_entry _ _ hs, FlowInv_entry _ _ hc, ?_, ?_⟩
  · intro wb hwb
    have hne : sb.writeBuffer_ ≠ none := by rw [hwb]; simp
    refine ⟨(FlowInv_pending _ _ hs hne).1, ?_, ?_⟩
    · unfold SerialBridge.executorStep
      rw [(FlowInv_pending _ _ hs hne).1]
    · intro m
      obtain ⟨_, h2, h3, _⟩ := FlowInv_waits _ _ m hs hne
      refine ⟨hwb, h3, ?_⟩
      unfold SerialBridge.executorStep
      simp only [SerialBridge.step, h2]
  · intro wb hwb
    have hne : cb.writeBuffer_ ≠ none := by rw [hwb]; simp
    refine ⟨(FlowInv_pending _ _ hc hne).1, ?_, ?_⟩
    · unfold CanBridge.executorStep
      rw [(FlowInv_pending _ _ hc hne).1]
    · intro m
      obtain ⟨_, h2, h3, _⟩ := FlowInv_waits _ _ m hc hne
      refine ⟨hwb, h3, ?_⟩
      unfold CanBridge.executorStep
      simp only [CanBridge.step, h2]

/-! ### One notification and one release for every buffer -/

namespace SerialBridge
variable {β : Type}

end SerialBridge

namespace CanBridge
variable {F : Type}

end CanBridge

namespace SerialBridge
variable {β : Type}

theorem init_txInv (addr : PortId) (ofs0 : Nat) : TxInv (init addr ofs0 : SerialBridge β) := by
  simp [TxInv, init, HubPort.init, inFlight]

theorem deliver_txInv (m : HubData β) (hm : m.value.length < SIZE_MOD) (b : SerialBridge β)
    (h : TxInv b) : TxInv { b with writePort_ := b.writePort_.send m } := by
  obtain ⟨h1, h2, h3, h4⟩ := h
  refine ⟨?_, h2, ?_, h4⟩
  · intro x hx
    simp only [HubPort.send, List.mem_append, List.mem_singleton] at hx
    rcases hx with hx | rfl
    · exact h1 x hx
    · exact hm
  · intro hr
    apply h3
    simp only [HubPort.send] at hr
    cases hrs : b.writePort_.runState with
    | idle => rw [hrs] at hr; simp at hr
    | runnable st => rw [hrs] at hr; simpa using hr
    | suspended st => rw [hrs] at hr; simp at hr

theorem executorStep_txInv (b : SerialBridge β) (hf : FlowInv b.writePort_ b.writeBuffer_)
    (h : TxInv b) : TxInv b.executorStep := by
  obtain ⟨h1, h2, h3, h4⟩ := h
  unfold executorStep
  cases hr : b.writePort_.runState with
  | idle => exact ⟨h1, h2, h3, h4⟩
  | suspended st => exact ⟨h1, h2, h3, h4⟩
  | runnable st =>
    cases st with
    | entry =>
      unfold FlowInv at hf
      rw [hr] at hf
      obtain ⟨hq, hmsg, _⟩ := hf
      cases hqq : b.writePort_.queue with
      | nil => exact absurd hqq hq
      | cons m q =>
        simp only [WritePort.entry, HubPort.takeNext, hqq, HubPort.apply]
        refine ⟨?_, ?_, ?_, ?_⟩
        · intro x hx
          exact h1 x (by rw [hqq]; exact List.mem_cons_of_mem _ hx)
        · intro x hx
          simp only [Option.some.injEq] at hx
          subst hx
          exact ⟨h1 m (by rw [hqq]; exact List.mem_cons_self _ _), Nat.zero_le _⟩
        · intro hc; simp at hc
        · simp only [inFlight, List.take_zero, List.append_nil]
          rw [h4]
          simp [inFlight, hmsg]
    | write_done =>
      unfold FlowInv at hf
      rw [hr] at hf
      obtain ⟨_, hmsg⟩ := hf
      obtain ⟨m, hm⟩ := Option.ne_none_iff_exists'.mp hmsg
      have hofs := h3 hr m hm
      simp only [WritePort.write_done, HubPort.apply]
      refine ⟨h1, ?_, ?_, ?_⟩
      · intro x hx; simp at hx
      · intro _ x hx; simp at hx
      · rw [h4]
        simp [inFlight, hm, hofs]

theorem loop_for_write_txInv (avail : Int) (b : SerialBridge β)
    (hf : FlowInv b.writePort_ b.writeBuffer_) (h : TxInv b) :
    TxInv (loop_for_write avail b) := by
  by_cases hb : b.writeBuffer_ = none
  · rw [loop_for_write_none avail b hb]; exact h
  · obtain ⟨wb, hwb⟩ := Option.ne_none_iff_exists'.mp hb
    obtain ⟨hr, hmsg⟩ := FlowInv_pending _ _ hf hb
    rw [hwb] at hmsg
    obtain ⟨h1, h2, h3, h4⟩ := h
    obtain ⟨hsz, hofs⟩ := h2 wb hmsg.symm
    obtain ⟨k, chunks, _, hk, hkle, hlog, hflat, _, hst⟩ :=
      loop_for_write_pending avail b wb hwb hsz hofs
    have hmsg' : (loop_for_write avail b).writePort_.message = some wb := by
      rcases hst with ⟨_, hp⟩ | ⟨_, _, hp⟩
      · rw [hp]; exact hmsg.symm
      · rw [hp]; exact hmsg.symm
    have hq' : (loop_for_write avail b).writePort_.queue = b.writePort_.queue := by
      rcases hst with ⟨_, hp⟩ | ⟨_, _, hp⟩ <;> (rw [hp]; try rfl)
    have hrel' : (loop_for_write avail b).writePort_.released = b.writePort_.released := by
      rcases hst with ⟨_, hp⟩ | ⟨_, _, hp⟩ <;> (rw [hp]; try rfl)
    refine ⟨?_, ?_, ?_, ?_⟩
    · rw [hq']; exact h1
    · intro x hx
      rw [hmsg'] at hx
      simp only [Option.some.injEq] at hx
      subst hx
      exact ⟨hsz, by omega⟩
    · intro hrun x hx
      rw [hmsg'] at hx
      simp only [Option.some.injEq] at hx
      subst hx
      rcases hst with ⟨_, hp⟩ | ⟨_, hfull, _⟩
      · rw [hp, hr] at hrun; simp at hrun
      · omega
    · rw [hlog, List.flatten_append, h4, hflat, hrel']
      simp only [inFlight, hmsg', ← hmsg, hk, List.take_add, List.append_assoc]

theorem step_txInv [Inhabited β] (e : Event (HubData β) (List β)) (he : e.sizeOk)
    (b : SerialBridge β) (hf : FlowInv b.writePort_ b.writeBuffer_) (h : TxInv b) :
    TxInv (step e b).1 := by
  cases e with
  | deliver m => exact deliver_txInv m he b h
  | exec => exact executorStep_txInv b hf h
  | hwReceive d => exact h
  | run avail =>
    have h1 := loop_for_write_txInv avail b hf h
    obtain ⟨f1, f2, f3, f4⟩ := loop_for_read_frame (loop_for_write avail b)
    show TxInv (loop_for_read (loop_for_write avail b)).1
    unfold TxInv inFlight at h1 ⊢
    rw [f1, f3, f4]
    exact h1

theorem after_txInv [Inhabited β] (evs : List (Event (HubData β) (List β)))
    (he : ∀ e ∈ evs, e.sizeOk) (b : SerialBridge β)
    (hf : FlowInv b.writePort_ b.writeBuffer_) (h : TxInv b) : TxInv (after evs b) := by
  induction evs using List.reverseRecOn with
  | nil => exact h
  | append_singleton evs e ih =>
    rw [after_snoc]
    exact step_txInv e (he e (by simp)) _ (after_flowInv evs b hf)
      (ih (fun x hx => he x (by simp [hx])))

/-- Buffers are released in `write_done` and nowhere else. -/
theorem step_released [Inhabited β] (e : Event (HubData β) (List β)) (b : SerialBridge β) :
    (step e b).1.writePort_.released = b.writePort_.released ∨
    (e = .exec ∧ b.writePort_.runState = .runnable .write_done ∧
      (step e b).1.writePort_.released = b.writePort_.released ++ b.writePort_.message.toList) := by
  cases e with
  | deliver m => exact Or.inl rfl
  | hwReceive d => exact Or.inl rfl
  | run avail =>
    left
    show (loop_for_read (loop_for_write avail b)).1.writePort_.released = _
    rw [(loop_for_read_frame _).1]
    rcases loop_for_write_cases avail b with ⟨_, hp⟩ | ⟨_, _, hp⟩ <;> (rw [hp]; try rfl)
  | exec =>
    cases hr : b.writePort_.runState with
    | idle =>
      left
      show b.executorStep.writePort_.released = _
      unfold executorStep
      rw [hr]
    | suspended st =>
      left
      show b.executorStep.writePort_.released = _
      unfold executorStep
      rw [hr]
    | runnable st =>
      cases st with
      | entry =>
        left
        show b.executorStep.writePort_.released = _
        unfold executorStep
        rw [hr]
        cases hq : b.writePort_.queue with
        | nil => simp [HubPort.takeNext, hq]
        | cons m q => simp [HubPort.takeNext, hq, WritePort.entry, HubPort.apply]
      | write_done =>
        right
        refine ⟨rfl, rfl, ?_⟩
        show b.executorStep.writePort_.released = _
        unfold executorStep
        rw [hr]
        rfl

end SerialBridge

namespace CanBridge
variable {F : Type}

theorem can_init_txInv (addr : PortId) (port : Can F) :
    TxInv port.txLog (init addr port) := by
  simp [TxInv, init, HubPort.init, inFlight, Can.enable]

theorem can_deliver_txInv (base : List F) (m : CanHubData F) (b : CanBridge F)
    (h : TxInv base b) : TxInv base { b with writePort_ := b.writePort_.send m } := by
  unfold TxInv inFlight at h ⊢
  simp only [HubPort.send]
  cases hr : b.writePort_.runState with
  | idle => rw [hr] at h; simpa using h
  | suspended st => rw [hr] at h; simpa using h
  | runnable st =>
    cases st with
    | entry => rw [hr] at h; simpa using h
    | write_done => rw [hr] at h; simpa using h

theorem can_executorStep_txInv (base : List F) (b : CanBridge F)
    (hf : FlowInv b.writePort_ b.writeBuffer_) (h : TxInv base b) :
    TxInv base b.executorStep := by
  unfold executorStep
  cases hr : b.writePort_.runState with
  | idle => exact h
  | suspended st => exact h
  | runnable st =>
    cases st with
    | entry =>
      unfold FlowInv at hf
      rw [hr] at hf
      obtain ⟨hq, _, _⟩ := hf
      cases hqq : b.writePort_.queue with
      | nil => exact absurd hqq hq
      | cons m q =>
        unfold TxInv inFlight at h ⊢
        rw [hr] at h
        simp only [WritePort.entry, HubPort.takeNext, hqq, HubPort.apply]
        simpa using h
    | write_done =>
      unfold FlowInv at hf
      rw [hr] at hf
      obtain ⟨_, hmsg⟩ := hf
      obtain ⟨m, hm⟩ := Option.ne_none_iff_exists'.mp hmsg
      unfold TxInv inFlight at h ⊢
      rw [hr, hm] at h
      simp only [WritePort.write_done, HubPort.apply, hm]
      cases hq : b.writePort_.queue with
      | nil => simpa using h
      | cons x q => simpa using h

theorem can_loop_for_write_txInv (base : List F) (avail : Int) (b : CanBridge F)
    (hf : FlowInv b.writePort_ b.writeBuffer_) (h : TxInv base b) :
    TxInv base (loop_for_write avail b) := by
  rcases can_loop_for_write_cases avail b with h1 | ⟨wb, hwb, _, h1⟩
  · rw [h1]; exact h
  · rw [h1]
    obtain ⟨hr, hmsg⟩ := FlowInv_pending _ _ hf (by rw [hwb]; simp)
    rw [hwb] at hmsg
    unfold TxInv inFlight at h ⊢
    rw [hr] at h
    simp only [HubPort.notify, hr, Can.write, ← hmsg]
    rw [h]
    simp

theorem can_step_txInv [Inhabited F] (base : List F) (e : Event (CanHubData F) (List F))
    (b : CanBridge F) (hf : FlowInv b.writePort_ b.writeBuffer_) (h : TxInv base b) :
    TxInv base (step e b).1 := by
  cases e with
  | deliver m => exact can_deliver_txInv base m b h
  | exec => exact can_executorStep_txInv base b hf h
  | hwReceive d => exact h
  | run avail =>
    have h1 := can_loop_for_write_txInv base avail b hf h
    obtain ⟨f1, _, f3, _⟩ := can_readLoop_frame (loop_for_write avail b).port_.rxFifo.length
      (loop_for_write avail b)
    show TxInv base (readLoop _ (loop_for_write avail b)).1
    unfold TxInv inFlight at h1 ⊢
    rw [f1, f3]
    exact h1

theorem can_after_txInv [Inhabited F] (base : List F)
    (evs : List (Event (CanHubData F) (List F))) (b : CanBridge F)
    (hf : FlowInv b.writePort_ b.writeBuffer_) (h : TxInv base b) :
    TxInv base (after evs b) := by
  induction evs using List.reverseRecOn with
  | nil => exact h
  | append_singleton evs e ih =>
    rw [can_after_snoc]
    exact can_step_txInv base e _ (can_after_flowInv evs b hf) ih

/-- Buffers are released in `write_done` and nowhere else. -/
theorem can_step_released [Inhabited F] (e : Event (CanHubData F) (List F)) (b : CanBridge F) :
    (step e b).1.writePort_.released = b.writePort_.released ∨
    (e = .exec ∧ b.writePort_.runState = .runnable .write_done ∧
      (step e b).1.writePort_.released = b.writePort_.released ++ b.writePort_.message.toList) := by
  cases e with
  | deliver m => exact Or.inl rfl
  | hwReceive d => exact Or.inl rfl
  | run avail =>
    left
    show (readLoop _ (loop_for_write avail b)).1.writePort_.released = _
    rw [(can_readLoop_frame _ _).1]
    rcases can_loop_for_write_cases avail b with hp | ⟨_, _, _, hp⟩ <;> (rw [hp]; try rfl)
  | exec =>
    cases hr : b.writePort_.runState with
    | idle =>
      left
      show b.executorStep.writePort_.released = _
      unfold executorStep
      rw [hr]
    | suspended st =>
      left
      show b.executorStep.writePort_.released = _
      unfold executorStep
      rw [hr]
    | runnable st =>
      cases st with
      | entry =>
        left
        show b.executorStep.writePort_.released = _
        unfold executorStep
        rw [hr]
        cases hq : b.writePort_.queue with
        | nil => simp [HubPort.takeNext, hq]
        | cons m q => simp [HubPort.takeNext, hq, WritePort.entry, HubPort.apply]
      | write_done =>
        right
        refine ⟨rfl, rfl, ?_⟩
        show b.executorStep.writePort_.released = _
        unfold executorStep
        rw [hr]
        rfl

end CanBridge

/-- C6: in every state a bridge and its write port flow can reach from
construction, `write_done` is due only for a buffer that `loop_for_write` has
finished (`writeOfs_` has reached its size; for `CanBridge`, its frame is the
last one passed to `port_->write`), buffers are released by `write_done` and by
no other step, and everything released so far has gone to the hardware in
full: the bytes (frames) written are the released payloads, in order, followed
by the part of the current message that is already out. -/
theorem C6_release_only_after_write {β F : Type} [Inhabited β] [Inhabited F]
    (addr : PortId) (ofs0 : Nat) (port : Can F)
    (sevs : List (Event (HubData β) (List β))) (cevs : List (Event (CanHubData F) (List F)))
    (hsz : ∀ e ∈ sevs, e.sizeOk) :
    let sb := SerialBridge.after sevs (SerialBridge.init addr ofs0)
    let cb := CanBridge.after cevs (CanBridge.init addr port)
    (sb.writePort_.runState = .runnable .write_done →
      ∃ m, sb.writePort_.message = some m ∧ m.value.length ≤ sb.writeOfs_ ∧
        sb.writeBuffer_ = none) ∧
    sb.port_.txLog.flatten =
      (sb.writePort_.released.map HubContainer.value).flatten ++ sb.inFlight ∧
    (∀ e, (SerialBridge.step e sb).1.writePort_.released = sb.writePort_.released ∨
      (e = .exec ∧ sb.writePort_.runState = .runnable .write_done ∧
        (SerialBridge.step e sb).1.writePort_.released =
          sb.writePort_.released ++ sb.writePort_.message.toList)) ∧
    (cb.writePort_.runState = .runnable .write_done →
      ∃ m, cb.writePort_.message = some m ∧ cb.writeBuffer_ = none ∧
        cb.port_.txLog =
          port.txLog ++ cb.writePort_.released.map HubContainer.value ++ [m.value]) ∧
    cb.port_.txLog =
      port.txLog ++ cb.writePort_.released.map HubContainer.value ++ cb.inFlight ∧
    (∀ e, (CanBridge.step e cb).1.writePort_.released = cb.writePort_.released ∨
      (e = .exec ∧ cb.writePort_.runState = .runnable .write_done ∧
        (CanBridge.step e cb).1.writePort_.released =
          cb.writePort_.released ++ cb.writePort_.message.toList)) := by
  intro sb cb
  have hsf : FlowInv sb.writePort_ sb.writeBuffer_ :=
    SerialBridge.after_flowInv sevs _ (SerialBridge.init_flowInv addr ofs0)
  have hcf : FlowInv cb.writePort_ cb.writeBuffer_ :=
    CanBridge.can_after_flowInv cevs _ (CanBridge.can_init_flowInv addr port)
  have hst : SerialBridge.TxInv sb :=
    SerialBridge.after_txInv sevs hsz _ (SerialBridge.init_flowInv addr ofs0)
      (SerialBridge.init_txInv addr ofs0)
  have hct : CanBridge.TxInv port.txLog cb :=
    CanBridge.can_after_txInv _ cevs _ (CanBridge.can_init_flowInv addr port)
      (CanBridge.can_init_txInv addr port)
  refine ⟨?_, hst.2.2.2, fun e => SerialBridge.step_released e sb, ?_, hct,
    fun e => CanBridge.can_step_released e cb⟩
  · intro hr
    unfold FlowInv at hsf
    rw [hr] at hsf
    obtain ⟨m, hm⟩ := Option.ne_none_iff_exists'.mp hsf.2
    exact ⟨m, hm, le_of_eq (hst.2.2.1 hr m hm).symm, hsf.1⟩
  · intro hr
    unfold FlowInv at hcf
    rw [hr] at hcf
    obtain ⟨m, hm⟩ := Option.ne_none_iff_exists'.mp hcf.2
    refine ⟨m, hm, hcf.1, ?_⟩
    have := hct
    unfold CanBridge.TxInv CanBridge.inFlight at this
    rw [hr, hm] at this
    simpa using this

/-- C6 on a serial bridge that has just written ten bytes in three polls. -/
theorem C6_release_only_after_write_witness :
    (SerialBridge.after serialWritten (SerialBridge.init 1 0)).writePort_.runState
      = .runnable .write_done ∧
    (∃ m, (SerialBridge.after serialWritten (SerialBridge.init 1 0)).writePort_.message = some m ∧
      m.value.length ≤ (SerialBridge.after serialWritten (SerialBridge.init 1 0)).writeOfs_ ∧
      (SerialBridge.after serialWritten (SerialBridge.init 1 0)).writeBuffer_ = none) ∧
    (CanBridge.after canWritten (CanBridge.init 1 canIdlePort)).writePort_.runState
      = .runnable .write_done ∧
    (∃ m, (CanBridge.after canWritten (CanBridge.init 1 canIdlePort)).writePort_.message = some m ∧
      (CanBridge.after canWritten (CanBridge.init 1 canIdlePort)).writeBuffer_ = none ∧
      (CanBridge.after canWritten (CanBridge.init 1 canIdlePort)).port_.txLog =
        canIdlePort.txLog ++
          (CanBridge.after canWritten (CanBridge.init 1
            canIdlePort)).writePort_.released.map HubContainer.value ++ [m.value]) :=
  ⟨by decide,
    (C6_release_only_after_write 1 0 canIdlePort serialWritten canWritten
      (by simp [serialWritten, Event.sizeOk, tenBytes, SIZE_MOD])).1 (by decide),
    by decide,
    (C6_release_only_after_write 1 0 canIdlePort serialWritten canWritten
      (by simp [serialWritten, Event.sizeOk, tenBytes, SIZE_MOD])).2.2.2.1 (by decide)⟩

/-- C7 on bridges that hold a pending buffer. -/
theorem C7_one_buffer_in_flight_witness :
    (SerialBridge.after serialBusy (SerialBridge.init 1 0)).writeBuffer_ = some tenBytes ∧
    (SerialBridge.after serialBusy (SerialBridge.init 1 0)).executorStep =
      SerialBridge.after serialBusy (SerialBridge.init 1 0) ∧
    (CanBridge.after canBusy (CanBridge.init 1 canIdlePort)).writeBuffer_ = some oneFrame ∧
    (CanBridge.after canBusy (CanBridge.init 1 canIdlePort)).executorStep =
      CanBridge.after canBusy (CanBridge.init 1 canIdlePort) :=
  ⟨by decide,
    ((C7_one_buffer_in_flight 1 0 canIdlePort serialBusy canBusy).2.2.1 tenBytes
      (by decide)).2.1,
    by decide,
    ((C7_one_buffer_in_flight 1 0 canIdlePort serialBusy canBusy).2.2.2 oneFrame
      (by decide)).2.1⟩

/-! ### Hub fan-out -/

namespace Hub
variable {T Q : Type}

/-- What distribution does to one port: the message is delivered once per
registration of the port, and not at all to the tagged origin. -/
theorem distribute_apply (deliver : HubContainer T → Q → Q) (m : HubContainer T)
    (ports : List PortId) (st : PortId → Q) (p : PortId) :
    distribute deliver m ports st p =
      (deliver m)^[if some p = m.skipMember_ then 0 else ports.count p] (st p) := by
  unfold distribute
  induction ports generalizing st with
  | nil => simp
  | cons q ps ih =>
    rw [List.foldl_cons, ih]
    by_cases hp : some p = m.skipMember_
    · simp only [hp, if_true, Function.iterate_zero, id_eq]
      by_cases hq : some q = m.skipMember_
      · simp [hq]
      · have hqp : p ≠ q := by
          intro h; subst h; exact hq hp
        simp [hq, Function.update_noteq hqp]
    · simp only [hp, if_false]
      by_cases hq : some q = m.skipMember_
      · have hqp : q ≠ p := by
          intro h; subst h; exact hp hq
        simp [hq, List.count_cons, hqp]
      · simp only [hq, if_false]
        by_cases hqp : q = p
        · subst hqp
          simp [List.count_cons_self, Function.iterate_succ_apply]
        · simp [List.count_cons, hqp, Function.update_noteq (Ne.symm hqp)]

theorem runAll_inbound (deliver : HubContainer T → Q → Q) (h : Hub (HubContainer T) Q) :
    (runAll deliver h).inbound = [] ∧ (runAll deliver h).ports = h.ports := by
  unfold runAll
  generalize hn : h.inbound.length = n
  induction n generalizing h with
  | zero =>
    exact ⟨List.length_eq_zero.mp hn, rfl⟩
  | succ n ih =>
    rw [Function.iterate_succ_apply]
    cases hi : h.inbound with
    | nil => rw [hi] at hn; simp at hn
    | cons m rest =>
      have hs : step deliver h =
          { h with inbound := rest, port := distribute deliver m h.ports h.port } := by
        unfold step; rw [hi]
      rw [hs]
      have := ih { h with inbound := rest, port := distribute deliver m h.ports h.port }
        (by rw [hi] at hn; simpa using hn)
      exact this

end Hub

theorem HubEvent.sent_snoc_send {M : Type} (evs : List (HubEvent M)) (m : M) :
    HubEvent.sent (evs ++ [.send m]) = HubEvent.sent evs ++ [m] := by
  induction evs with
  | nil => rfl
  | cons e rest ih =>
    cases e with
    | send x => simp [HubEvent.sent, ih]
    | step => simp [HubEvent.sent, ih]

theorem HubEvent.sent_snoc_step {M : Type} (evs : List (HubEvent M)) :
    HubEvent.sent (evs ++ [.step]) = HubEvent.sent evs := by
  induction evs with
  | nil => rfl
  | cons e rest ih =>
    cases e with
    | send x => simp [HubEvent.sent, ih]
    | step => simp [HubEvent.sent, ih]

namespace Hub
variable {T : Type}

theorem hub_after_snoc (evs : List (HubEvent (HubContainer T))) (e : HubEvent (HubContainer T))
    (h : Hub (HubContainer T) (HubPort (HubContainer T))) :
    Hub.after (evs ++ [e]) h =
      match e with
      | .send m => (Hub.after evs h).send m
      | .step => (Hub.after evs h).step HubPort.send := by
  simp [Hub.after, List.foldl_append]

theorem runAll_eq_after (h : Hub (HubContainer T) (HubPort (HubContainer T))) :
    runAll HubPort.send h = Hub.after (List.replicate h.inbound.length .step) h := by
  unfold runAll
  generalize h.inbound.length = n
  induction n generalizing h with
  | zero => rfl
  | succ n ih =>
    rw [Function.iterate_succ_apply, ih, List.replicate_succ]
    rfl

/-- Fan-out under any interleaving of sends by the origin `a` and hub steps:
what has left the inbound queue is in every other registered port's queue, in
the order sent, and the origin's queue is untouched. -/
theorem after_fan_out (h : Hub (HubContainer T) (HubPort (HubContainer T))) (a : PortId)
    (evs : List (HubEvent (HubContainer T)))
    (hnd : h.ports.Nodup) (hin : h.inbound = [])
    (htag : ∀ m ∈ HubEvent.sent evs, m.skipMember_ = some a) :
    (Hub.after evs h).ports = h.ports ∧
    ∃ delivered : List (HubContainer T),
      HubEvent.sent evs = delivered ++ (Hub.after evs h).inbound ∧
      (∀ p ∈ h.ports, p ≠ a →
        ((Hub.after evs h).port p).queue = (h.port p).queue ++ delivered) ∧
      ((Hub.after evs h).port a).queue = (h.port a).queue := by
  induction evs using List.reverseRecOn with
  | nil => exact ⟨rfl, [], by simp [Hub.after, hin, HubEvent.sent], by simp [Hub.after], rfl⟩
  | append_singleton evs e ih =>
    cases e with
    | send m =>
      rw [HubEvent.sent_snoc_send] at htag
      obtain ⟨hp, delivered, h1, h2, h3⟩ :=
        ih (fun x hx => htag x (List.mem_append_left _ hx))
      rw [hub_after_snoc]
      refine ⟨hp, delivered, ?_, h2, h3⟩
      rw [HubEvent.sent_snoc_send, h1]
      simp [Hub.send]
    | step =>
      rw [HubEvent.sent_snoc_step] at htag
      obtain ⟨hp, delivered, h1, h2, h3⟩ := ih htag
      rw [hub_after_snoc, HubEvent.sent_snoc_step]
      simp only
      cases hi : (Hub.after evs h).inbound with
      | nil =>
        have hs : (Hub.after evs h).step HubPort.send = Hub.after evs h := by
          unfold Hub.step; rw [hi]
        rw [hs]
        exact ⟨hp, delivered, by rw [h1, hi], h2, h3⟩
      | cons m rest =>
        have hs : (Hub.after evs h).step HubPort.send =
            { Hub.after evs h with
              inbound := rest
              port := distribute HubPort.send m (Hub.after evs h).ports (Hub.after evs h).port } := by
          unfold Hub.step; rw [hi]
        have hm : m.skipMember_ = some a :=
          htag m (by rw [h1, hi]; simp)
        rw [hs]
        refine ⟨hp, delivered ++ [m], ?_, ?_, ?_⟩
        · rw [h1, hi]; simp
        · intro p hpm hpa
          simp only
          rw [distribute_apply, hp]
          have hne : ¬ (some p = m.skipMember_) := by
            rw [hm]; intro hc; exact hpa (Option.some.inj hc)
          have hc : h.ports.count p = 1 := List.count_eq_one_of_mem hnd hpm
          simp only [hne, if_false, hc, Function.iterate_one]
          rw [← List.append_assoc, ← h2 p hpm hpa]
          rfl
        · simp only
          rw [distribute_apply]
          simp [hm, h3]

end Hub

/-- C3: a hub whose registered ports are distinct, with an empty inbound queue;
one origin port `a` sends messages tagged with its own identity, and the hub
flow distributes, in any interleaving. At every moment each other registered
port has received exactly the messages that have left the hub's queue, once
each and in the order they were sent, and the origin has received none; once
the hub has run until its queue is empty, each other port has received exactly
the messages sent. -/
theorem C3_hub_fan_out {T : Type} (h : Hub (HubContainer T) (HubPort (HubContainer T)))
    (a : PortId) (evs : List (HubEvent (HubContainer T)))
    (hnd : h.ports.Nodup) (hin : h.inbound = [])
    (htag : ∀ m ∈ HubEvent.sent evs, m.skipMember_ = some a) :
    (∃ delivered : List (HubContainer T),
      HubEvent.sent evs = delivered ++ (Hub.after evs h).inbound ∧
      (∀ p ∈ h.ports, p ≠ a →
        ((Hub.after evs h).port p).queue = (h.port p).queue ++ delivered) ∧
      ((Hub.after evs h).port a).queue = (h.port a).queue) ∧
    (∀ p ∈ h.ports, p ≠ a →
      ((Hub.runAll HubPort.send (Hub.after evs h)).port p).queue =
        (h.port p).queue ++ HubEvent.sent evs) ∧
    ((Hub.runAll HubPort.send (Hub.after evs h)).port a).queue = (h.port a).queue := by
  refine ⟨(Hub.after_fan_out h a evs hnd hin htag).2, ?_⟩
  have hrun : Hub.runAll HubPort.send (Hub.after evs h) =
      Hub.after (evs ++ List.replicate (Hub.after evs h).inbound.length .step) h := by
    rw [Hub.runAll_eq_after]
    simp [Hub.after, List.foldl_append]
  have hsent : HubEvent.sent (evs ++ List.replicate (Hub.after evs h).inbound.length .step) =
      HubEvent.sent evs := by
    generalize (Hub.after evs h).inbound.length = n
    induction n with
    | zero => simp
    | succ n ih =>
      rw [List.replicate_succ', ← List.append_assoc, HubEvent.sent_snoc_step, ih]
  obtain ⟨_, delivered, h1, h2, h3⟩ := Hub.after_fan_out h a
    (evs ++ List.replicate (Hub.after evs h).inbound.length .step) hnd hin
    (by rw [hsent]; exact htag)
  rw [← hrun] at h1 h2 h3
  rw [(Hub.runAll_inbound HubPort.send (Hub.after evs h)).1, List.append_nil, hsent] at h1
  exact ⟨fun p hp hpa => by rw [h2 p hp hpa, h1], h3⟩

/-- C3 on the hub with ports A, B, C: A sends one message tagged A; B and C
each receive it once, A receives nothing. -/
theorem C3_hub_fan_out_witness :
    ((Hub.runAll HubPort.send (Hub.after [.send fromA] hubABC)).port 1).queue = [fromA] ∧
    ((Hub.runAll HubPort.send (Hub.after [.send fromA] hubABC)).port 2).queue = [fromA] ∧
    ((Hub.runAll HubPort.send (Hub.after [.send fromA] hubABC)).port 0).queue = [] :=
  ⟨(C3_hub_fan_out hubABC 0 [.send fromA] (by decide) rfl (by decide)).2.1 1
      (by decide) (by decide),
    (C3_hub_fan_out hubABC 0 [.send fromA] (by decide) rfl (by decide)).2.1 2
      (by decide) (by decide),
    (C3_hub_fan_out hubABC 0 [.send fromA] (by decide) rfl (by decide)).2.2⟩

/-! ### Loop avoidance -/

namespace System
variable {B T X : Type}

theorem step_inv (K : BridgeKind B T X) (hK : K.Lawful) (lab : X → Option PortId)
    (i0 : PortId) (e : SysEvent T X) (he : ok K lab i0 e) (h : Hub (HubContainer T) B)
    (hinv : Inv K lab i0 h) : Inv K lab i0 (step K e h) := by
  obtain ⟨hin, hport, hheld⟩ := hinv
  cases e with
  | inject m =>
    refine ⟨?_, hport, hheld⟩
    intro x hx y hy hl
    simp only [step, Hub.send, List.mem_append, List.mem_singleton] at hx
    rcases hx with hx | rfl
    · exact hin x hx y hy hl
    · exact absurd hl (he y hy)
  | hubStep =>
    simp only [step]
    cases hi : h.inbound with
    | nil =>
      have hs : h.step (fun m b => (K.step (.deliver m) b).1) = h := by
        unfold Hub.step; rw [hi]
      rw [hs]
      exact ⟨hin, hport, hheld⟩
    | cons m rest =>
      have hs : h.step (fun m b => (K.step (.deliver m) b).1) =
          { h with
            inbound := rest
            port := Hub.distribute (fun m b => (K.step (.deliver m) b).1) m h.ports h.port } := by
        unfold Hub.step; rw [hi]
      rw [hs]
      refine ⟨fun x hx => hin x (by rw [hi]; exact List.mem_cons_of_mem _ hx), ?_, ?_⟩
      · intro i
        simp only
        rw [Hub.distribute_apply]
        generalize (if some i = m.skipMember_ then 0 else List.count i h.ports) = n
        induction n with
        | zero => exact hport i
        | succ n ih =>
          rw [Function.iterate_succ_apply']
          obtain ⟨ha', hr'⟩ := ih
          refine ⟨by rw [hK.addr_step]; exact ha', ?_⟩
          intro x hx
          rcases hK.rx_step _ _ x hx with hx | ⟨d, hd, _⟩
          · exact hr' x hx
          · simp at hd
      · simp only
        rw [Hub.distribute_apply]
        by_cases hskip : some i0 = m.skipMember_
        · rw [if_pos hskip]
          exact hheld
        · rw [if_neg hskip]
          generalize List.count i0 h.ports = n
          induction n with
          | zero => exact hheld
          | succ n ih =>
            rw [Function.iterate_succ_apply']
            intro x hx hl
            rcases hK.held_step _ _ x hx with hx | ⟨m', hm', hx⟩
            · exact ih x hx hl
            · simp only [Event.deliver.injEq] at hm'
              subst hm'
              have := hin m (by rw [hi]; exact List.mem_cons_self _ _) x hx hl
              exact hskip this.symm
  | bridge i ev =>
    simp only [step]
    obtain ⟨ha, hr⟩ := hport i
    refine ⟨?_, ?_, ?_⟩
    · intro m hm x hx hl
      simp only [List.mem_append] at hm
      rcases hm with hm | hm
      · exact hin m hm x hx hl
      · obtain ⟨h1, h2⟩ := hK.out_step ev (h.port i) m hm
        have := hr x (h2 x hx)
        rw [this] at hl
        rw [h1, ha]
        exact hl
    · intro j
      by_cases hji : j = i
      · subst hji
        simp only [Function.update_same]
        refine ⟨by rw [hK.addr_step]; exact ha, ?_⟩
        intro x hx
        rcases hK.rx_step _ _ x hx with hx1 | ⟨d, hd, hxd⟩
        · exact hr x hx1
        · subst hd
          exact he x hxd
      · simp only [Function.update_noteq hji]
        exact hport j
    · by_cases hi0 : i0 = i
      · subst hi0
        simp only [Function.update_same]
        intro x hx
        rcases hK.held_step _ _ x hx with hx | ⟨m', hm', _⟩
        · exact hheld x hx
        · subst hm'
          exact he.elim
      · simp only [Function.update_noteq hi0]
        exact hheld

theorem sys_after_snoc (K : BridgeKind B T X) (evs : List (SysEvent T X)) (e : SysEvent T X)
    (h : Hub (HubContainer T) B) : after K (evs ++ [e]) h = step K e (after K evs h) := by
  simp [after, List.foldl_append]

theorem after_inv (K : BridgeKind B T X) (hK : K.Lawful) (lab : X → Option PortId)
    (i0 : PortId) (evs : List (SysEvent T X)) (he : ∀ e ∈ evs, ok K lab i0 e)
    (h : Hub (HubContainer T) B) (hinv : Inv K lab i0 h) : Inv K lab i0 (after K evs h) := by
  induction evs using List.reverseRecOn with
  | nil => exact hinv
  | append_singleton evs e ih =>
    rw [sys_after_snoc]
    exact step_inv K hK lab i0 e (he e (by simp)) _ (ih (fun x hx => he x (by simp [hx])))

/-- A property of a port that every step of the port keeps holds in every
state of the hub. -/
theorem after_port (K : BridgeKind B T X) (P : B → Prop)
    (hP : ∀ e b, P b → P (K.step e b).1) (evs : List (SysEvent T X))
    (h : Hub (HubContainer T) B) (i : PortId) (hi : P (h.port i)) :
    P ((after K evs h).port i) := by
  induction evs using List.reverseRecOn with
  | nil => exact hi
  | append_singleton evs e ih =>
    rw [sys_after_snoc]
    generalize after K evs h = s at ih
    cases e with
    | inject m => exact ih
    | hubStep =>
      simp only [step]
      unfold Hub.step
      cases s.inbound with
      | nil => exact ih
      | cons m rest =>
        simp only
        rw [Hub.distribute_apply]
        generalize (if some i = m.skipMember_ then 0 else List.count i s.ports) = n
        induction n with
        | zero => exact ih
        | succ n ihn =>
          rw [Function.iterate_succ_apply']
          exact hP _ _ ihn
    | bridge j ev =>
      simp only [step]
      by_cases hji : i = j
      · subst hji
        simp only [Function.update_same]
        exact hP _ _ ih
      · simp only [Function.update_noteq hji]
        exact ih

end System

theorem withOthers_lawful {B T X : Type} (K : BridgeKind B T X) (hK : K.Lawful) :
    K.withOthers.Lawful := by
  refine ⟨?_, ?_, ?_, ?_⟩
  · intro e p
    cases p with
    | bridge b => exact hK.addr_step e b
    | other a r => cases e <;> rfl
  · intro e p x hx
    cases p with
    | bridge b => exact hK.held_step e b x hx
    | other a r => cases e <;> simp [BridgeKind.withOthers] at hx
  · intro e p x hx
    cases p with
    | bridge b => exact hK.rx_step e b x hx
    | other a r => cases e <;> simp [BridgeKind.withOthers] at hx
  · intro e p m hm
    cases p with
    | bridge b => exact hK.out_step e b m hm
    | other a r => cases e <;> simp [BridgeKind.withOthers] at hm

/-- A bridge stays a bridge. -/
theorem withOthers_asBridge {B T X : Type} (K : BridgeKind B T X)
    (e : Event (HubContainer T) (List X)) (p : Port B (HubContainer T))
    (h : p.asBridge.isSome = true) : (K.withOthers.step e p).1.asBridge.isSome = true := by
  cases p with
  | bridge b => rfl
  | other a r => simp [Port.asBridge] at h

/-- Registering a port changes neither the queue of the hub nor a port. -/
theorem register_port_frame {T Q : Type} (p : PortId) (h : Hub (HubContainer T) Q) :
    (Hub.register_port p h).inbound = h.inbound ∧ (Hub.register_port p h).port = h.port := by
  unfold Hub.register_port
  split <;> exact ⟨rfl, rfl⟩

namespace SerialBridge
variable {β : Type}

/-- On an empty FIFO `loop_for_read` does nothing. -/
theorem loop_for_read_nil [Inhabited β] (b : SerialBridge β) (h : b.port_.rxFifo = []) :
    loop_for_read b = (b, []) := by
  unfold loop_for_read
  simp [h, SerialPort.available]

/-- On a FIFO with data `loop_for_read` sends one buffer with all its bytes,
tagged with the own write port. -/
theorem loop_for_read_cons [Inhabited β] (b : SerialBridge β) (h : b.port_.rxFifo ≠ []) :
    loop_for_read b =
      ({ b with
          port_ := { b.port_ with rxFifo := [] }
          pool := { allocCalls := b.pool.allocCalls + 1 } },
        [{ value := b.port_.rxFifo, skipMember_ := some b.writePort_.addr }]) := by
  unfold loop_for_read
  have hpos : ¬ ((b.port_.rxFifo.length : Int) ≤ 0) := by
    have : 0 < b.port_.rxFifo.length := List.length_pos.mpr h
    omega
  have hd : (default : List β) = [] := rfl
  simp only [SerialPort.available, hpos, if_false]
  simp [SerialPort.readBytes, resize, alloc, hd]

theorem mem_held (b : SerialBridge β) (x : β) :
    x ∈ b.held ↔
      (∃ m ∈ b.writePort_.queue, x ∈ m.value) ∨
      (∃ m, b.writePort_.message = some m ∧ x ∈ m.value) ∨
      (∃ m, b.writeBuffer_ = some m ∧ x ∈ m.value) ∨
      (∃ c ∈ b.port_.txLog, x ∈ c) := by
  unfold held
  simp only [List.mem_append, List.mem_flatten, List.mem_map, Option.mem_toList,
    Option.mem_def]
  constructor
  · rintro (((⟨l, ⟨m, hm, rfl⟩, hx⟩ | ⟨l, ⟨m, hm, rfl⟩, hx⟩) | ⟨l, ⟨m, hm, rfl⟩, hx⟩) | h)
    · exact Or.inl ⟨m, hm, hx⟩
    · exact Or.inr (Or.inl ⟨m, hm, hx⟩)
    · exact Or.inr (Or.inr (Or.inl ⟨m, hm, hx⟩))
    · exact Or.inr (Or.inr (Or.inr h))
  · rintro (⟨m, hm, hx⟩ | ⟨m, hm, hx⟩ | ⟨m, hm, hx⟩ | h)
    · exact Or.inl (Or.inl (Or.inl ⟨_, ⟨m, hm, rfl⟩, hx⟩))
    · exact Or.inl (Or.inl (Or.inr ⟨_, ⟨m, hm, rfl⟩, hx⟩))
    · exact Or.inl (Or.inr ⟨_, ⟨m, hm, rfl⟩, hx⟩)
    · exact Or.inr h

/-- A poll moves bytes of the pending buffer to the port and nothing else. -/
theorem loop_for_write_held (avail : Int) (b : SerialBridge β) :
    (loop_for_write avail b).writePort_.queue = b.writePort_.queue ∧
    (loop_for_write avail b).writePort_.message = b.writePort_.message ∧
    (loop_for_write avail b).writePort_.addr = b.writePort_.addr ∧
    ((loop_for_write avail b).writeBuffer_ = b.writeBuffer_ ∨
      (loop_for_write avail b).writeBuffer_ = none) ∧
    (loop_for_write avail b).port_.rxFifo = b.port_.rxFifo ∧
    (∀ c ∈ (loop_for_write avail b).port_.txLog,
      c ∈ b.port_.txLog ∨ ∃ wb, b.writeBuffer_ = some wb ∧ ∀ x ∈ c, x ∈ wb.value) := by
  by_cases hb : b.writeBuffer_ = none
  · rw [loop_for_write_none avail b hb]
    exact ⟨rfl, rfl, rfl, Or.inl rfl, rfl, fun c hc => Or.inl hc⟩
  · obtain ⟨wb, hwb⟩ := Option.ne_none_iff_exists'.mp hb
    have hchunk : ∀ n (c : List β), c ∈ b.port_.txLog ++ [(wb.value.drop b.writeOfs_).take n] →
        c ∈ b.port_.txLog ∨ ∃ wb', some wb = some wb' ∧ ∀ x ∈ c, x ∈ wb'.value := by
      intro n c hc
      simp only [List.mem_append, List.mem_singleton] at hc
      rcases hc with hc | rfl
      · exact Or.inl hc
      · exact Or.inr ⟨wb, rfl, fun x hx => List.mem_of_mem_drop (List.mem_of_mem_take hx)⟩
    unfold loop_for_write
    rw [hwb]
    simp only
    split
    · exact ⟨rfl, rfl, rfl, Or.inl hwb, rfl, fun c hc => Or.inl hc⟩
    · repeat' split
      all_goals first
        | exact ⟨rfl, rfl, rfl, Or.inr rfl, rfl, hchunk _⟩
        | exact ⟨rfl, rfl, rfl, Or.inl rfl, rfl, hchunk _⟩

theorem executorStep_held (b : SerialBridge β) :
    b.executorStep.writePort_.addr = b.writePort_.addr ∧
    b.executorStep.port_ = b.port_ ∧
    ∀ x ∈ b.executorStep.held, x ∈ b.held := by
  unfold executorStep
  cases hr : b.writePort_.runState with
  | idle => exact ⟨rfl, rfl, fun x hx => hx⟩
  | suspended st => exact ⟨rfl, rfl, fun x hx => hx⟩
  | runnable st =>
    cases st with
    | entry =>
      cases hq : b.writePort_.queue with
      | nil =>
        refine ⟨by simp [HubPort.takeNext, hq], rfl, ?_⟩
        intro x hx
        rw [mem_held] at hx ⊢
        simpa [HubPort.takeNext, hq] using hx
      | cons m q =>
        refine ⟨by simp [HubPort.takeNext, hq, WritePort.entry, HubPort.apply], rfl, ?_⟩
        intro x hx
        rw [mem_held] at hx ⊢
        simp only [HubPort.takeNext, hq, WritePort.entry, HubPort.apply] at hx
        rcases hx with ⟨m', hm', hx⟩ | ⟨m', hm', hx⟩ | ⟨m', hm', hx⟩ | h
        · exact Or.inl ⟨m', by rw [hq]; exact List.mem_cons_of_mem _ hm', hx⟩
        · simp only [Option.some.injEq] at hm'
          subst hm'
          exact Or.inl ⟨m, by rw [hq]; exact List.mem_cons_self _ _, hx⟩
        · simp only [Option.some.injEq] at hm'
          subst hm'
          exact Or.inl ⟨m, by rw [hq]; exact List.mem_cons_self _ _, hx⟩
        · exact Or.inr (Or.inr (Or.inr h))
    | write_done =>
      refine ⟨rfl, rfl, ?_⟩
      intro x hx
      rw [mem_held] at hx ⊢
      simp only [WritePort.write_done, HubPort.apply] at hx
      rcases hx with h | ⟨m', hm', _⟩ | h | h
      · exact Or.inl h
      · simp at hm'
      · exact Or.inr (Or.inr (Or.inl h))
      · exact Or.inr (Or.inr (Or.inr h))

end SerialBridge

theorem serialKind_lawful {β : Type} [Inhabited β] :
    (serialKind : BridgeKind (SerialBridge β) (List β) β).Lawful := by
  refine ⟨?_, ?_, ?_, ?_⟩
  · intro e b
    cases e with
    | deliver m => rfl
    | exec => exact (SerialBridge.executorStep_held b).1
    | hwReceive d => rfl
    | run avail =>
      show (SerialBridge.loop_for_read (SerialBridge.loop_for_write avail b)).1.writePort_.addr = _
      rw [(SerialBridge.loop_for_read_frame _).1]
      exact (SerialBridge.loop_for_write_held avail b).2.2.1
  · intro e b x hx
    cases e with
    | deliver m =>
      change x ∈ SerialBridge.held { b with writePort_ := b.writePort_.send m } at hx
      rw [SerialBridge.mem_held] at hx
      simp only [HubPort.send, List.mem_append, List.mem_singleton] at hx
      rcases hx with ⟨m', hm' | rfl, hx⟩ | h | h | h
      · left; exact (SerialBridge.mem_held b x).mpr (Or.inl ⟨m', hm', hx⟩)
      · right; exact ⟨m', rfl, hx⟩
      · left; exact (SerialBridge.mem_held b x).mpr (Or.inr (Or.inl h))
      · left; exact (SerialBridge.mem_held b x).mpr (Or.inr (Or.inr (Or.inl h)))
      · left; exact (SerialBridge.mem_held b x).mpr (Or.inr (Or.inr (Or.inr h)))
    | exec => exact Or.inl ((SerialBridge.executorStep_held b).2.2 x hx)
    | hwReceive d =>
      left
      change x ∈ SerialBridge.held
        { b with port_ := { b.port_ with rxFifo := b.port_.rxFifo ++ d } } at hx
      rw [SerialBridge.mem_held] at hx
      exact (SerialBridge.mem_held b x).mpr hx
    | run avail =>
      left
      change x ∈ SerialBridge.held
        (SerialBridge.loop_for_read (SerialBridge.loop_for_write avail b)).1 at hx
      rw [SerialBridge.mem_held] at hx
      obtain ⟨f1, f2, _, f4⟩ := SerialBridge.loop_for_read_frame (SerialBridge.loop_for_write avail b)
      obtain ⟨g1, g2, _, g4, _, g6⟩ := SerialBridge.loop_for_write_held avail b
      rw [f1, f2, f4, g1, g2] at hx
      apply (SerialBridge.mem_held b x).mpr
      rcases hx with h | h | ⟨m', hm', hx⟩ | ⟨c, hc, hx⟩
      · exact Or.inl h
      · exact Or.inr (Or.inl h)
      · rcases g4 with g | g
        · rw [g] at hm'; exact Or.inr (Or.inr (Or.inl ⟨m', hm', hx⟩))
        · rw [g] at hm'; simp at hm'
      · rcases g6 c hc with h | ⟨wb, hwb, hsub⟩
        · exact Or.inr (Or.inr (Or.inr ⟨c, h, hx⟩))
        · exact Or.inr (Or.inr (Or.inl ⟨wb, hwb, hsub x hx⟩))
  · intro e b x hx
    cases e with
    | deliver m => exact Or.inl hx
    | exec =>
      left
      change x ∈ b.executorStep.port_.rxFifo at hx
      rw [(SerialBridge.executorStep_held b).2.1] at hx
      exact hx
    | hwReceive d =>
      change x ∈ b.port_.rxFifo ++ d at hx
      rcases List.mem_append.mp hx with h | h
      · exact Or.inl h
      · exact Or.inr ⟨d, rfl, h⟩
    | run avail =>
      left
      change x ∈ (SerialBridge.loop_for_read (SerialBridge.loop_for_write avail b)).1.port_.rxFifo
        at hx
      have g5 := (SerialBridge.loop_for_write_held avail b).2.2.2.2.1
      by_cases hnil : (SerialBridge.loop_for_write avail b).port_.rxFifo = []
      · rw [SerialBridge.loop_for_read_nil _ hnil, g5] at hx; exact hx
      · rw [SerialBridge.loop_for_read_cons _ hnil] at hx
        simp at hx
  · intro e b m hm
    cases e with
    | deliver m' => simp [serialKind, SerialBridge.step] at hm
    | exec => simp [serialKind, SerialBridge.step] at hm
    | hwReceive d => simp [serialKind, SerialBridge.step] at hm
    | run avail =>
      change m ∈ (SerialBridge.loop_for_read (SerialBridge.loop_for_write avail b)).2 at hm
      obtain ⟨_, _, g3, _, g5, _⟩ := SerialBridge.loop_for_write_held avail b
      by_cases hnil : (SerialBridge.loop_for_write avail b).port_.rxFifo = []
      · rw [SerialBridge.loop_for_read_nil _ hnil] at hm
        simp at hm
      · rw [SerialBridge.loop_for_read_cons _ hnil] at hm
        simp only [List.mem_singleton] at hm
        subst hm
        refine ⟨by simp only [g3]; rfl, ?_⟩
        intro x hx
        change x ∈ (SerialBridge.loop_for_write avail b).port_.rxFifo at hx
        rw [g5] at hx
        exact hx

namespace CanBridge
variable {F : Type}

/-- The read loop takes frames from the FIFO and sends nothing else. -/
theorem can_readLoop_rx [Inhabited F] (fuel : Nat) (b : CanBridge F) :
    (∀ x ∈ (readLoop fuel b).1.port_.rxFifo, x ∈ b.port_.rxFifo) ∧
    (∀ m ∈ (readLoop fuel b).2, m.value ∈ b.port_.rxFifo) := by
  induction fuel generalizing b with
  | zero => exact ⟨fun x hx => hx, fun m hm => by simp [readLoop] at hm⟩
  | succ n ih =>
    unfold readLoop
    split
    · cases hq : b.port_.rxFifo with
      | nil =>
        rename_i hav
        simp [Can.available, hq] at hav
      | cons f rest =>
        have hread : b.port_.read (alloc b.pool : CanHubData F × Pool).1.value =
            (f, { b.port_ with rxFifo := rest }) := by
          unfold Can.read; rw [hq]
        simp only [hread]
        obtain ⟨h1, h2⟩ := ih { b with
        port_ := { b.port_ with rxFifo := rest }
        pool := { allocCalls := b.pool.allocCalls + 1 } }
        refine ⟨fun x hx => List.mem_cons_of_mem _ (h1 x hx), ?_⟩
        intro m hm
        simp only [List.mem_cons] at hm
        rcases hm with rfl | hm
        · exact List.mem_cons_self _ _
        · exact List.mem_cons_of_mem _ (h2 m hm)
    · exact ⟨fun x hx => hx, fun m hm => by simp at hm⟩

/-- The bound on the iterations is never what ends the read loop: it ends
with an empty FIFO, having sent one buffer per frame, in FIFO order. -/
theorem can_readLoop_drains [Inhabited F] (fuel : Nat) (b : CanBridge F)
    (h : b.port_.rxFifo.length ≤ fuel) :
    (readLoop fuel b).1.port_.rxFifo = [] ∧
    (readLoop fuel b).2.map HubContainer.value = b.port_.rxFifo := by
  induction fuel generalizing b with
  | zero =>
    have : b.port_.rxFifo = [] := List.length_eq_zero.mp (Nat.le_zero.mp h)
    simp [readLoop, this]
  | succ n ih =>
    unfold readLoop
    cases hq : b.port_.rxFifo with
    | nil => simp [Can.available, hq]
    | cons f rest =>
      have hav : b.port_.available ≠ 0 := by
        simp only [Can.available, hq, List.length_cons]
        omega
      have hread : b.port_.read (alloc b.pool : CanHubData F × Pool).1.value =
          (f, { b.port_ with rxFifo := rest }) := by
        unfold Can.read; rw [hq]
      simp only [hav, ne_eq, not_false_eq_true, if_true, hread]
      obtain ⟨h1, h2⟩ := ih { b with
        port_ := { b.port_ with rxFifo := rest }
        pool := { allocCalls := b.pool.allocCalls + 1 } }
        (by rw [hq] at h; simpa using h)
      exact ⟨h1, by rw [List.map_cons]; exact congrArg (List.cons f) h2⟩

theorem can_mem_held (b : CanBridge F) (x : F) :
    x ∈ b.held ↔
      (∃ m ∈ b.writePort_.queue, x = m.value) ∨
      (∃ m, b.writePort_.message = some m ∧ x = m.value) ∨
      (∃ m, b.writeBuffer_ = some m ∧ x = m.value) ∨
      x ∈ b.port_.txLog := by
  unfold held
  simp only [List.mem_append, List.mem_map, Option.mem_toList, Option.mem_def]
  constructor
  · rintro (((⟨m, hm, rfl⟩ | ⟨m, hm, rfl⟩) | ⟨m, hm, rfl⟩) | h)
    · exact Or.inl ⟨m, hm, rfl⟩
    · exact Or.inr (Or.inl ⟨m, hm, rfl⟩)
    · exact Or.inr (Or.inr (Or.inl ⟨m, hm, rfl⟩))
    · exact Or.inr (Or.inr (Or.inr h))
  · rintro (⟨m, hm, rfl⟩ | ⟨m, hm, rfl⟩ | ⟨m, hm, rfl⟩ | h)
    · exact Or.inl (Or.inl (Or.inl ⟨m, hm, rfl⟩))
    · exact Or.inl (Or.inl (Or.inr ⟨m, hm, rfl⟩))
    · exact Or.inl (Or.inr ⟨m, hm, rfl⟩)
    · exact Or.inr h

theorem can_executorStep_held (b : CanBridge F) :
    b.executorStep.writePort_.addr = b.writePort_.addr ∧
    b.executorStep.port_ = b.port_ ∧
    ∀ x ∈ b.executorStep.held, x ∈ b.held := by
  unfold executorStep
  cases hr : b.writePort_.runState with
  | idle => exact ⟨rfl, rfl, fun x hx => hx⟩
  | suspended st => exact ⟨rfl, rfl, fun x hx => hx⟩
  | runnable st =>
    cases st with
    | entry =>
      cases hq : b.writePort_.queue with
      | nil =>
        refine ⟨by simp [HubPort.takeNext, hq], rfl, ?_⟩
        intro x hx
        rw [can_mem_held] at hx ⊢
        simpa [HubPort.takeNext, hq] using hx
      | cons m q =>
        refine ⟨by simp [HubPort.takeNext, hq, WritePort.entry, HubPort.apply], rfl, ?_⟩
        intro x hx
        rw [can_mem_held] at hx ⊢
        simp only [HubPort.takeNext, hq, WritePort.entry, HubPort.apply] at hx
        rcases hx with ⟨m', hm', hx⟩ | ⟨m', hm', hx⟩ | ⟨m', hm', hx⟩ | h
        · exact Or.inl ⟨m', by rw [hq]; exact List.mem_cons_of_mem _ hm', hx⟩
        · simp only [Option.some.injEq] at hm'
          subst hm'
          exact Or.inl ⟨m, by rw [hq]; exact List.mem_cons_self _ _, hx⟩
        · simp only [Option.some.injEq] at hm'
          subst hm'
          exact Or.inl ⟨m, by rw [hq]; exact List.mem_cons_self _ _, hx⟩
        · exact Or.inr (Or.inr (Or.inr h))
    | write_done =>
      refine ⟨rfl, rfl, ?_⟩
      intro x hx
      rw [can_mem_held] at hx ⊢
      simp only [WritePort.write_done, HubPort.apply] at hx
      rcases hx with h | ⟨m', hm', _⟩ | h | h
      · exact Or.inl h
      · simp at hm'
      · exact Or.inr (Or.inr (Or.inl h))
      · exact Or.inr (Or.inr (Or.inr h))

/-- A poll moves the pending frame to the port and nothing else. -/
theorem can_loop_for_write_held (avail : Int) (b : CanBridge F) :
    (loop_for_write avail b).writePort_.addr = b.writePort_.addr ∧
    (loop_for_write avail b).port_.rxFifo = b.port_.rxFifo ∧
    ∀ x ∈ (loop_for_write avail b).held, x ∈ b.held := by
  rcases can_loop_for_write_cases avail b with h | ⟨wb, hwb, _, h⟩
  · rw [h]; exact ⟨rfl, rfl, fun x hx => hx⟩
  · rw [h]
    refine ⟨rfl, rfl, ?_⟩
    intro x hx
    rw [can_mem_held] at hx ⊢
    simp only [HubPort.notify, Can.write, List.mem_append, List.mem_singleton] at hx
    rcases hx with h | h | ⟨m', hm', _⟩ | h | rfl
    · exact Or.inl h
    · exact Or.inr (Or.inl h)
    · simp at hm'
    · exact Or.inr (Or.inr (Or.inr h))
    · exact Or.inr (Or.inr (Or.inl ⟨wb, hwb, rfl⟩))

end CanBridge

theorem canKind_lawful {F : Type} [Inhabited F] :
    (canKind : BridgeKind (CanBridge F) F F).Lawful := by
  refine ⟨?_, ?_, ?_, ?_⟩
  · intro e b
    cases e with
    | deliver m => rfl
    | exec => exact (CanBridge.can_executorStep_held b).1
    | hwReceive d => rfl
    | run avail =>
      show (CanBridge.readLoop _ (CanBridge.loop_for_write avail b)).1.writePort_.addr = _
      rw [(CanBridge.can_readLoop_frame _ _).1]
      exact (CanBridge.can_loop_for_write_held avail b).1
  · intro e b x hx
    cases e with
    | deliver m =>
      change x ∈ CanBridge.held { b with writePort_ := b.writePort_.send m } at hx
      rw [CanBridge.can_mem_held] at hx
      simp only [HubPort.send, List.mem_append, List.mem_singleton] at hx
      rcases hx with ⟨m', hm' | rfl, hx⟩ | h | h | h
      · left; exact (CanBridge.can_mem_held b x).mpr (Or.inl ⟨m', hm', hx⟩)
      · right; exact ⟨m', rfl, by rw [hx]; exact List.mem_singleton_self _⟩
      · left; exact (CanBridge.can_mem_held b x).mpr (Or.inr (Or.inl h))
      · left; exact (CanBridge.can_mem_held b x).mpr (Or.inr (Or.inr (Or.inl h)))
      · left; exact (CanBridge.can_mem_held b x).mpr (Or.inr (Or.inr (Or.inr h)))
    | exec => exact Or.inl ((CanBridge.can_executorStep_held b).2.2 x hx)
    | hwReceive d =>
      left
      change x ∈ CanBridge.held
        { b with port_ := { b.port_ with rxFifo := b.port_.rxFifo ++ d } } at hx
      rw [CanBridge.can_mem_held] at hx
      exact (CanBridge.can_mem_held b x).mpr hx
    | run avail =>
      left
      change x ∈ CanBridge.held (CanBridge.readLoop _ (CanBridge.loop_for_write avail b)).1 at hx
      rw [CanBridge.can_mem_held] at hx
      obtain ⟨f1, f2, f3, _⟩ := CanBridge.can_readLoop_frame
        (CanBridge.loop_for_write avail b).port_.rxFifo.length (CanBridge.loop_for_write avail b)
      rw [f1, f2, f3, ← CanBridge.can_mem_held] at hx
      exact (CanBridge.can_loop_for_write_held avail b).2.2 x hx
  · intro e b x hx
    cases e with
    | deliver m => exact Or.inl hx
    | exec =>
      left
      change x ∈ b.executorStep.port_.rxFifo at hx
      rw [(CanBridge.can_executorStep_held b).2.1] at hx
      exact hx
    | hwReceive d =>
      change x ∈ b.port_.rxFifo ++ d at hx
      rcases List.mem_append.mp hx with h | h
      · exact Or.inl h
      · exact Or.inr ⟨d, rfl, h⟩
    | run avail =>
      left
      change x ∈ (CanBridge.readLoop _ (CanBridge.loop_for_write avail b)).1.port_.rxFifo at hx
      have := (CanBridge.can_readLoop_rx _ _).1 x hx
      rw [(CanBridge.can_loop_for_write_held avail b).2.1] at this
      exact this
  · intro e b m hm
    cases e with
    | deliver m' => simp [canKind, CanBridge.step] at hm
    | exec => simp [canKind, CanBridge.step] at hm
    | hwReceive d => simp [canKind, CanBridge.step] at hm
    | run avail =>
      change m ∈ (CanBridge.readLoop _ (CanBridge.loop_for_write avail b)).2 at hm
      refine ⟨?_, ?_⟩
      · have := CanBridge.readLoop_tagged _ _ m hm
        rw [this, (CanBridge.can_loop_for_write_held avail b).1]
        rfl
      · intro x hx
        change x ∈ [m.value] at hx
        rw [List.mem_singleton] at hx
        subst hx
        have := (CanBridge.can_readLoop_rx _ _).2 m hm
        rw [(CanBridge.can_loop_for_write_held avail b).2.1] at this
        exact this

/-- C2, as amended: the text hub of a serial bridge with its GridConnect
adapter, and the CAN hub with any set of CAN bridges and any other ports, in
any state reachable by hardware input, `run()` polls, executor steps, hub
distribution and messages sent by the other ports. With `lab x` the hardware
port at which the byte (frame) `x` entered: as long as no other port sends to
the hub a byte (frame) that entered at the bridge, no byte (frame) that entered
at the bridge is ever queued at its write port, its current message, stored in
its `writeBuffer_`, or written to its hardware port. -/
theorem C2_loop_avoidance {β F : Type} [Inhabited β] [Inhabited F]
    (labS : β → Option PortId) (labC : F → Option PortId)
    (w g : PortId) (ofs0 : Nat) (bridges others : List PortId) (i : PortId)
    (hi : i ∈ bridges)
    (sevs : List (SysEvent (List β) β)) (cevs : List (SysEvent F F))
    (hs : ∀ e ∈ sevs, System.ok serialKind.withOthers labS w e)
    (hc : ∀ e ∈ cevs, System.ok canKind.withOthers labC i e) :
    (∃ sb, (System.after serialKind.withOthers sevs (serialSystem w g ofs0)).port w =
        .bridge sb ∧ ∀ x ∈ sb.held, labS x ≠ some w) ∧
    (∃ cb, (System.after canKind.withOthers cevs (canSystem bridges others)).port i =
        .bridge cb ∧ ∀ x ∈ cb.held, labC x ≠ some i) := by
  have hbase : System.Inv serialKind.withOthers labS w
      ({ ports := [], inbound := []
         port := fun j => if j = w then .bridge (SerialBridge.init w ofs0) else .other j [] } :
        Hub (HubData β) (Port (SerialBridge β) (HubData β))) := by
    refine ⟨fun m hm => by simp at hm, fun j => ?_, ?_⟩
    · by_cases hj : j = w
      · subst hj
        simp [BridgeKind.withOthers, serialKind, SerialBridge.init, HubPort.init]
      · simp [BridgeKind.withOthers, hj]
    · intro x hx
      simp [BridgeKind.withOthers, serialKind, SerialBridge.held, SerialBridge.init,
        HubPort.init] at hx
  have his : System.Inv serialKind.withOthers labS w
      (serialSystem w g ofs0 : Hub (HubData β) _) := by
    unfold serialSystem System.Inv
    rw [(register_port_frame w _).1, (register_port_frame w _).2,
      (register_port_frame g _).1, (register_port_frame g _).2]
    exact hbase
  have hbs : ((serialSystem w g ofs0 : Hub (HubData β) _).port w).asBridge.isSome = true := by
    unfold serialSystem
    rw [(register_port_frame w _).2, (register_port_frame g _).2]
    simp [Port.asBridge]
  have hic : System.Inv canKind.withOthers labC i
      (canSystem bridges others : Hub (CanHubData F) _) := by
    refine ⟨fun m hm => by simp [canSystem] at hm, fun j => ?_, ?_⟩
    · by_cases hj : j ∈ bridges
      · simp [BridgeKind.withOthers, canKind, canSystem, hj, CanBridge.init, HubPort.init,
          Can.enable]
      · simp [BridgeKind.withOthers, canSystem, hj]
    · intro x hx
      simp [BridgeKind.withOthers, canKind, canSystem, hi, CanBridge.held, CanBridge.init,
        HubPort.init, Can.enable] at hx
  have hbc : ((canSystem bridges others : Hub (CanHubData F) _).port i).asBridge.isSome =
      true := by
    simp [canSystem, hi, Port.asBridge]
  have hS := (System.after_inv serialKind.withOthers (withOthers_lawful _ serialKind_lawful)
    labS w sevs hs _ his).2.2
  have hC := (System.after_inv canKind.withOthers (withOthers_lawful _ canKind_lawful)
    labC i cevs hc _ hic).2.2
  have kS := System.after_port serialKind.withOthers (fun p => p.asBridge.isSome = true)
    (fun e p hp => withOthers_asBridge serialKind e p hp) sevs _ w hbs
  have kC := System.after_port canKind.withOthers (fun p => p.asBridge.isSome = true)
    (fun e p hp => withOthers_asBridge canKind e p hp) cevs _ i hbc
  refine ⟨?_, ?_⟩
  · cases hp : (System.after serialKind.withOthers sevs (serialSystem w g ofs0)).port w with
    | bridge sb =>
      rw [hp] at hS
      exact ⟨sb, rfl, hS⟩
    | other a r =>
      rw [hp] at kS
      simp [Port.asBridge] at kS
  · cases hp : (System.after canKind.withOthers cevs (canSystem bridges others)).port i with
    | bridge cb =>
      rw [hp] at hC
      exact ⟨cb, rfl, hC⟩
    | other a r =>
      rw [hp] at kC
      simp [Port.asBridge] at kC

/-- C2 as amended, on the text hub of a serial bridge (port 0) with its adapter
(port 1) and on a CAN hub with two bridges (ports 0 and 1) and another port
(port 5): what enters at bridge 0 reaches the other ports and does not come back
to bridge 0, which writes what the other ports send. -/
theorem C2_loop_avoidance_witness :
    (System.after serialKind.withOthers serialTraffic (serialSystem 0 1 0)).port 1 =
      .other 1 [{ value := [(58, some 0), (88, some 0)], skipMember_ := some 0 }] ∧
    ((System.after serialKind.withOthers serialTraffic (serialSystem 0 1 0)).port 0).asBridge.map
        (fun b => b.port_.txLog) = some [[(59, none), (78, none)]] ∧
    ((System.after canKind.withOthers canTraffic (canSystem [0, 1] [5])).port 1).asBridge.map
        (fun b => b.port_.txLog) = some [(7, some 0)] ∧
    ((System.after canKind.withOthers canTraffic (canSystem [0, 1] [5])).port 0).asBridge.map
        (fun b => b.port_.txLog) = some [(9, none)] ∧
    (∃ sb, (System.after serialKind.withOthers serialTraffic (serialSystem 0 1 0)).port 0 =
        .bridge sb ∧ ∀ x ∈ sb.held, x.2 ≠ some 0) ∧
    (∃ cb, (System.after canKind.withOthers canTraffic (canSystem [0, 1] [5])).port 0 =
        .bridge cb ∧ ∀ x ∈ cb.held, x.2 ≠ some 0) :=
  ⟨by decide, by decide, by decide, by decide,
    C2_loop_avoidance Prod.snd Prod.snd 0 1 0 [0, 1] [5] 0 (by decide) serialTraffic canTraffic
      (by
        intro e he
        simp only [serialTraffic, List.mem_cons, List.mem_singleton, List.not_mem_nil,
          or_false] at he
        rcases he with rfl | rfl | rfl | rfl | rfl | rfl | rfl <;>
          simp [System.ok, BridgeKind.withOthers, serialKind])
      (by
        intro e he
        simp only [canTraffic, List.mem_cons, List.mem_singleton, List.not_mem_nil,
          or_false] at he
        rcases he with rfl | rfl | rfl | rfl | rfl | rfl | rfl | rfl | rfl | rfl | rfl <;>
          simp [System.ok, BridgeKind.withOthers, canKind])⟩

/-- C2 as stated fails: on a CAN hub with the bridge 0 and another port 5, a
frame that bridge 0 read from its hardware port is delivered to port 5; that
port sends it to the hub again in a buffer of its own, the hub delivers this
buffer to the write port of bridge 0, `entry` stores it as `writeBuffer_` and
the next poll writes the frame to the hardware port it came from. -/
theorem C2_other_port_echoes :
    (System.after canKind.withOthers (canEcho.take 3) (canSystem [0] [5])).port 5 =
      .other 5 [{ value := (7, some 0), skipMember_ := some 0 }] ∧
    ((System.after canKind.withOthers (canEcho.take 6) (canSystem [0] [5])).port 0).asBridge.map
        (fun b => b.writeBuffer_) =
      some (some { value := (7, some 0), skipMember_ := some 5 }) ∧
    ((System.after canKind.withOthers canEcho (canSystem [0] [5])).port 0).asBridge.map
        (fun b => b.port_.txLog) = some [(7, some 0)] ∧
    ¬ (∀ x ∈ canKind.withOthers.held
        ((System.after canKind.withOthers canEcho (canSystem [0] [5])).port 0),
      x.2 ≠ some 0) := by
  decide

/-- C10: the destructor of `CanBridge` disables the port and does nothing
else. Destroying a bridge that holds a pending buffer leaves `writeBuffer_`
pointing to it and the flow suspended on it: nothing is released and
`notify()` is not called. (`SerialBridge` has no destructor to model.) -/
theorem C10_destroy_keeps_pending_buffer :
    canPending.writeBuffer_ = some oneFrame ∧
    canPending.port_.enabled = true ∧
    (CanBridge.destroy canPending).port_.enabled = false ∧
    (CanBridge.destroy canPending).writeBuffer_ = some oneFrame ∧
    (CanBridge.destroy canPending).writePort_.message = some oneFrame ∧
    (CanBridge.destroy canPending).writePort_.runState = .suspended .write_done ∧
    (CanBridge.destroy canPending).writePort_.released = [] ∧
    (CanBridge.destroy canPending).writePort_.notifyCalls = 0 := by
  decide

/-! ### What one poll does -/

/-- C14: a serial bridge with a pending buffer of size `s` at offset `o ≤ s`,
and a poll in which `availableForWrite()` returns `avail`, read by the code as
the `size_t` value `a` (equal to `avail` for every value from 0 up to the
largest `size_t`). `loop_for_write` advances `writeOfs_` by `min a (s - o)`; for
`a = 0` it does not call `port_->write`, otherwise it calls it once with the
`min a (s - o)` bytes that start at offset `o`; the number of bytes written
never exceeds `a`. -/
theorem C14_write_poll_amount {β : Type} (b : SerialBridge β) (wb : HubData β) (avail : Int)
    (hb : b.writeBuffer_ = some wb) (hofs : b.writeOfs_ ≤ wb.value.length)
    (hsz : wb.value.length < SIZE_MOD) :
    (SerialBridge.loop_for_write avail b).writeOfs_ =
      b.writeOfs_ + min (toSizeT avail) (wb.value.length - b.writeOfs_) ∧
    (SerialBridge.loop_for_write avail b).port_.txLog =
      b.port_.txLog ++
        (if toSizeT avail = 0 then []
          else [(wb.value.drop b.writeOfs_).take
            (min (toSizeT avail) (wb.value.length - b.writeOfs_))]) ∧
    ((wb.value.drop b.writeOfs_).take
        (min (toSizeT avail) (wb.value.length - b.writeOfs_))).length =
      min (toSizeT avail) (wb.value.length - b.writeOfs_) ∧
    min (toSizeT avail) (wb.value.length - b.writeOfs_) ≤ toSizeT avail ∧
    (0 ≤ avail → avail < (SIZE_MOD : Int) → (toSizeT avail : Int) = avail) := by
  have hlen : ((wb.value.drop b.writeOfs_).take
      (min (toSizeT avail) (wb.value.length - b.writeOfs_))).length =
      min (toSizeT avail) (wb.value.length - b.writeOfs_) := by
    simp only [List.length_take, List.length_drop]
    omega
  have hconv : 0 ≤ avail → avail < (SIZE_MOD : Int) → (toSizeT avail : Int) = avail := by
    intro h0 h1
    unfold toSizeT
    rw [Int.emod_eq_of_lt h0 h1]
    exact Int.toNat_of_nonneg h0
  refine ⟨?_, ?_, hlen, Nat.min_le_left _ _, hconv⟩
  · by_cases h0 : toSizeT avail = 0
    · rw [SerialBridge.loop_for_write_zero avail b h0, h0]
      simp
    · by_cases hlt : b.writeOfs_ + toSizeT avail < wb.value.length
      · rw [SerialBridge.loop_for_write_short avail b wb hb hsz h0 hlt]
        simp only
        rw [Nat.min_eq_left (by omega)]
      · rw [SerialBridge.loop_for_write_final avail b wb hb hsz h0 hofs (by omega)]
        simp only
        rw [Nat.min_eq_right (by omega)]
        omega
  · by_cases h0 : toSizeT avail = 0
    · rw [SerialBridge.loop_for_write_zero avail b h0]
      simp [h0]
    · by_cases hlt : b.writeOfs_ + toSizeT avail < wb.value.length
      · rw [SerialBridge.loop_for_write_short avail b wb hb hsz h0 hlt]
        simp only [SerialPort.write, h0, if_false]
        rw [Nat.min_eq_left (by omega)]
      · rw [SerialBridge.loop_for_write_final avail b wb hb hsz h0 hofs (by omega)]
        simp only [SerialPort.write, h0, if_false]
        rw [Nat.min_eq_right (by omega), List.take_of_length_le (by simp)]

/-- C14 on the bridge with ten bytes pending at offset 4 and a capacity of 3:
three bytes go out, the offset becomes 7. -/
theorem C14_write_poll_amount_witness :
    (SerialBridge.loop_for_write 3 serialPending).writeOfs_ = 7 ∧
    (SerialBridge.loop_for_write 3 serialPending).port_.txLog =
      serialPending.port_.txLog ++ [[4, 5, 6]] := by
  have h := C14_write_poll_amount serialPending tenBytes 3 (by decide) (by decide)
    (by unfold SIZE_MOD; decide)
  exact ⟨h.1, h.2.1⟩

/-- C15: one `loop_for_write` poll of a CAN bridge. With a pending buffer and
`availableForWrite() > 0` it passes that buffer's frame to `port_->write`
exactly once, sets `writeBuffer_` to null and calls `notify()` exactly once,
changing nothing else; with no pending buffer it changes nothing at all, so it
calls neither `port_->write` nor `notify()`. -/
theorem C15_can_one_frame_per_poll {F : Type} (b : CanBridge F) (avail : Int) :
    (∀ wb, b.writeBuffer_ = some wb → 0 < avail →
      CanBridge.loop_for_write avail b =
        { b with
          port_ := { b.port_ with txLog := b.port_.txLog ++ [wb.value] }
          writeBuffer_ := none
          writePort_ := b.writePort_.notify } ∧
      (CanBridge.loop_for_write avail b).writePort_.notifyCalls =
        b.writePort_.notifyCalls + 1) ∧
    (b.writeBuffer_ = none → CanBridge.loop_for_write avail b = b) := by
  refine ⟨?_, ?_⟩
  · intro wb hwb ha
    have h : CanBridge.loop_for_write avail b =
        { b with
          port_ := { b.port_ with txLog := b.port_.txLog ++ [wb.value] }
          writeBuffer_ := none
          writePort_ := b.writePort_.notify } := by
      unfold CanBridge.loop_for_write
      rw [hwb]
      simp only [not_le.mpr ha, if_false]
      rfl
    exact ⟨h, by rw [h]; rfl⟩
  · intro hb
    unfold CanBridge.loop_for_write
    rw [hb]

/-- C15 on the CAN bridge with one frame pending and on a new one. -/
theorem C15_can_one_frame_per_poll_witness :
    (CanBridge.loop_for_write 1 canPending).port_.txLog = [oneFrame.value] ∧
    (CanBridge.loop_for_write 1 canPending).writeBuffer_ = none ∧
    (CanBridge.loop_for_write 1 canPending).writePort_.notifyCalls = 1 ∧
    CanBridge.loop_for_write 1 canFresh = canFresh := by
  have h := C15_can_one_frame_per_poll canPending 1
  have h2 := C15_can_one_frame_per_poll canFresh 1
  have h1 := (h.1 oneFrame (by decide) (by decide)).1
  refine ⟨?_, ?_, ?_, h2.2 (by decide)⟩
  · rw [h1]; decide
  · rw [h1]
  · rw [h1]; decide

namespace CanBridge
variable {F : Type}

/-- On an empty FIFO the read loop does nothing, whatever the bound. -/
theorem can_readLoop_empty [Inhabited F] (fuel : Nat) (b : CanBridge F)
    (h : b.port_.rxFifo = []) : readLoop fuel b = (b, []) := by
  cases fuel with
  | zero => rfl
  | succ n =>
    unfold readLoop
    simp [Can.available, h]

/-- One iteration of the read loop on a FIFO that holds a frame. -/
theorem can_readLoop_cons [Inhabited F] (fuel : Nat) (b : CanBridge F) (f : F) (rest : List F)
    (h : b.port_.rxFifo = f :: rest) :
    readLoop (fuel + 1) b =
      ((readLoop fuel { b with
        port_ := { b.port_ with rxFifo := rest }
        pool := { allocCalls := b.pool.allocCalls + 1 } }).1,
        { value := f, skipMember_ := some b.writePort_.addr } ::
          (readLoop fuel { b with
        port_ := { b.port_ with rxFifo := rest }
        pool := { allocCalls := b.pool.allocCalls + 1 } }).2) := by
  have hav : b.port_.available ≠ 0 := by
    simp only [Can.available, h, List.length_cons]
    omega
  have hread : b.port_.read (alloc b.pool : CanHubData F × Pool).1.value =
      (f, { b.port_ with rxFifo := rest }) := by
    unfold Can.read; rw [h]
  conv_lhs => unfold readLoop
  simp only [hav, ne_eq, not_false_eq_true, if_true, hread]
  rfl

/-- After `j` iterations `j` frames are sent, the first `j` of the FIFO in
order, and the rest is still in the FIFO. -/
theorem can_readLoop_take [Inhabited F] (fuel : Nat) (b : CanBridge F) :
    (readLoop fuel b).2.map HubContainer.value = b.port_.rxFifo.take fuel ∧
    (readLoop fuel b).1.port_.rxFifo = b.port_.rxFifo.drop fuel := by
  induction fuel generalizing b with
  | zero => simp [readLoop]
  | succ n ih =>
    cases hq : b.port_.rxFifo with
    | nil => rw [can_readLoop_empty _ b hq]; simp [hq]
    | cons f rest =>
      rw [can_readLoop_cons n b f rest hq]
      obtain ⟨h1, h2⟩ := ih { b with
        port_ := { b.port_ with rxFifo := rest }
        pool := { allocCalls := b.pool.allocCalls + 1 } }
      simp [h1, h2]

/-- More iterations than frames change nothing: the loop ends by its
condition. -/
theorem can_readLoop_enough [Inhabited F] (k fuel : Nat) (b : CanBridge F)
    (hk : b.port_.rxFifo.length = k) (h : k ≤ fuel) : readLoop fuel b = readLoop k b := by
  induction k generalizing fuel b with
  | zero =>
    have hq : b.port_.rxFifo = [] := List.length_eq_zero.mp hk
    rw [can_readLoop_empty fuel b hq, can_readLoop_empty 0 b hq]
  | succ k ih =>
    cases hq : b.port_.rxFifo with
    | nil => rw [hq] at hk; simp at hk
    | cons f rest =>
      obtain ⟨n, rfl⟩ : ∃ n, fuel = n + 1 := ⟨fuel - 1, by omega⟩
      rw [can_readLoop_cons n b f rest hq, can_readLoop_cons k b f rest hq]
      rw [ih n { b with
        port_ := { b.port_ with rxFifo := rest }
        pool := { allocCalls := b.pool.allocCalls + 1 } }
        (by rw [hq] at hk; simpa using hk) (by omega)]

end CanBridge

/-- C16: a CAN port holds `k` readable frames and none arrives during the
call. The `while (port_->available())` loop of `loop_for_read` makes exactly
`k` iterations: after `j < k` iterations `j` buffers are sent and the loop
condition still holds, after `k` the port has `available() == 0`, and a larger
bound on the iterations changes nothing. The call sends `k` buffers, one frame
per buffer in FIFO order, each tagged with the own write port. -/
theorem C16_can_read_drains_fifo {F : Type} [Inhabited F] (b : CanBridge F) :
    (CanBridge.loop_for_read b).2.length = b.port_.rxFifo.length ∧
    (CanBridge.loop_for_read b).2.map HubContainer.value = b.port_.rxFifo ∧
    (∀ m ∈ (CanBridge.loop_for_read b).2, m.skipMember_ = some b.writePort_.addr) ∧
    (CanBridge.loop_for_read b).1.port_.available = 0 ∧
    (∀ j, j < b.port_.rxFifo.length →
      (CanBridge.readLoop j b).2.length = j ∧
      (CanBridge.readLoop j b).1.port_.available ≠ 0) ∧
    (∀ fuel, b.port_.rxFifo.length ≤ fuel →
      CanBridge.readLoop fuel b = CanBridge.loop_for_read b) := by
  obtain ⟨h1, h2⟩ := CanBridge.can_readLoop_take b.port_.rxFifo.length b
  have hmap : (CanBridge.loop_for_read b).2.map HubContainer.value = b.port_.rxFifo := by
    unfold CanBridge.loop_for_read
    rw [h1, List.take_length]
  refine ⟨?_, hmap, CanBridge.readLoop_tagged _ b, ?_, ?_, ?_⟩
  · have := congrArg List.length hmap
    simpa using this
  · unfold CanBridge.loop_for_read Can.available
    rw [h2]
    simp
  · intro j hj
    obtain ⟨g1, g2⟩ := CanBridge.can_readLoop_take j b
    refine ⟨?_, ?_⟩
    · have := congrArg List.length g1
      simp only [List.length_map, List.length_take] at this
      omega
    · unfold Can.available
      rw [g2]
      simp only [List.length_drop, ne_eq]
      omega
  · intro fuel hf
    exact CanBridge.can_readLoop_enough _ fuel b rfl hf

/-- C17: `loop_for_read` of a serial bridge. When `port_->available()` returns
`av > 0` it allocates exactly one buffer (the allocation count of the pool
grows by one) and sends exactly one buffer to `txtHub_`, whose payload is the
`av` available bytes in order, tagged with the own write port, and the port has
nothing left to read; nothing else of the bridge changes. When `available()`
returns `av ≤ 0` it allocates nothing, sends nothing and changes nothing. -/
theorem C17_serial_read_one_buffer {β : Type} [Inhabited β] (b : SerialBridge β) :
    (0 < b.port_.available →
      (SerialBridge.loop_for_read b).1.pool.allocCalls = b.pool.allocCalls + 1 ∧
      (SerialBridge.loop_for_read b).2 =
        [{ value := b.port_.rxFifo, skipMember_ := some b.writePort_.addr }] ∧
      ((b.port_.rxFifo.length : Nat) : Int) = b.port_.available ∧
      (SerialBridge.loop_for_read b).1 =
        { b with
          port_ := { b.port_ with rxFifo := [] }
          pool := { allocCalls := b.pool.allocCalls + 1 } }) ∧
    (b.port_.available ≤ 0 →
      (SerialBridge.loop_for_read b).1.pool.allocCalls = b.pool.allocCalls ∧
      SerialBridge.loop_for_read b = (b, [])) := by
  refine ⟨?_, ?_⟩
  · intro hav
    have hne : b.port_.rxFifo ≠ [] := by
      intro hc
      simp [SerialPort.available, hc] at hav
    rw [SerialBridge.loop_for_read_cons b hne]
    exact ⟨rfl, rfl, rfl, rfl⟩
  · intro hav
    have hnil : b.port_.rxFifo = [] := by
      unfold SerialPort.available at hav
      have : b.port_.rxFifo.length = 0 := by omega
      exact List.length_eq_zero.mp this
    rw [SerialBridge.loop_for_read_nil b hnil]
    exact ⟨rfl, rfl⟩

/-- C19: in every state a serial bridge can reach from construction, a pending
buffer has `writeOfs_` within its size, so the `size_t` subtraction
`size() - writeOfs_` does not wrap around and the range `loop_for_write` passes
to `port_->write` ends within the payload. `entry` establishes this with
offset 0 and every `loop_for_write` step preserves it. -/
theorem C19_write_offset_invariant {β : Type} [Inhabited β] (addr : PortId) (ofs0 : Nat)
    (evs : List (Event (HubData β) (List β))) (hsz : ∀ e ∈ evs, e.sizeOk) :
    (∀ wb, (SerialBridge.after evs (SerialBridge.init addr ofs0)).writeBuffer_ = some wb →
      (SerialBridge.after evs (SerialBridge.init addr ofs0)).writeOfs_ ≤ wb.value.length ∧
      subSizeT wb.value.length (SerialBridge.after evs (SerialBridge.init addr ofs0)).writeOfs_ =
        wb.value.length - (SerialBridge.after evs (SerialBridge.init addr ofs0)).writeOfs_ ∧
      ∀ avail : Int,
        (SerialBridge.after evs (SerialBridge.init addr ofs0)).writeOfs_ +
          min (toSizeT avail) (subSizeT wb.value.length
            (SerialBridge.after evs (SerialBridge.init addr ofs0)).writeOfs_) ≤
          wb.value.length) ∧
    (∀ b0 : SerialBridge β,
      (SerialBridge.WritePort.entry b0).1.writeBuffer_ = b0.writePort_.message ∧
      (SerialBridge.WritePort.entry b0).1.writeOfs_ = 0) ∧
    (∀ (b1 : SerialBridge β) (wb : HubData β) (avail : Int),
      b1.writeBuffer_ = some wb → b1.writeOfs_ ≤ wb.value.length →
      wb.value.length < SIZE_MOD →
      (SerialBridge.loop_for_write avail b1).writeOfs_ ≤ wb.value.length ∧
      ((SerialBridge.loop_for_write avail b1).writeBuffer_ = some wb ∨
        (SerialBridge.loop_for_write avail b1).writeBuffer_ = none)) := by
  refine ⟨?_, fun b0 => ⟨rfl, rfl⟩, ?_⟩
  · intro wb hwb
    have hf := SerialBridge.after_flowInv evs _ (SerialBridge.init_flowInv (β := β) addr ofs0)
    have ht := SerialBridge.after_txInv evs hsz _ (SerialBridge.init_flowInv addr ofs0)
      (SerialBridge.init_txInv addr ofs0)
    obtain ⟨_, hmsg⟩ := FlowInv_pending _ _ hf (by rw [hwb]; simp)
    rw [hwb] at hmsg
    obtain ⟨h1, h2⟩ := ht.2.1 wb hmsg.symm
    have hsub := subSizeT_of_le h2 h1
    refine ⟨h2, hsub, ?_⟩
    intro avail
    rw [hsub]
    omega
  · intro b1 wb avail hb hofs hs
    obtain ⟨k, _, _, hk, hkle, _, _, _, hst⟩ :=
      SerialBridge.loop_for_write_pending avail b1 wb hb hs hofs
    refine ⟨by omega, ?_⟩
    rcases hst with ⟨h, _⟩ | ⟨h, _, _⟩
    · exact Or.inl h
    · exact Or.inr h

/-- C19 on the bridge with ten bytes pending, four of them written. -/
theorem C19_write_offset_invariant_witness :
    (SerialBridge.after serialBusy (SerialBridge.init 1 0)).writeBuffer_ = some tenBytes ∧
    (SerialBridge.after serialBusy (SerialBridge.init 1 0)).writeOfs_ ≤ tenBytes.value.length ∧
    subSizeT tenBytes.value.length (SerialBridge.after serialBusy (SerialBridge.init 1 0)).writeOfs_ =
      tenBytes.value.length - (SerialBridge.after serialBusy (SerialBridge.init 1 0)).writeOfs_ :=
  ⟨by decide,
    ((C19_write_offset_invariant 1 0 serialBusy
      (by simp [serialBusy, Event.sizeOk, tenBytes, SIZE_MOD])).1 tenBytes (by decide)).1,
    ((C19_write_offset_invariant 1 0 serialBusy
      (by simp [serialBusy, Event.sizeOk, tenBytes, SIZE_MOD])).1 tenBytes (by decide)).2.1⟩

/-- C16 on a controller that holds two frames. -/
theorem C16_can_read_drains_fifo_witness :
    (CanBridge.loop_for_read canReceived).2 =
      [{ value := oneFrame.value, skipMember_ := some 2 },
        { value := otherFrame, skipMember_ := some 2 }] ∧
    (CanBridge.loop_for_read canReceived).2.length = canReceived.port_.rxFifo.length ∧
    (CanBridge.loop_for_read canReceived).1.port_.available = 0 :=
  ⟨by decide, (C16_can_read_drains_fifo canReceived).1,
    (C16_can_read_drains_fifo canReceived).2.2.2.1⟩

/-- C17 on a port that holds three bytes and on a port that holds none. -/
theorem C17_serial_read_one_buffer_witness :
    (SerialBridge.loop_for_read serialReceived).1.pool.allocCalls = 1 ∧
    (SerialBridge.loop_for_read serialReceived).2 =
      [{ value := [65, 66, 67], skipMember_ := some 1 }] ∧
    (SerialBridge.loop_for_read serialFresh).1.pool.allocCalls = 0 ∧
    SerialBridge.loop_for_read serialFresh = (serialFresh, []) :=
  ⟨((C17_serial_read_one_buffer serialReceived).1 (by decide)).1,
    ((C17_serial_read_one_buffer serialReceived).1 (by decide)).2.1,
    ((C17_serial_read_one_buffer serialFresh).2 (by decide)).1,
    ((C17_serial_read_one_buffer serialFresh).2 (by decide)).2⟩

/-! ### Tick conversion -/

theorem wrapLL_id (x : Int) (h0 : 0 ≤ x) (h1 : x < 9223372036854775808) : wrapLL x = x := by
  unfold wrapLL
  omega

/-- Within range the macro is the rounded-up quotient. -/
theorem NSEC_TO_TICK_eq (hz ns : Int) (hns : 0 ≤ ns) (hhz : 1 ≤ hz)
    (hr : ns / 1000 * hz + 999999 < 9223372036854775808) :
    NSEC_TO_TICK hz ns = (ns / 1000 * hz + 999999) / 1000000 := by
  have hq : 0 ≤ ns / 1000 := Int.ediv_nonneg hns (by norm_num)
  have hm : 0 ≤ ns / 1000 * hz := Int.mul_nonneg hq (by omega)
  unfold NSEC_TO_TICK
  rw [Int.tdiv_eq_ediv hns (by norm_num), wrapLL_id _ hm (by omega),
    wrapLL_id _ (by omega) hr, Int.tdiv_eq_ediv (by omega) (by norm_num)]

/-- C20: on ESP32, for `ns ≥ 0` and a tick rate `hz ≥ 1` with
`floor (ns / 1000) * hz + 999999` in the range of `long long`,
`NSEC_TO_TICK(ns)` is the least integer `t` with
`t * 1000000 ≥ floor (ns / 1000) * hz`; it is monotone in `ns`,
`NSEC_TO_TICK(0) = 0`, and every `ns ≥ 1000` gives at least one tick. -/
theorem C20_nsec_to_tick_ceiling (hz ns : Int) (hns : 0 ≤ ns) (hhz : 1 ≤ hz)
    (hr : ns / 1000 * hz + 999999 < 9223372036854775808) :
    ns / 1000 * hz ≤ NSEC_TO_TICK hz ns * 1000000 ∧
    (∀ t : Int, ns / 1000 * hz ≤ t * 1000000 → NSEC_TO_TICK hz ns ≤ t) ∧
    (∀ ns' : Int, ns ≤ ns' → ns' / 1000 * hz + 999999 < 9223372036854775808 →
      NSEC_TO_TICK hz ns ≤ NSEC_TO_TICK hz ns') ∧
    NSEC_TO_TICK hz 0 = 0 ∧
    (1000 ≤ ns → 1 ≤ NSEC_TO_TICK hz ns) := by
  have heq := NSEC_TO_TICK_eq hz ns hns hhz hr
  have hq : 0 ≤ ns / 1000 := Int.ediv_nonneg hns (by norm_num)
  have hm : 0 ≤ ns / 1000 * hz := Int.mul_nonneg hq (by omega)
  refine ⟨?_, ?_, ?_, ?_, ?_⟩
  · rw [heq]; omega
  · intro t ht
    rw [heq]; omega
  · intro ns' hle hr'
    rw [heq, NSEC_TO_TICK_eq hz ns' (by omega) hhz hr']
    have h1 : ns / 1000 ≤ ns' / 1000 := by omega
    have h2 : ns / 1000 * hz ≤ ns' / 1000 * hz :=
      Int.mul_le_mul_of_nonneg_right h1 (by omega)
    omega
  · rw [NSEC_TO_TICK_eq hz 0 (le_refl 0) hhz (by norm_num)]
    norm_num
  · intro h1000
    rw [heq]
    have h1 : 1 ≤ ns / 1000 := by omega
    have h2 : 1 * 1 ≤ ns / 1000 * hz := Int.mul_le_mul h1 hhz (by norm_num) (by omega)
    omega

/-- C20 at a tick rate of 100 Hz: 25 ms are 3 ticks, 1 ns is none. -/
theorem C20_nsec_to_tick_ceiling_witness :
    NSEC_TO_TICK 100 25000000 = 3 ∧ NSEC_TO_TICK 100 1 = 0 ∧
    (25000000 : Int) / 1000 * 100 ≤ NSEC_TO_TICK 100 25000000 * 1000000 ∧
    (1000 ≤ (25000000 : Int) → 1 ≤ NSEC_TO_TICK 100 25000000) :=
  ⟨by decide, by decide,
    (C20_nsec_to_tick_ceiling 100 25000000 (by decide) (by decide) (by decide)).1,
    (C20_nsec_to_tick_ceiling 100 25000000 (by decide) (by decide) (by decide)).2.2.2.2⟩

/-! ### WiFi configuration defaults -/

/-- C18: every numeric WiFi configuration entry whose default is a literal
declares `Min ≤ Default ≤ Max` within the range of its integer type, and where
it declares a value map the default is one of the map's keys. The label of the
default is the one its inline comment names: `Disabled` for hub enable and
sleep, `Enabled` for uplink enable and reboot on failure, `WPA2` for the SoftAP
authentication; for `tx_power` (comment `Max power`) the default 78 is the
greatest key of the map, labelled `20 dBm`; for `wifi_mode` (comment `SoftAP`)
the label of the default 2 is `SoftAP Only`. -/
theorem C18_wifi_defaults_legal :
    (∀ e ∈ literalDefaultEntries,
      e.type.lo ≤ e.min ∧ e.min ≤ e.default ∧ e.default ≤ e.max ∧ e.max ≤ e.type.hi ∧
      ∀ m, e.map = some m → e.default ∈ m.map Prod.fst ∧ e.label.isSome = true) ∧
    (hub_enable.label = some "Disabled" ∧ hub_enable.label = hub_enable.comment) ∧
    (uplink_enable.label = some "Enabled" ∧ uplink_enable.label = uplink_enable.comment) ∧
    (advanced_sleep.label = some "Disabled" ∧
      advanced_sleep.label = advanced_sleep.comment) ∧
    (advanced_tx_power.label = some "20 dBm" ∧
      advanced_tx_power.comment = some "Max power" ∧
      ∀ p ∈ WIFI_TX_POWER_MAP, p.1 ≤ advanced_tx_power.default) ∧
    (station_reboot_on_failure.label = some "Enabled" ∧
      station_reboot_on_failure.label = station_reboot_on_failure.comment) ∧
    (softap_auth.label = some "WPA2" ∧ softap_auth.label = softap_auth.comment) ∧
    (wifi_mode.label = some "SoftAP Only" ∧ wifi_mode.comment = some "SoftAP" ∧
      "SoftAP Only".data.take "SoftAP".length = "SoftAP".data) := by
  refine ⟨?_, by decide, by decide, by decide, by decide, by decide, by decide, by decide⟩
  intro e he
  simp only [literalDefaultEntries, List.mem_cons, List.mem_singleton, List.not_mem_nil,
    or_false] at he
  rcases he with rfl | rfl | rfl | rfl | rfl | rfl | rfl | rfl
  all_goals
    refine ⟨by decide, by decide, by decide, by decide, ?_⟩
    intro m hm
    simp only [hub_enable, uplink_enable, advanced_sleep, advanced_tx_power,
      station_reboot_on_failure, softap_auth, softap_channel, wifi_mode,
      Option.some.injEq] at hm
    first
      | (subst hm; exact ⟨by decide, by decide⟩)
      | exact absurd hm (by simp)

/-! ### The loop of `OpenMRN` -/

/-- Two executor steps drain a write port flow: afterwards it is idle or
suspended, whatever state it was in. -/
theorem SerialBridge.drained_not_runnable {β : Type} (b : SerialBridge β) (s : StateName) :
    b.executorStep.executorStep.writePort_.runState ≠ .runnable s := by
  unfold SerialBridge.executorStep
  cases hr : b.writePort_.runState with
  | idle => simp [hr]
  | suspended st => simp [hr]
  | runnable st =>
    cases st with
    | entry =>
      cases hq : b.writePort_.queue with
      | nil => simp [HubPort.takeNext, hq]
      | cons m q => simp [HubPort.takeNext, hq, SerialBridge.WritePort.entry, HubPort.apply]
    | write_done =>
      cases hq : b.writePort_.queue with
      | nil => simp [SerialBridge.WritePort.write_done, HubPort.apply, hq]
      | cons m q =>
        simp [SerialBridge.WritePort.write_done, HubPort.apply, hq, HubPort.takeNext,
          SerialBridge.WritePort.entry]

/-- Two executor steps drain a write port flow: afterwards it is idle or
suspended, whatever state it was in. -/
theorem CanBridge.can_drained_not_runnable {F : Type} (b : CanBridge F) (s : StateName) :
    b.executorStep.executorStep.writePort_.runState ≠ .runnable s := by
  unfold CanBridge.executorStep
  cases hr : b.writePort_.runState with
  | idle => simp [hr]
  | suspended st => simp [hr]
  | runnable st =>
    cases st with
    | entry =>
      cases hq : b.writePort_.queue with
      | nil => simp [HubPort.takeNext, hq]
      | cons m q => simp [HubPort.takeNext, hq, CanBridge.WritePort.entry, HubPort.apply]
    | write_done =>
      cases hq : b.writePort_.queue with
      | nil => simp [CanBridge.WritePort.write_done, HubPort.apply, hq]
      | cons m q =>
        simp [CanBridge.WritePort.write_done, HubPort.apply, hq, HubPort.takeNext,
          CanBridge.WritePort.entry]

theorem list_set_same {α : Type} (l : List α) (i : Nat) (a : α) (h : l[i]? = some a) :
    l.set i a = l := by
  induction l generalizing i with
  | nil => simp
  | cons x xs ih =>
    cases i with
    | zero =>
      simp only [List.getElem?_cons_zero, Option.some.injEq] at h
      simp [h]
    | succ n =>
      simp only [List.getElem?_cons_succ] at h
      simp [ih n h]

theorem list_range_filterMap_getElem {α : Type} (l : List α) :
    (List.range l.length).filterMap (fun i => l[i]?) = l := by
  induction l using List.reverseRecOn with
  | nil => rfl
  | append_singleton l a ih =>
    rw [List.length_append, List.length_singleton, List.range_succ, List.filterMap_append]
    have h1 : (List.range l.length).filterMap (fun i => (l ++ [a])[i]?) =
        (List.range l.length).filterMap (fun i => l[i]?) := by
      apply List.filterMap_congr
      intro i hi
      exact List.getElem?_append_left (List.mem_range.mp hi)
    rw [h1, ih]
    simp

theorem Member.id_drain {β F : Type} (m : Member β F) : m.drain.id = m.id := by
  cases m with
  | self => rfl
  | serial b =>
    show MemberId.serial _ = MemberId.serial _
    rw [(SerialBridge.executorStep_held _).1, (SerialBridge.executorStep_held _).1]
  | can b =>
    show MemberId.can _ = MemberId.can _
    rw [(CanBridge.can_executorStep_held _).1, (CanBridge.can_executorStep_held _).1]

namespace OpenMRN
variable {β F : Type}

theorem run_frame (o : OpenMRN β F) :
    o.run.1.haveExecutorThread_ = o.haveExecutorThread_ ∧
    o.run.1.loopMembers_.map Member.id = o.loopMembers_.map Member.id ∧
    o.run.2 = if o.haveExecutorThread_ then 0 else 1 := by
  unfold run
  by_cases h : o.haveExecutorThread_ = true
  · simp [h]
  · simp only [h, Bool.false_eq_true, if_false, loop_some, List.map_map, true_and]
    refine ⟨?_, trivial⟩
    apply List.map_congr_left
    intro m _
    exact Member.id_drain m

/-- One `run()` call: the flag and the identities of the members stay, the
call is recorded, and `loop_some()` is called by the object's own `run()`
without an executor thread only. -/
theorem runMember_frame [Inhabited β] [Inhabited F] (avail : Int) (i : Nat) (o : OpenMRN β F) :
    (o.runMember avail i).1.haveExecutorThread_ = o.haveExecutorThread_ ∧
    (o.runMember avail i).1.loopMembers_.map Member.id = o.loopMembers_.map Member.id ∧
    (o.runMember avail i).2.runCalls = ((o.loopMembers_.map Member.id)[i]?).toList ∧
    (o.runMember avail i).2.loopSomeCalls =
      if o.haveExecutorThread_ then 0
      else (((o.loopMembers_.map Member.id)[i]?).toList).count MemberId.self := by
  rw [List.getElem?_map]
  cases hm : o.loopMembers_[i]? with
  | none =>
    have hdef : o.runMember avail i = (o, LoopTrace.empty) := by
      unfold runMember; rw [hm]
    rw [hdef]
    simp [LoopTrace.empty]
  | some m =>
    cases m with
    | self =>
      have hdef : o.runMember avail i =
          (o.run.1,
            { runCalls := [.self]
              loopSomeCalls := o.run.2
              txtSent := []
              canSent := [] }) := by
        unfold runMember; rw [hm]
      obtain ⟨h1, h2, h3⟩ := run_frame o
      rw [hdef]
      refine ⟨h1, h2, ?_, ?_⟩
      · simp [Member.id]
      · simp only [h3, Option.map_some', Option.toList_some, Member.id,
          List.count_singleton_self]
    | serial b =>
      have hdef : o.runMember avail i =
          ({ o with loopMembers_ := o.loopMembers_.set i (.serial (b.run avail).1) },
            { runCalls := [.serial b.writePort_.addr]
              loopSomeCalls := 0
              txtSent := (b.run avail).2
              canSent := [] }) := by
        unfold runMember; rw [hm]
      rw [hdef]
      refine ⟨rfl, ?_, ?_, ?_⟩
      · simp only
        rw [List.map_set]
        apply list_set_same
        rw [List.getElem?_map, hm]
        have := (serialKind_lawful (β := β)).addr_step (.run avail) b
        exact congrArg (fun a => some (MemberId.serial a)) this.symm
      · simp [Member.id]
      · simp [Member.id, List.count_singleton]
    | can b =>
      have hdef : o.runMember avail i =
          ({ o with loopMembers_ := o.loopMembers_.set i (.can (b.run avail).1) },
            { runCalls := [.can b.writePort_.addr]
              loopSomeCalls := 0
              txtSent := []
              canSent := (b.run avail).2 }) := by
        unfold runMember; rw [hm]
      rw [hdef]
      refine ⟨rfl, ?_, ?_, ?_⟩
      · simp only
        rw [List.map_set]
        apply list_set_same
        rw [List.getElem?_map, hm]
        have := (canKind_lawful (F := F)).addr_step (.run avail) b
        exact congrArg (fun a => some (MemberId.can a)) this.symm
      · simp [Member.id]
      · simp [Member.id, List.count_singleton]

theorem loopOver_frame [Inhabited β] [Inhabited F] (avail : Nat → Int) (is : List Nat)
    (o : OpenMRN β F) (t : LoopTrace β F) :
    (loopOver avail is (o, t)).1.haveExecutorThread_ = o.haveExecutorThread_ ∧
    (loopOver avail is (o, t)).1.loopMembers_.map Member.id = o.loopMembers_.map Member.id ∧
    (loopOver avail is (o, t)).2.runCalls =
      t.runCalls ++ is.filterMap (fun i => (o.loopMembers_.map Member.id)[i]?) ∧
    (loopOver avail is (o, t)).2.loopSomeCalls =
      t.loopSomeCalls +
        if o.haveExecutorThread_ then 0
        else (is.filterMap (fun i => (o.loopMembers_.map Member.id)[i]?)).count MemberId.self := by
  induction is generalizing o t with
  | nil => simp [loopOver]
  | cons i rest ih =>
    obtain ⟨h1, h2, h3, h4⟩ := runMember_frame (avail i) i o
    have hstep : loopOver avail (i :: rest) (o, t) =
        loopOver avail rest ((o.runMember (avail i) i).1, t.append (o.runMember (avail i) i).2) :=
      rfl
    rw [hstep]
    obtain ⟨g1, g2, g3, g4⟩ := ih (o.runMember (avail i) i).1 (t.append (o.runMember (avail i) i).2)
    rw [h1] at g1 g4
    rw [h2] at g2 g3 g4
    refine ⟨g1, g2, ?_, ?_⟩
    · rw [g3]
      simp only [LoopTrace.append, h3, List.filterMap_cons]
      cases (List.map Member.id o.loopMembers_)[i]? <;> simp
    · rw [g4]
      simp only [LoopTrace.append, h4, List.filterMap_cons]
      by_cases hf : o.haveExecutorThread_ = true
      · simp [hf]
      · simp only [hf, Bool.false_eq_true, if_false]
        cases (List.map Member.id o.loopMembers_)[i]? with
        | none => simp
        | some x => simp [List.count_cons]; omega

/-- One call of `loop()`: `run()` is invoked once on each member in the order
of `loopMembers_`; `loop_some()` is called once for each occurrence of the
object itself in the list, and not at all with an executor thread. -/
theorem loop_frame [Inhabited β] [Inhabited F] (avail : Nat → Int) (o : OpenMRN β F) :
    (o.loop avail).1.haveExecutorThread_ = o.haveExecutorThread_ ∧
    (o.loop avail).1.loopMembers_.map Member.id = o.loopMembers_.map Member.id ∧
    (o.loop avail).2.runCalls = o.loopMembers_.map Member.id ∧
    (o.loop avail).2.loopSomeCalls =
      if o.haveExecutorThread_ then 0
      else (o.loopMembers_.map Member.id).count MemberId.self := by
  obtain ⟨h1, h2, h3, h4⟩ := loopOver_frame avail (List.range o.loopMembers_.length) o
    LoopTrace.empty
  have hr : (List.range o.loopMembers_.length).filterMap
      (fun i => (o.loopMembers_.map Member.id)[i]?) = o.loopMembers_.map Member.id := by
    have := list_range_filterMap_getElem (o.loopMembers_.map Member.id)
    rwa [List.length_map] at this
  rw [hr] at h3 h4
  refine ⟨h1, h2, ?_, ?_⟩
  · rw [show (o.loop avail) = loopOver avail (List.range o.loopMembers_.length)
      (o, LoopTrace.empty) from rfl, h3]
    simp [LoopTrace.empty]
  · rw [show (o.loop avail) = loopOver avail (List.range o.loopMembers_.length)
      (o, LoopTrace.empty) from rfl, h4]
    simp [LoopTrace.empty]

end OpenMRN

namespace OpenMRN
variable {β F : Type}

theorem after_cons [Inhabited β] [Inhabited F] (c : Call β F) (calls : List (Call β F))
    (o : OpenMRN β F) : OpenMRN.after (c :: calls) o = OpenMRN.after calls (c.apply o) := rfl

/-- One public call: an `add_..._port` call appends its bridge, a call that
creates the executor thread sets the flag, and nothing else changes the
identities of the members or the flag. -/
theorem apply_frame [Inhabited β] [Inhabited F] (c : Call β F) (o : OpenMRN β F) :
    (c.apply o).loopMembers_.map Member.id = o.loopMembers_.map Member.id ++ c.added.toList ∧
    (c.apply o).haveExecutorThread_ = (o.haveExecutorThread_ || c.startsThread) := by
  cases c with
  | add_gridconnect_port addr ofs0 port =>
    simp [Call.apply, add_gridconnect_port, Call.added, Call.startsThread, Member.id,
      SerialBridge.init, HubPort.init]
  | add_can_port addr port =>
    simp [Call.apply, add_can_port, Call.added, Call.startsThread, Member.id,
      CanBridge.init, HubPort.init]
  | start_executor_thread =>
    simp [Call.apply, start_executor_thread, Call.added, Call.startsThread]
  | loop_executor =>
    simp [Call.apply, loop_executor, Call.added, Call.startsThread]
  | loop avail =>
    obtain ⟨h1, h2, _, _⟩ := loop_frame avail o
    simp [Call.apply, Call.added, Call.startsThread, h1, h2]

theorem after_frame [Inhabited β] [Inhabited F] (calls : List (Call β F)) (o : OpenMRN β F) :
    (OpenMRN.after calls o).loopMembers_.map Member.id =
      o.loopMembers_.map Member.id ++ calls.filterMap Call.added ∧
    (OpenMRN.after calls o).haveExecutorThread_ =
      (o.haveExecutorThread_ || calls.any Call.startsThread) := by
  induction calls generalizing o with
  | nil => simp [OpenMRN.after]
  | cons c rest ih =>
    rw [after_cons]
    obtain ⟨h1, h2⟩ := ih (c.apply o)
    obtain ⟨g1, g2⟩ := apply_frame c o
    rw [h1, h2, g1, g2]
    refine ⟨?_, ?_⟩
    · cases hc : c.added <;> simp [List.filterMap_cons, hc]
    · simp [Bool.or_assoc]

theorem added_ne_self (calls : List (Call β F)) :
    (calls.filterMap Call.added).count MemberId.self = 0 := by
  rw [List.count_eq_zero]
  intro h
  obtain ⟨c, _, hc⟩ := List.mem_filterMap.mp h
  cases c <;> simp [Call.added] at hc

end OpenMRN

/-- C11: for an `OpenMRN` object after any sequence of public calls,
`loopMembers_` holds the object itself first (the constructor's `{this}`) and
then the bridges in the order of the `add_gridconnect_port` / `add_can_port`
calls; one call of `loop()` invokes `run()` exactly once on each of them in
that order and keeps the list; each add call appends exactly one bridge and
leaves the earlier members in place. -/
theorem C11_loop_runs_members_in_order {β F : Type} [Inhabited β] [Inhabited F]
    (calls : List (Call β F)) (avail : Nat → Int) :
    (OpenMRN.after calls OpenMRN.init).loopMembers_.map Member.id =
      MemberId.self :: calls.filterMap Call.added ∧
    ((OpenMRN.after calls OpenMRN.init).loop avail).2.runCalls =
      MemberId.self :: calls.filterMap Call.added ∧
    ((OpenMRN.after calls OpenMRN.init).loop avail).1.loopMembers_.map Member.id =
      (OpenMRN.after calls OpenMRN.init).loopMembers_.map Member.id ∧
    (∀ addr ofs0 port,
      ((OpenMRN.after calls OpenMRN.init).add_gridconnect_port addr ofs0 port).loopMembers_ =
        (OpenMRN.after calls OpenMRN.init).loopMembers_ ++
          [.serial { SerialBridge.init addr ofs0 with port_ := port }]) ∧
    (∀ addr port,
      ((OpenMRN.after calls OpenMRN.init).add_can_port addr port).loopMembers_ =
        (OpenMRN.after calls OpenMRN.init).loopMembers_ ++ [.can (CanBridge.init addr port)]) := by
  have hids : (OpenMRN.after calls (OpenMRN.init : OpenMRN β F)).loopMembers_.map Member.id =
      MemberId.self :: calls.filterMap Call.added := by
    rw [(OpenMRN.after_frame calls OpenMRN.init).1]
    rfl
  obtain ⟨_, h2, h3, _⟩ := OpenMRN.loop_frame avail (OpenMRN.after calls (OpenMRN.init : OpenMRN β F))
  exact ⟨hids, by rw [h3, hids], h2, fun _ _ _ => rfl, fun _ _ => rfl⟩

/-- C12: for an `OpenMRN` object after any sequence of public calls,
`haveExecutorThread_` is set exactly if `start_executor_thread()` or
`loop_executor()` was among them. From then on a call of `loop()` never calls
`loop_some()`; before, it calls `loop_some()` exactly once. Either way it
invokes `run()` on every member and leaves the flag as it is. -/
theorem C12_executor_thread_skips_loop_some {β F : Type} [Inhabited β] [Inhabited F]
    (calls : List (Call β F)) (avail : Nat → Int) :
    (OpenMRN.after calls (OpenMRN.init : OpenMRN β F)).haveExecutorThread_ =
      calls.any Call.startsThread ∧
    (calls.any Call.startsThread = true →
      ((OpenMRN.after calls OpenMRN.init).loop avail).2.loopSomeCalls = 0) ∧
    (calls.any Call.startsThread = false →
      ((OpenMRN.after calls OpenMRN.init).loop avail).2.loopSomeCalls = 1) ∧
    ((OpenMRN.after calls OpenMRN.init).loop avail).2.runCalls =
      (OpenMRN.after calls OpenMRN.init).loopMembers_.map Member.id ∧
    ((OpenMRN.after calls OpenMRN.init).loop avail).1.haveExecutorThread_ =
      (OpenMRN.after calls OpenMRN.init).haveExecutorThread_ := by
  have hflag : (OpenMRN.after calls (OpenMRN.init : OpenMRN β F)).haveExecutorThread_ =
      calls.any Call.startsThread := by
    rw [(OpenMRN.after_frame calls OpenMRN.init).2]
    rfl
  have hids : (OpenMRN.after calls (OpenMRN.init : OpenMRN β F)).loopMembers_.map Member.id =
      MemberId.self :: calls.filterMap Call.added := by
    rw [(OpenMRN.after_frame calls OpenMRN.init).1]
    rfl
  obtain ⟨h1, _, h3, h4⟩ := OpenMRN.loop_frame avail (OpenMRN.after calls (OpenMRN.init : OpenMRN β F))
  refine ⟨hflag, ?_, ?_, h3, h1⟩
  · intro ht
    rw [h4, hflag, ht]
    rfl
  · intro hf
    rw [h4, hflag, hf, hids, List.count_cons_self, OpenMRN.added_ne_self]
    rfl

/-- C12 with and without an executor thread. -/
theorem C12_executor_thread_skips_loop_some_witness :
    ((OpenMRN.after threadedCalls OpenMRN.init).loop (fun _ => 8)).2.loopSomeCalls = 0 ∧
    ((OpenMRN.after polledCalls OpenMRN.init).loop (fun _ => 8)).2.loopSomeCalls = 1 ∧
    ((OpenMRN.after threadedCalls OpenMRN.init).loop (fun _ => 8)).2.runCalls =
      [.self, .serial 1, .can 2] := by
  refine ⟨(C12_executor_thread_skips_loop_some threadedCalls (fun _ => 8)).2.1 (by decide),
    (C12_executor_thread_skips_loop_some polledCalls (fun _ => 8)).2.2.1 (by decide), ?_⟩
  rw [(C12_executor_thread_skips_loop_some threadedCalls (fun _ => 8)).2.2.2.1]
  decide

namespace SerialBridge
variable {β : Type}

/-- A flow that is not runnable does not run. -/
theorem executorStep_not_runnable (b : SerialBridge β)
    (h : ∀ s, b.writePort_.runState ≠ .runnable s) : b.executorStep = b := by
  unfold executorStep
  cases hr : b.writePort_.runState with
  | idle => rfl
  | suspended st => rfl
  | runnable st => exact absurd hr (h st)

/-- With nothing pending and nothing to read `run()` does nothing. -/
theorem run_quiet [Inhabited β] (avail : Int) (b : SerialBridge β)
    (hb : b.writeBuffer_ = none) (hav : b.port_.available ≤ 0) : b.run avail = (b, []) := by
  unfold run
  rw [loop_for_write_none avail b hb]
  apply loop_for_read_nil
  unfold SerialPort.available at hav
  have : b.port_.rxFifo.length = 0 := by omega
  exact List.length_eq_zero.mp this

end SerialBridge

namespace CanBridge
variable {F : Type}

/-- A flow that is not runnable does not run. -/
theorem can_executorStep_not_runnable (b : CanBridge F)
    (h : ∀ s, b.writePort_.runState ≠ .runnable s) : b.executorStep = b := by
  unfold executorStep
  cases hr : b.writePort_.runState with
  | idle => rfl
  | suspended st => rfl
  | runnable st => exact absurd hr (h st)

/-- With nothing pending and nothing to read `run()` does nothing. -/
theorem can_run_quiet [Inhabited F] (avail : Int) (b : CanBridge F)
    (hb : b.writeBuffer_ = none) (hav : b.port_.available = 0) : b.run avail = (b, []) := by
  have hw : loop_for_write avail b = b := by
    unfold loop_for_write; rw [hb]
  unfold run loop_for_read
  rw [hw]
  apply can_readLoop_empty
  unfold Can.available at hav
  have : b.port_.rxFifo.length = 0 := by omega
  exact List.length_eq_zero.mp this

end CanBridge

namespace OpenMRN
variable {β F : Type}

theorem drain_quiet (m : Member β F) (h : m.quiet) : m.drain = m := by
  cases m with
  | self => rfl
  | serial b =>
    show Member.serial _ = Member.serial _
    rw [SerialBridge.executorStep_not_runnable b h.1, SerialBridge.executorStep_not_runnable b h.1]
  | can b =>
    show Member.can _ = Member.can _
    rw [CanBridge.can_executorStep_not_runnable b h.1,
      CanBridge.can_executorStep_not_runnable b h.1]

theorem runMember_quiet [Inhabited β] [Inhabited F] (avail : Int) (i : Nat) (o : OpenMRN β F)
    (hq : ∀ m ∈ o.loopMembers_, m.quiet) :
    (o.runMember avail i).1 = o ∧ (o.runMember avail i).2.txtSent = [] ∧
    (o.runMember avail i).2.canSent = [] := by
  unfold runMember
  cases hm : o.loopMembers_[i]? with
  | none => exact ⟨rfl, rfl, rfl⟩
  | some m =>
    have hmem : m ∈ o.loopMembers_ := List.getElem?_mem hm
    cases m with
    | self =>
      refine ⟨?_, rfl, rfl⟩
      simp only
      unfold run
      split
      · rfl
      · simp only [loop_some]
        rw [List.map_congr_left (fun m hm => drain_quiet m (hq m hm)), List.map_id']
    | serial b =>
      have hb := hq _ hmem
      have hrun := SerialBridge.run_quiet avail b hb.2.1 hb.2.2
      simp only [hrun]
      exact ⟨by rw [list_set_same _ _ _ hm], trivial, trivial⟩
    | can b =>
      have hb := hq _ hmem
      have hrun := CanBridge.can_run_quiet avail b hb.2.1 hb.2.2
      simp only [hrun]
      exact ⟨by rw [list_set_same _ _ _ hm], trivial, trivial⟩

theorem loopOver_quiet [Inhabited β] [Inhabited F] (avail : Nat → Int) (is : List Nat)
    (o : OpenMRN β F) (t : LoopTrace β F) (hq : ∀ m ∈ o.loopMembers_, m.quiet) :
    (loopOver avail is (o, t)).1 = o ∧ (loopOver avail is (o, t)).2.txtSent = t.txtSent ∧
    (loopOver avail is (o, t)).2.canSent = t.canSent := by
  induction is generalizing t with
  | nil => exact ⟨rfl, rfl, rfl⟩
  | cons i rest ih =>
    obtain ⟨h1, h2, h3⟩ := runMember_quiet (avail i) i o hq
    have hstep : loopOver avail (i :: rest) (o, t) =
        loopOver avail rest ((o.runMember (avail i) i).1, t.append (o.runMember (avail i) i).2) :=
      rfl
    rw [hstep, h1]
    obtain ⟨g1, g2, g3⟩ := ih (t.append (o.runMember (avail i) i).2)
    refine ⟨g1, ?_, ?_⟩
    · rw [g2]; simp [LoopTrace.append, h2]
    · rw [g3]; simp [LoopTrace.append, h3]

end OpenMRN

/-- C13: in a state in which no write port flow is runnable, no bridge holds a
pending write buffer and no hardware port has readable data, one call of
`loop()` leaves the whole object as it is (every bridge with its
`writeBuffer_`, `writeOfs_`, record of port writes, count of `notify()` calls
and count of allocated buffers), allocates no buffer, calls no `notify()` and
sends no buffer to any hub; a second call does the same. -/
theorem C13_quiet_loop_is_noop {β F : Type} [Inhabited β] [Inhabited F]
    (o : OpenMRN β F) (avail avail2 : Nat → Int) (hq : ∀ m ∈ o.loopMembers_, m.quiet) :
    (o.loop avail).1 = o ∧ (o.loop avail).2.txtSent = [] ∧ (o.loop avail).2.canSent = [] ∧
    (o.loop avail).1.loopMembers_.map Member.allocCalls =
      o.loopMembers_.map Member.allocCalls ∧
    (o.loop avail).1.loopMembers_.map Member.notifyCalls =
      o.loopMembers_.map Member.notifyCalls ∧
    ((o.loop avail).1.loop avail2).1 = (o.loop avail).1 ∧
    ((o.loop avail).1.loop avail2).2.txtSent = [] ∧
    ((o.loop avail).1.loop avail2).2.canSent = [] ∧
    ((o.loop avail).1.loop avail2).1.loopMembers_.map Member.allocCalls =
      o.loopMembers_.map Member.allocCalls ∧
    ((o.loop avail).1.loop avail2).1.loopMembers_.map Member.notifyCalls =
      o.loopMembers_.map Member.notifyCalls := by
  obtain ⟨h1, h2, h3⟩ := OpenMRN.loopOver_quiet avail (List.range o.loopMembers_.length) o
    LoopTrace.empty hq
  obtain ⟨g1, g2, g3⟩ := OpenMRN.loopOver_quiet avail2 (List.range o.loopMembers_.length) o
    LoopTrace.empty hq
  have e1 : (o.loop avail).1 = o := h1
  have e2 : (o.loop avail2).1 = o := g1
  rw [e1, e2]
  exact ⟨rfl, h2, h3, rfl, rfl, rfl, g2, g3, rfl, rfl⟩

/-- C13 on an object with two new bridges. -/
theorem C13_quiet_loop_is_noop_witness :
    (quietNode.loop (fun _ => 8)).1 = quietNode ∧
    (quietNode.loop (fun _ => 8)).2.txtSent = [] ∧
    (quietNode.loop (fun _ => 8)).2.canSent = [] ∧
    (quietNode.loop (fun _ => 8)).1.loopMembers_.map Member.allocCalls = [0, 0, 0] ∧
    (quietNode.loop (fun _ => 8)).1.loopMembers_.map Member.notifyCalls = [0, 0, 0] := by
  have h := C13_quiet_loop_is_noop quietNode (fun _ => 8) (fun _ => 8)
    (by
      intro m hm
      simp only [quietNode, OpenMRN.add_can_port, OpenMRN.add_gridconnect_port, OpenMRN.init,
        List.cons_append, List.nil_append, List.mem_cons, List.mem_singleton,
        List.not_mem_nil, or_false] at hm
      rcases hm with rfl | rfl | rfl
      · trivial
      · exact ⟨by intro s; simp [SerialBridge.init, HubPort.init], rfl, by decide⟩
      · exact ⟨by intro s; simp [CanBridge.init, HubPort.init], rfl, by decide⟩)
  exact ⟨h.1, h.2.1, h.2.2.1, h.2.2.2.1, h.2.2.2.2.1⟩

/-! ### Broadcast time -/

theorem wrapInt_id (x : Int) (h0 : -2147483648 ≤ x) (h1 : x < 2147483648) : wrapInt x = x := by
  unfold wrapInt
  omega

theorem set_date_year_str_none {S : Type} (clock : BroadcastTime S)
    (strptime : String → String → Option Tm) (date_year : String) (s : S)
    (h : strptime date_year "%b %e, %Y" = none) :
    clock.set_date_year_str strptime date_year s = (s, []) := by
  unfold BroadcastTime.set_date_year_str
  rw [h]

theorem set_date_year_str_valid {S : Type} (clock : BroadcastTime S)
    (strptime : String → String → Option Tm) (date_year : String) (s : S) (tm : Tm)
    (h : strptime date_year "%b %e, %Y" = some tm)
    (h0 : 0 ≤ tm.tm_year + 1900) (h1 : tm.tm_year + 1900 ≤ 4095) :
    clock.set_date_year_str strptime date_year s =
      (clock.set_year (tm.tm_year + 1900)
          (clock.set_date (wrapInt (tm.tm_mon + 1)) tm.tm_mday s),
        [ClockCall.set_date (wrapInt (tm.tm_mon + 1)) tm.tm_mday,
          ClockCall.set_year (tm.tm_year + 1900)]) := by
  unfold BroadcastTime.set_date_year_str
  rw [h]
  have hg : tm.tm_year ≥ (0 - 1900) ∧ tm.tm_year ≤ (4095 - 1900) := ⟨by omega, by omega⟩
  have hw : wrapInt (tm.tm_year + 1900) = tm.tm_year + 1900 :=
    wrapInt_id _ (by omega) (by omega)
  simp only [if_pos hg, hw]

theorem set_date_year_str_out_of_range {S : Type} (clock : BroadcastTime S)
    (strptime : String → String → Option Tm) (date_year : String) (s : S) (tm : Tm)
    (h : strptime date_year "%b %e, %Y" = some tm)
    (hr : tm.tm_year + 1900 < 0 ∨ 4095 < tm.tm_year + 1900) :
    clock.set_date_year_str strptime date_year s = (s, []) := by
  unfold BroadcastTime.set_date_year_str
  rw [h]
  have hg : ¬ (tm.tm_year ≥ (0 - 1900) ∧ tm.tm_year ≤ (4095 - 1900)) := by
    intro hc
    omega
  simp only [if_neg hg]

/-- C21: `set_date_year_str` calls a setter if and only if `strptime` with the
format `"%b %e, %Y"` returns a non-null pointer and the calendar year
`tm_year + 1900` is in 0..4095. In that case the calls are
`set_date(tm_mon + 1, tm_mday)` followed by `set_year(tm_year + 1900)`, once
each, the state is the one these two calls leave, and the month is the integer
`tm_mon + 1` for every `tm_mon` below the largest `int`. When `strptime`
returns null, or the year is out of the range, no setter is called and the
state is unchanged. -/
theorem C21_set_date_year_str_guarded {S : Type} (clock : BroadcastTime S)
    (strptime : String → String → Option Tm) (date_year : String) (s : S) :
    ((clock.set_date_year_str strptime date_year s).2 ≠ [] ↔
      ∃ tm, strptime date_year "%b %e, %Y" = some tm ∧
        0 ≤ tm.tm_year + 1900 ∧ tm.tm_year + 1900 ≤ 4095) ∧
    (∀ tm, strptime date_year "%b %e, %Y" = some tm →
      0 ≤ tm.tm_year + 1900 → tm.tm_year + 1900 ≤ 4095 →
      (clock.set_date_year_str strptime date_year s).2 =
        [ClockCall.set_date (wrapInt (tm.tm_mon + 1)) tm.tm_mday,
          ClockCall.set_year (tm.tm_year + 1900)] ∧
      (clock.set_date_year_str strptime date_year s).1 =
        clock.set_year (tm.tm_year + 1900)
          (clock.set_date (wrapInt (tm.tm_mon + 1)) tm.tm_mday s) ∧
      (-2147483648 ≤ tm.tm_mon → tm.tm_mon < 2147483647 →
        wrapInt (tm.tm_mon + 1) = tm.tm_mon + 1)) ∧
    (strptime date_year "%b %e, %Y" = none →
      clock.set_date_year_str strptime date_year s = (s, [])) ∧
    (∀ tm, strptime date_year "%b %e, %Y" = some tm →
      tm.tm_year + 1900 < 0 ∨ 4095 < tm.tm_year + 1900 →
      clock.set_date_year_str strptime date_year s = (s, [])) := by
  refine ⟨?_, ?_, set_date_year_str_none clock strptime date_year s,
    set_date_year_str_out_of_range clock strptime date_year s⟩
  · constructor
    · intro hne
      cases h : strptime date_year "%b %e, %Y" with
      | none =>
        rw [set_date_year_str_none clock strptime date_year s h] at hne
        exact absurd rfl hne
      | some tm =>
        by_cases hr : tm.tm_year + 1900 < 0 ∨ 4095 < tm.tm_year + 1900
        · rw [set_date_year_str_out_of_range clock strptime date_year s tm h hr] at hne
          exact absurd rfl hne
        · exact ⟨tm, rfl, by omega, by omega⟩
    · rintro ⟨tm, h, h0, h1⟩
      rw [set_date_year_str_valid clock strptime date_year s tm h h0 h1]
      simp
  · intro tm h h0 h1
    rw [set_date_year_str_valid clock strptime date_year s tm h h0 h1]
    exact ⟨rfl, rfl, fun a b => wrapInt_id _ (by omega) (by omega)⟩

/-- C21 on three strings: "Jan 5, 2023" sets the first month, day 5 and the
year 2023; "Mar 1, 5000", whose year is above 4095, and a string that does not
parse leave the clock as it was. -/
theorem C21_set_date_year_str_guarded_witness :
    storingClock.set_date_year_str strptimeTable "Jan 5, 2023" newYearsEve =
      ({ month := 1, day := 5, year := 2023 },
        [ClockCall.set_date 1 5, ClockCall.set_year 2023]) ∧
    storingClock.set_date_year_str strptimeTable "Mar 1, 5000" newYearsEve =
      (newYearsEve, []) ∧
    storingClock.set_date_year_str strptimeTable "5 January 2023" newYearsEve =
      (newYearsEve, []) :=
  ⟨by
      have h := (C21_set_date_year_str_guarded storingClock strptimeTable "Jan 5, 2023"
        newYearsEve).2.1 { tm_mday := 5, tm_mon := 0, tm_year := 123 } (by decide)
        (by decide) (by decide)
      exact Prod.ext h.2.1 h.1,
    (C21_set_date_year_str_guarded storingClock strptimeTable "Mar 1, 5000"
      newYearsEve).2.2.2 { tm_mday := 1, tm_mon := 2, tm_year := 3100 } (by decide)
      (by decide),
    (C21_set_date_year_str_guarded storingClock strptimeTable "5 January 2023"
      newYearsEve).2.2.1 (by decide)⟩

end OpenMRNLite
